import Mathlib


/-!
Heap allocator (explicit and implicit free list): embedding and verification.

A shallow embedding of `src/explicit.c` and `src/implicit.c`.

* Memory is a map from byte addresses to bytes.  Headers and list links are
  64-bit little-endian words.
* `size_t` and pointer arithmetic is arithmetic modulo `2 ^ 64`; `NULL` is `0`.
* The allocator owns exactly the bytes of `[segment_start, segment_end)`.  A
  load or store that leaves this range is a fault (`Err.segv`).
* `while` loops are unrolled over a fuel argument; running out of fuel is
  reported as `Err.fuel`.
* `printf` and `breakpoint` have no effect on the state and are dropped.
-/

namespace Heap

/-- Modelled from the spec: `ALIGNMENT` comes from `allocator.h`, which is not
among the sources; the spec fixes the word size `W = 8`, and both files store
headers and links as 8-byte words. -/
def ALIGNMENT : Nat := 8

/-- The modulus of `size_t` and of pointer arithmetic. -/
def WORD : Nat := 2 ^ 64

/-- The constant `#define ZERO_LAST 0xFFFFFFFFFFFFFFFE`. -/
def ZERO_LAST : Nat := 0xFFFFFFFFFFFFFFFE

/-- Ways in which a call fails to return. -/
inductive Err where
  | segv
  | fuel
deriving DecidableEq, Repr

/-- The globals of either file together with the memory.  `fl_front` exists
only in `explicit.c`; the implicit variant never reads or writes it. -/
structure State where
  mem : Nat → Nat
  segment_size : Nat
  segment_start : Nat
  segment_end : Nat
  fl_front : Nat
  nused : Nat

/-- Assignment to the memory. -/
def State.setMem (s : State) (m : Nat → Nat) : State :=
  { mem := m, segment_size := s.segment_size, segment_start := s.segment_start,
    segment_end := s.segment_end, fl_front := s.fl_front, nused := s.nused }

/-- Assignment to the global `nused`. -/
def State.setNused (s : State) (v : Nat) : State :=
  { mem := s.mem, segment_size := s.segment_size, segment_start := s.segment_start,
    segment_end := s.segment_end, fl_front := s.fl_front, nused := v }

/-- Assignment to the global `fl_front`. -/
def State.setFront (s : State) (v : Nat) : State :=
  { mem := s.mem, segment_size := s.segment_size, segment_start := s.segment_start,
    segment_end := s.segment_end, fl_front := v, nused := s.nused }

/-- Assignment to the globals `segment_start`, `segment_size` and `segment_end`. -/
def State.setRegion (s : State) (start size e : Nat) : State :=
  { mem := s.mem, segment_size := size, segment_start := start,
    segment_end := e, fl_front := s.fl_front, nused := s.nused }

/-! ## Memory -/

/-- Little-endian read of `k` bytes. -/
def readLE (m : Nat → Nat) : Nat → Nat → Nat
  | _, 0 => 0
  | a, k + 1 => m a % 256 + 256 * readLE m (a + 1) k

/-- Little-endian write of the low `k` bytes of `v`. -/
def writeLE (m : Nat → Nat) (a v k : Nat) : Nat → Nat :=
  fun x => if a ≤ x ∧ x < a + k then (v / 256 ^ (x - a)) % 256 else m x

def read64 (m : Nat → Nat) (a : Nat) : Nat := readLE m a 8

def write64 (m : Nat → Nat) (a v : Nat) : Nat → Nat := writeLE m a v 8

/-- A range of `n` bytes at `a` lies in the region the allocator owns. -/
def inRegion (s : State) (a n : Nat) : Prop :=
  s.segment_start ≤ a ∧ a + n ≤ s.segment_end

instance (s : State) (a n : Nat) : Decidable (inRegion s a n) := by
  unfold inRegion; infer_instance

/-- Load of a 64-bit word, `*p`. -/
def load (s : State) (a : Nat) : Except Err Nat :=
  if inRegion s a 8 then .ok (read64 s.mem a) else .error .segv

/-- Store of a 64-bit word, `*p = v`. -/
def store (s : State) (a v : Nat) : Except Err State :=
  if inRegion s a 8 then .ok (s.setMem (write64 s.mem a v)) else .error .segv

/-- The library call `memcpy(dst, src, n)` (and `memmove`): all source bytes
are read before any is written. -/
def memcpy (s : State) (dst src n : Nat) : Except Err State :=
  if n = 0 then .ok s
  else if inRegion s dst n ∧ inRegion s src n then
    .ok (s.setMem (fun x => if dst ≤ x ∧ x < dst + n then s.mem (src + (x - dst)) else s.mem x))
  else .error .segv

/-! ## Header codec and block walker (identical text in both files) -/

/-- `return !(*header & 1);` -/
def is_free (s : State) (header : Nat) : Except Err Bool := do
  let w ← load s header
  pure (w &&& 1 == 0)

/-- `*header = (size |= status);` -/
def set_header (s : State) (header size status : Nat) : Except Err State :=
  store s header (size ||| status)

/-- `return ((*header) & ZERO_LAST);` -/
def get_payload_size (s : State) (header : Nat) : Except Err Nat := do
  let w ← load s header
  pure (w &&& ZERO_LAST)

/-- `return ((char *)header + ALIGNMENT);` -/
def header2payload (header : Nat) : Nat := (header + ALIGNMENT) % WORD

/-- `return (header_t *)((char *)payload - ALIGNMENT);` -/
def payload2header (payload : Nat) : Nat := (payload + (WORD - ALIGNMENT)) % WORD

/-- The next header in address order, `NULL` at `segment_end`. -/
def next_header (s : State) (header : Nat) : Except Err Nat := do
  let payload_size ← get_payload_size s header
  let payload := header2payload header
  let n_header := (payload + payload_size) % WORD
  if n_header = s.segment_end then pure 0 else pure n_header

/-- `return (sz + mult - 1) & ~(mult - 1);` on `size_t`. -/
def roundup (sz mult : Nat) : Nat :=
  ((sz + mult + (WORD - 1)) % WORD) &&& (WORD - 1 - (mult + (WORD - 1)) % WORD)

/-- The request check, with the parameters in the order of its definition
`validate_request(size_t needed, size_t requested_size)`.  `MAX_REQUEST_SIZE`
comes from `allocator.h` and is a parameter. -/
def validate_request (MAX_REQUEST_SIZE : Nat) (s : State) (needed requested_size : Nat) : Bool :=
  if requested_size = 0 then false
  else if (needed + s.nused) % WORD > s.segment_size then false
  else if needed > MAX_REQUEST_SIZE then false
  else true

/-! ## The explicit free list allocator, `explicit.c` -/

namespace Explicit

def MINIMUM_BLOCK_SIZE : Nat := 24

def MINIMUM_PAYLOAD_SIZE : Nat := 16

/-- Writes the two fields of `struct node`: `payload->prev = new_prev;
payload->next = new_next;` (`prev` at offset 0, `next` at offset 8). -/
def set_nodes (s : State) (payload new_prev new_next : Nat) : Except Err State := do
  let s ← store s payload new_prev
  store s ((payload + 8) % WORD) new_next

/-- `n->prev` of the node in the payload of `header`. -/
def prev_free (s : State) (header : Nat) : Except Err Nat :=
  load s (header2payload header)

/-- `n->next` of the node in the payload of `header`. -/
def next_free (s : State) (header : Nat) : Except Err Nat :=
  load s ((header2payload header + 8) % WORD)

/-- Insertion at the front of the free list. -/
def add_free_block (s : State) (new_free_payload : Nat) : Except Err State := do
  let s ← (if s.fl_front = 0 then
      set_nodes s new_free_payload 0 0
    else do
      let s ← store s s.fl_front (payload2header new_free_payload)
      set_nodes s new_free_payload 0 (payload2header s.fl_front))
  pure (s.setFront new_free_payload)

/-- Removal of a node from the free list. -/
def detach_free_block (s : State) (free_payload : Nat) : Except Err State :=
  if s.fl_front = free_payload then do
    let next ← load s ((free_payload + 8) % WORD)
    if next = 0 then
      pure (s.setFront 0)
    else do
      let s := s.setFront (header2payload next)
      let s ← store s s.fl_front 0
      let next ← load s ((free_payload + 8) % WORD)
      let s ← (if next ≠ 0 then do
          let prev ← load s free_payload
          store s (header2payload next) prev
        else pure s)
      set_nodes s free_payload 0 0
  else do
    let last_free ← load s free_payload
    let last_node := header2payload last_free
    let next ← load s ((free_payload + 8) % WORD)
    let s ← store s ((last_node + 8) % WORD) next
    let next ← load s ((free_payload + 8) % WORD)
    let s ← (if next ≠ 0 then do
        let prev ← load s free_payload
        store s (header2payload next) prev
      else pure s)
    set_nodes s free_payload 0 0

/-- The loop of `next_free_block`. -/
def next_free_block_loop (s : State) : Nat → Nat → Except Err Nat
  | 0, _ => .error .fuel
  | fuel + 1, free_block_ptr =>
    if free_block_ptr = 0 then pure 0
    else do
      let fr ← is_free s free_block_ptr
      if fr then pure free_block_ptr
      else do
        let nxt ← next_header s free_block_ptr
        next_free_block_loop s fuel nxt

/-- The next free block in address order. -/
def next_free_block (fuel : Nat) (s : State) (free_block_ptr : Nat) : Except Err Nat := do
  let nxt ← next_header s free_block_ptr
  next_free_block_loop s fuel nxt

/-- The loop of `find_first`: `while (header != NULL)`. -/
def find_first_loop (s : State) (needed : Nat) : Nat → Nat → Except Err Nat
  | 0, _ => .error .fuel
  | fuel + 1, header =>
    if header = 0 then pure 0
    else do
      let sz ← get_payload_size s header
      if needed ≤ sz then pure header
      else do
        let nxt ← next_free s header
        find_first_loop s needed fuel nxt

/-- First fit over the free list, starting at `payload2header(fl_front)`. -/
def find_first (fuel : Nat) (s : State) (needed : Nat) : Except Err Nat :=
  find_first_loop s needed fuel (payload2header s.fl_front)

/-- Initialisation; the result carries the returned `bool`. -/
def myinit (s : State) (heap_start heap_size : Nat) : Except Err (Bool × State) :=
  if heap_size < MINIMUM_BLOCK_SIZE then pure (false, s)
  else do
    let s := s.setRegion heap_start heap_size ((heap_start + heap_size) % WORD)
    let s ← set_header s s.segment_start ((s.segment_size + (WORD - ALIGNMENT)) % WORD) 0
    let s := s.setFront (header2payload s.segment_start)
    let s ← set_nodes s s.fl_front 0 0
    pure (true, s.setNused ((s.nused + ALIGNMENT) % WORD))

/-- Installs a free block in the tail of a payload and lists it. -/
def split_block (s : State) (payload needed remaining : Nat) : Except Err State := do
  let s := s.setNused ((s.nused + ALIGNMENT) % WORD)
  let new_header := (payload + needed) % WORD
  let s ← set_header s new_header ((remaining + (WORD - ALIGNMENT)) % WORD) 0
  add_free_block s (header2payload new_header)

/-- `big_enough`: true when `remaining < MINIMUM_BLOCK_SIZE`. -/
def big_enough (remaining : Nat) : Bool :=
  if remaining < MINIMUM_BLOCK_SIZE then true else false

/-- Allocation; the result carries the returned pointer (`0` for `NULL`).  The
call `validate_request(requested_size, needed)` passes its arguments in this
order. -/
def mymalloc (MAX_REQUEST_SIZE fuel : Nat) (s : State) (requested_size : Nat) :
    Except Err (Nat × State) :=
  let needed := roundup requested_size ALIGNMENT
  let needed := if needed < MINIMUM_PAYLOAD_SIZE then MINIMUM_PAYLOAD_SIZE else needed
  if !validate_request MAX_REQUEST_SIZE s requested_size needed then pure (0, s)
  else do
    let header ← find_first fuel s needed
    if header = 0 then pure (0, s)
    else do
      let payload := header2payload header
      let s ← detach_free_block s payload
      let payloadsz ← get_payload_size s header
      let remaining := (payloadsz + (WORD - needed)) % WORD
      let (needed, s) ← (if big_enough remaining then pure (payloadsz, s)
        else do
          let s ← split_block s payload needed remaining
          pure (needed, s))
      let s ← set_header s header needed 1
      pure (payload, s.setNused ((s.nused + needed) % WORD))

/-- Rewrites the header of a block to absorb `payload2merge` more bytes; the
status written is `0`. -/
def merge_blocks (s : State) (new_free_block payload2merge : Nat) : Except Err State := do
  let orig_payloadsz ← get_payload_size s new_free_block
  let new_payloadsz := (orig_payloadsz + payload2merge) % WORD
  set_header s new_free_block new_payloadsz 0

/-- The loop of `coalesce`; returns the state and `payload2merge`. -/
def coalesce_loop : Nat → State → Nat → Nat → Except Err (State × Nat)
  | 0, _, _, _ => .error .fuel
  | fuel + 1, s, right_neighbor, payload2merge =>
    if right_neighbor = 0 then pure (s, payload2merge)
    else do
      let fr ← is_free s right_neighbor
      if !fr then pure (s, payload2merge)
      else do
        let sz ← get_payload_size s right_neighbor
        let payload2merge := (payload2merge + (ALIGNMENT + sz) % WORD) % WORD
        let s ← detach_free_block s (header2payload right_neighbor)
        let s := s.setNused ((s.nused + (WORD - ALIGNMENT)) % WORD)
        let nxt ← next_header s right_neighbor
        coalesce_loop fuel s nxt payload2merge

/-- Merges the run of free right neighbours into `new_free_block`. -/
def coalesce (fuel : Nat) (s : State) (new_free_block : Nat) : Except Err State := do
  let right_neighbor ← next_header s new_free_block
  let (s, payload2merge) ← coalesce_loop fuel s right_neighbor 0
  if payload2merge > 0 then merge_blocks s new_free_block payload2merge else pure s

/-- Release of a payload; `ptr = 0` is `NULL`. -/
def myfree (fuel : Nat) (s : State) (ptr : Nat) : Except Err State :=
  if ptr = 0 then pure s
  else do
    let header := payload2header ptr
    let payloadsz ← get_payload_size s header
    let s ← add_free_block s ptr
    let s ← set_header s header payloadsz 0
    let s ← coalesce fuel s header
    pure (s.setNused ((s.nused + (WORD - payloadsz)) % WORD))

/-- The in-place branch of `myrealloc`. -/
def realloc_inplace (s : State) (bytes2copy old_ptr needed post_cs_size old_header : Nat) :
    Except Err State := do
  let s ← memcpy s old_ptr old_ptr bytes2copy
  let remaining := (post_cs_size + (WORD - needed)) % WORD
  let (needed, s) ← (if big_enough remaining then pure (post_cs_size, s)
    else do
      let s ← split_block s old_ptr needed remaining
      pure (needed, s))
  let s ← set_header s old_header needed 1
  pure (s.setNused ((s.nused + needed) % WORD))

/-- Reallocation; the result carries the returned pointer. -/
def myrealloc (MAX_REQUEST_SIZE fuel : Nat) (s : State) (old_ptr new_size : Nat) :
    Except Err (Nat × State) :=
  let needed := roundup new_size ALIGNMENT
  let needed := if needed < MINIMUM_PAYLOAD_SIZE then MINIMUM_PAYLOAD_SIZE else needed
  if old_ptr = 0 then mymalloc MAX_REQUEST_SIZE fuel s new_size
  else if !validate_request MAX_REQUEST_SIZE s new_size needed then pure (0, s)
  else do
    let old_header := payload2header old_ptr
    let old_size ← get_payload_size s old_header
    let s ← coalesce fuel s old_header
    let post_cs_size ← get_payload_size s old_header
    if needed ≤ post_cs_size then do
      let bytes2copy := if old_size < new_size then old_size else new_size
      let s ← realloc_inplace s bytes2copy old_ptr needed post_cs_size old_header
      pure (old_ptr, s)
    else do
      let (new_ptr, s) ← mymalloc MAX_REQUEST_SIZE fuel s new_size
      if new_ptr = 0 then pure (0, s)
      else do
        let s ← memcpy s new_ptr old_ptr new_size
        let s ← myfree fuel s old_ptr
        pure (new_ptr, s.setNused ((s.nused + needed) % WORD))

end Explicit

/-! ## The implicit free list allocator, `implicit.c` -/

namespace Implicit

def MINIMUM_BLOCK_SIZE : Nat := 16

def MINIMUM_PAYLOAD : Nat := 8

/-- Initialisation; the result carries the returned `bool`. -/
def myinit (s : State) (heap_start heap_size : Nat) : Except Err (Bool × State) :=
  if heap_size < MINIMUM_BLOCK_SIZE then pure (false, s)
  else do
    let s := s.setRegion heap_start heap_size ((heap_start + heap_size) % WORD)
    let s ← set_header s s.segment_start ((s.segment_size + (WORD - ALIGNMENT)) % WORD) 0
    pure (true, s.setNused ((s.nused + ALIGNMENT) % WORD))

/-- The loop of `find_first`: `while (header)`; the test uses the non
short-circuit `&`, so both operands are evaluated. -/
def find_first_loop (s : State) (needed : Nat) : Nat → Nat → Except Err Nat
  | 0, _ => .error .fuel
  | fuel + 1, header =>
    if header = 0 then pure 0
    else do
      let sz ← get_payload_size s header
      let fr ← is_free s header
      if decide (needed ≤ sz) && fr then pure header
      else do
        let nxt ← next_header s header
        find_first_loop s needed fuel nxt

/-- First fit over all blocks in address order. -/
def find_first (fuel : Nat) (s : State) (needed : Nat) : Except Err Nat :=
  find_first_loop s needed fuel s.segment_start

/-- Installs a free header in the tail of a payload. -/
def split_block (s : State) (payload needed remaining : Nat) : Except Err State := do
  let s := s.setNused ((s.nused + ALIGNMENT) % WORD)
  let new_header := (payload + needed) % WORD
  set_header s new_header ((remaining + (WORD - ALIGNMENT)) % WORD) 0

/-- `big_enough`: true when `remaining < MINIMUM_BLOCK_SIZE`. -/
def big_enough (remaining : Nat) : Bool :=
  if remaining < MINIMUM_BLOCK_SIZE then true else false

/-- Allocation; the call passes `validate_request(requested_size, needed)`. -/
def mymalloc (MAX_REQUEST_SIZE fuel : Nat) (s : State) (requested_size : Nat) :
    Except Err (Nat × State) :=
  let needed := roundup requested_size ALIGNMENT
  if !validate_request MAX_REQUEST_SIZE s requested_size needed then pure (0, s)
  else do
    let header ← find_first fuel s needed
    if header = 0 then pure (0, s)
    else do
      let payloadsz ← get_payload_size s header
      let payload := header2payload header
      let remaining := (payloadsz + (WORD - needed)) % WORD
      let (needed, s) ← (if big_enough remaining then pure (payloadsz, s)
        else do
          let s ← split_block s payload needed remaining
          pure (needed, s))
      let s ← set_header s header needed 1
      pure (payload, s.setNused ((s.nused + needed) % WORD))

/-- Release of a payload; `ptr = 0` is `NULL`. -/
def myfree (s : State) (ptr : Nat) : Except Err State :=
  if ptr = 0 then pure s
  else do
    let header := payload2header ptr
    let payloadsz ← get_payload_size s header
    let s ← set_header s header payloadsz 0
    pure (s.setNused ((s.nused + (WORD - payloadsz)) % WORD))

/-- Reallocation: always a fresh block. -/
def myrealloc (MAX_REQUEST_SIZE fuel : Nat) (s : State) (old_ptr new_size : Nat) :
    Except Err (Nat × State) :=
  if old_ptr = 0 then mymalloc MAX_REQUEST_SIZE fuel s new_size
  else do
    let (new_ptr, s) ← mymalloc MAX_REQUEST_SIZE fuel s new_size
    if new_ptr = 0 then pure (0, s)
    else do
      let old_size ← get_payload_size s (payload2header old_ptr)
      let bytes2copy := if old_size < new_size then old_size else new_size
      let s ← memcpy s new_ptr old_ptr bytes2copy
      let s ← myfree s old_ptr
      pure (new_ptr, s)

end Implicit

end Heap

namespace Heap

/-! ## Abstract view of the region: blocks and the free list -/

/-- A block as the header at `addr` describes it. -/
structure Blk where
  addr : Nat
  size : Nat
  free : Bool
deriving DecidableEq, Repr

/-- The header word of a block: the payload size with the status in bit 0. -/
def hdrWord (size : Nat) (free : Bool) : Nat := size + (if free then 0 else 1)

/-- The blocks of `bs` lie one after the other from `a` to `e`. -/
def Chain : Nat → List Blk → Nat → Prop
  | a, [], e => a = e
  | a, b :: bs, e => b.addr = a ∧ Chain (a + 8 + b.size) bs e

/-- The header in memory is that of `b`; the size is aligned and at least `pmin`. -/
def BlkOK (pmin : Nat) (m : Nat → Nat) (b : Blk) : Prop :=
  read64 m b.addr = hdrWord b.size b.free ∧ b.size % 8 = 0 ∧ pmin ≤ b.size

/-- The region is a proper address range and `bs` is its sequence of blocks:
walking by `next_header` from `segment_start` visits exactly the blocks of `bs`
and ends at `segment_end`. -/
@[mk_iff] structure Tiled (pmin : Nat) (s : State) (bs : List Blk) : Prop where
  start_pos : 0 < s.segment_start
  end_lt : s.segment_end < WORD
  size_eq : s.segment_start + s.segment_size = s.segment_end
  chain : Chain s.segment_start bs s.segment_end
  nonempty : bs ≠ []
  ok : ∀ b ∈ bs, BlkOK pmin s.mem b

/-- The `next` links (offset 16 from the header) run along `l` and end in `z`. -/
def Fwd (m : Nat → Nat) : List Nat → Nat → Prop
  | [], _ => True
  | h :: t, z => read64 m (h + 16) = t.headD z ∧ Fwd m t z

/-- The `prev` links (offset 8 from the header) run back along `l` to `p`. -/
def Bwd (m : Nat → Nat) : Nat → List Nat → Prop
  | _, [] => True
  | p, h :: t => read64 m (h + 8) = p ∧ Bwd m h t

/-- The value of `fl_front` for a list of headers: the payload of the first. -/
def frontOf : List Nat → Nat
  | [] => 0
  | h :: _ => h + 8

/-- The free list in memory is the doubly linked list of the headers `fl`. -/
@[mk_iff] structure Listed (s : State) (fl : List Nat) : Prop where
  front : s.fl_front = frontOf fl
  fwd : Fwd s.mem fl 0
  bwd : Bwd s.mem 0 fl

/-- Well-formed explicit heap: tiled by `bs`, with the free list `fl` made of
distinct free blocks of `bs`. -/
@[mk_iff] structure WF (s : State) (bs : List Blk) (fl : List Nat) : Prop where
  tiled : Tiled 16 s bs
  listed : Listed s fl
  nodup : fl.Nodup
  sub : ∀ h ∈ fl, ∃ b ∈ bs, b.addr = h ∧ b.free = true

/-- Every free block is on the free list. -/
def Complete (bs : List Blk) (fl : List Nat) : Prop :=
  ∀ b ∈ bs, b.free = true → b.addr ∈ fl

/-- The two states have the same region. -/
def SameRegion (s t : State) : Prop :=
  t.segment_start = s.segment_start ∧ t.segment_end = s.segment_end ∧
    t.segment_size = s.segment_size

/-- The value `nused` should have: one word per block plus the allocated payloads. -/
def acct : List Blk → Nat
  | [] => 0
  | b :: bs => 8 + (if b.free then 0 else b.size) + acct bs

end Heap

namespace Heap

/-- The state with the header `(size, free)` written at `h`. -/
def setHdr (s : State) (h size : Nat) (free : Bool) : State :=
  s.setMem (write64 s.mem h (hdrWord size free))

/-- The address of an optional block, `NULL` for none. -/
def addrOf : Option Blk → Nat
  | none => 0
  | some b => b.addr

/-- The address `next_header` returns for a block followed by the blocks `r`. -/
def nextAddr : List Blk → Nat
  | [] => 0
  | c :: _ => c.addr

/-- The blocks that replace the free block `b` when `needed` bytes are carved
from it: the whole block when less than `bmin` bytes would remain, otherwise an
allocated block of `needed` bytes followed by the free remainder. -/
def carveBlks (bmin : Nat) (b : Blk) (needed : Nat) : List Blk :=
  if b.size - needed < bmin then [{ b with free := false }]
  else [{ addr := b.addr, size := needed, free := false },
        { addr := b.addr + 8 + needed, size := b.size - needed - 8, free := true }]

namespace Implicit

/-- The test of `find_first` on a block. -/
def fit (needed : Nat) (b : Blk) : Bool := decide (needed ≤ b.size) && b.free

/-- The state `mymalloc` leaves when it takes `needed` bytes from the block `b`. -/
def carve (s : State) (b : Blk) (needed : Nat) : State :=
  if b.size - needed < 16 then
    (setHdr s b.addr b.size false).setNused ((s.nused + b.size) % WORD)
  else
    (setHdr (setHdr (s.setNused ((s.nused + 8) % WORD)) (b.addr + 8 + needed)
      (b.size - needed - 8) true) b.addr needed false).setNused
        (((s.nused + 8) % WORD + needed) % WORD)

/-- The state `myfree` leaves for the block `b`. -/
def release (s : State) (b : Blk) : State :=
  (setHdr s b.addr b.size true).setNused ((s.nused + (WORD - b.size)) % WORD)

/-- The state after `memcpy(dst, src, k)`. -/
def copied (s : State) (dst src k : Nat) : State :=
  s.setMem (fun x => if dst ≤ x ∧ x < dst + k then s.mem (src + (x - dst)) else s.mem x)

/-- The state a successful `myrealloc` leaves: `needed` bytes carved from the
free block `c`, the old payload of `b` copied, `b` released. -/
def moved (s : State) (b c : Blk) (needed n : Nat) : State :=
  release (copied (carve s c needed) (c.addr + 8) (b.addr + 8) (if b.size < n then b.size else n)) b

end Implicit

/-- The calls a client makes. -/
inductive Op where
  | malloc (n : Nat)
  | free (p : Nat)
  | realloc (p n : Nat)
deriving DecidableEq, Repr

namespace Implicit

/-- One client call; `free` reports `0`. -/
def step (MAX_REQUEST_SIZE fuel : Nat) (s : State) : Op → Except Err (Nat × State)
  | .malloc n => mymalloc MAX_REQUEST_SIZE fuel s n
  | .free p => do
      let s ← myfree s p
      pure (0, s)
  | .realloc p n => myrealloc MAX_REQUEST_SIZE fuel s p n

/-- The pointer is the payload of a block that is currently allocated. -/
def Allocated (s : State) (p : Nat) : Prop :=
  ∃ bs, Tiled 8 s bs ∧ ∃ b ∈ bs, b.free = false ∧ p = b.addr + 8

/-- The arguments a client may pass: sizes are `size_t` values, pointers are
`NULL` or currently allocated payloads. -/
def Valid (s : State) : Op → Prop
  | .malloc n => n < WORD
  | .free p => p = 0 ∨ Allocated s p
  | .realloc p n => n < WORD ∧ (p = 0 ∨ Allocated s p)

/-- The invariant of the implicit variant: a tiling whose accounting is exact. -/
def Inv (s : State) : Prop := ∃ bs, Tiled 8 s bs ∧ s.nused = acct bs

/-- The states reached from `nused = 0` by one successful `myinit` on a region
whose size is a multiple of 8, followed by valid client calls, each run with
enough fuel for its loops (`segment_size` iterations always suffice). -/
inductive Reachable (MAX_REQUEST_SIZE : Nat) : State → Prop where
  | init (s0 s : State) (start size : Nat) :
      s0.nused = 0 → size % 8 = 0 → 0 < start → start + size < WORD →
      myinit s0 start size = .ok (true, s) → Reachable MAX_REQUEST_SIZE s
  | step (s t : State) (op : Op) (fuel r : Nat) :
      Reachable MAX_REQUEST_SIZE s → Valid s op → s.segment_size ≤ fuel →
      step MAX_REQUEST_SIZE fuel s op = .ok (r, t) → Reachable MAX_REQUEST_SIZE t

end Implicit

end Heap

namespace Heap

/-- The byte `x` lies in the two link words of the free block with header `g`. -/
def InNode (g x : Nat) : Prop := g + 8 ≤ x ∧ x < g + 24

/-- The headers of `fl` leave room for a header and two links each, inside the
region and without overlap. -/
structure Spaced (s : State) (fl : List Nat) : Prop where
  inreg : ∀ g ∈ fl, s.segment_start ≤ g ∧ g + 24 ≤ s.segment_end
  sep : fl.Pairwise (fun a b => a + 24 ≤ b ∨ b + 24 ≤ a)

/-- The free list `fl` is a doubly linked list of distinct block headers of the
tiling `bs`; unlike `WF`, nothing is said about the status of those blocks. -/
structure Linked (s : State) (bs : List Blk) (fl : List Nat) : Prop where
  tiled : Tiled 16 s bs
  listed : Listed s fl
  nodup : fl.Nodup
  sub : ∀ h ∈ fl, ∃ b ∈ bs, b.addr = h

/-- The bytes a run of blocks occupies, headers included. -/
def span : List Blk → Nat
  | [] => 0
  | c :: t => 8 + c.size + span t

/-- The block `b` after `coalesce` has merged the run of blocks `run` into it:
unchanged when the run is empty, otherwise free and grown by the run. -/
def merged (b : Blk) : List Blk → Blk
  | [] => b
  | c :: run => { addr := b.addr, size := b.size + span (c :: run), free := true }

/-- The statement `nused -= ALIGNMENT` on the value of `nused`. -/
def decStep (v : Nat) : Nat := (v + (WORD - ALIGNMENT)) % WORD

/-- The value of `nused` after `k` times `nused -= ALIGNMENT`. -/
def decN (v k : Nat) : Nat := Nat.iterate decStep k v

namespace Explicit

/-- The test of `find_first` on the header at `g`. -/
def fitAt (s : State) (needed g : Nat) : Bool := decide (needed ≤ read64 s.mem g &&& ZERO_LAST)

/-- The payload size `mymalloc` and `myrealloc` look for: `roundup` of the
request, raised to `MINIMUM_PAYLOAD_SIZE`. -/
def needOf (n : Nat) : Nat :=
  if roundup n ALIGNMENT < MINIMUM_PAYLOAD_SIZE then MINIMUM_PAYLOAD_SIZE else roundup n ALIGNMENT

/-- The free list after `needed` bytes are carved from the listed block `b`:
`b` leaves the list, and the remainder, if one is split off, enters at the front. -/
def carveList (b : Blk) (needed : Nat) (rest : List Nat) : List Nat :=
  if b.size - needed < 24 then rest else (b.addr + 8 + needed) :: rest

end Explicit

end Heap

namespace Heap

/-- A state before any initialisation: all globals and all bytes are zero. -/
def blank : State :=
  { mem := fun _ => 0, segment_size := 0, segment_start := 0, segment_end := 0,
    fl_front := 0, nused := 0 }

/-- The error of a call that does not return. -/
def errOf {α : Type} : Except Err α → Option Err
  | .error e => some e
  | .ok _ => none

instance Chain.decide : (a : Nat) → (bs : List Blk) → (e : Nat) → Decidable (Chain a bs e)
  | a, [], e => inferInstanceAs (Decidable (a = e))
  | a, b :: bs, e =>
    have := Chain.decide (a + 8 + b.size) bs e
    inferInstanceAs (Decidable (b.addr = a ∧ Chain (a + 8 + b.size) bs e))

instance (pmin : Nat) (m : Nat → Nat) (b : Blk) : Decidable (BlkOK pmin m b) :=
  inferInstanceAs (Decidable (_ ∧ _ ∧ _))

instance (pmin : Nat) (s : State) (bs : List Blk) : Decidable (Tiled pmin s bs) :=
  decidable_of_iff _ (tiled_iff pmin s bs).symm

instance Fwd.decide (m : Nat → Nat) : (l : List Nat) → (z : Nat) → Decidable (Fwd m l z)
  | [], _ => inferInstanceAs (Decidable True)
  | h :: t, z =>
    have := Fwd.decide m t z
    inferInstanceAs (Decidable (read64 m (h + 16) = t.headD z ∧ Fwd m t z))

instance Bwd.decide (m : Nat → Nat) : (p : Nat) → (l : List Nat) → Decidable (Bwd m p l)
  | _, [] => inferInstanceAs (Decidable True)
  | p, h :: t =>
    have := Bwd.decide m h t
    inferInstanceAs (Decidable (read64 m (h + 8) = p ∧ Bwd m h t))

instance (s : State) (fl : List Nat) : Decidable (Listed s fl) :=
  decidable_of_iff _ (listed_iff s fl).symm

instance (s : State) (bs : List Blk) (fl : List Nat) : Decidable (WF s bs fl) :=
  decidable_of_iff _ (wF_iff s bs fl).symm

instance (bs : List Blk) (fl : List Nat) : Decidable (Complete bs fl) :=
  inferInstanceAs (Decidable (∀ b ∈ bs, b.free = true → b.addr ∈ fl))

namespace Explicit

/-- One client call; `free` reports `0`. -/
def step (MAX_REQUEST_SIZE fuel : Nat) (s : State) : Op → Except Err (Nat × State)
  | .malloc n => mymalloc MAX_REQUEST_SIZE fuel s n
  | .free p => do
      let s ← myfree fuel s p
      pure (0, s)
  | .realloc p n => myrealloc MAX_REQUEST_SIZE fuel s p n

/-- A sequence of client calls; the result carries the values returned, in order. -/
def run (MAX_REQUEST_SIZE fuel : Nat) : State → List Op → Except Err (List Nat × State)
  | s, [] => pure ([], s)
  | s, op :: ops => do
      let (r, s) ← step MAX_REQUEST_SIZE fuel s op
      let (rs, s) ← run MAX_REQUEST_SIZE fuel s ops
      pure (r :: rs, s)

/-- `myinit` on a blank state followed by a sequence of client calls. -/
def session (MAX_REQUEST_SIZE fuel start size : Nat) (ops : List Op) :
    Except Err (List Nat × State) := do
  let (_, s) ← myinit blank start size
  run MAX_REQUEST_SIZE fuel s ops

/-- The headers on the free list, in list order: the walk `header =
payload2header(fl_front); while (header != NULL) header = next_free(header)`
that `find_first` and `validate_heap` perform. -/
def listWalk (s : State) : Nat → Nat → Except Err (List Nat)
  | 0, _ => .error .fuel
  | fuel + 1, header =>
    if header = 0 then pure []
    else do
      let nxt ← next_free s header
      let rest ← listWalk s fuel nxt
      pure (header :: rest)

/-- The headers of the free blocks in address order: the walk `header =
segment_start; while (header) header = next_header(header)` of `validate_heap`,
keeping the headers for which `is_free` holds. -/
def freeWalk (s : State) : Nat → Nat → Except Err (List Nat)
  | 0, _ => .error .fuel
  | fuel + 1, header =>
    if header = 0 then pure []
    else do
      let fr ← is_free s header
      let nxt ← next_header s header
      let rest ← freeWalk s fuel nxt
      pure (if fr then header :: rest else rest)

/-- The block at `header` and the block after it are both free. -/
def bothFree (s : State) (header : Nat) : Except Err Bool := do
  let f1 ← is_free s header
  let nxt ← next_header s header
  if nxt = 0 then pure false
  else do
    let f2 ← is_free s nxt
    pure (f1 && f2)

end Explicit

end Heap

namespace Heap

/-! ## Concrete heaps used to instantiate the theorems -/

/-- The state of a call that returned, `blank` otherwise. -/
def stateOf {α : Type} : Except Err (α × State) → State
  | .ok (_, s) => s
  | .error _ => blank

/-- The explicit heap after `myinit` on 128 bytes at address 4096. -/
def heapE0 : State := stateOf (Explicit.myinit blank 4096 128)

/-- `heapE0` after `mymalloc(32)`. -/
def heapE1 : State := stateOf (Explicit.mymalloc (2 ^ 30) 10 heapE0 32)

/-- `heapE1` after `mymalloc(16)`. -/
def heapE2 : State := stateOf (Explicit.mymalloc (2 ^ 30) 10 heapE1 16)

/-- The implicit heap after `myinit` on 128 bytes at address 4096. -/
def heapI0 : State := stateOf (Implicit.myinit blank 4096 128)

/-- `heapI0` after `mymalloc(32)`. -/
def heapI1 : State := stateOf (Implicit.mymalloc (2 ^ 30) 200 heapI0 32)

/-- `heapE1` after `myrealloc(4104, 40)`, which grows the block in place. -/
def heapE3 : State := stateOf (Explicit.myrealloc (2 ^ 30) 128 heapE1 4104 40)

/-- `heapE2` after `myrealloc(4104, 48)`, which moves the block. -/
def heapE4 : State := stateOf (Explicit.myrealloc (2 ^ 30) 128 heapE2 4104 48)

/-- `heapI1` after `myrealloc(4104, 40)`. -/
def heapI2 : State := stateOf (Implicit.myrealloc (2 ^ 30) 200 heapI1 4104 40)

end Heap

namespace Heap

/-- The statement `c++` on a C `int`, as two's-complement targets execute it. -/
def int_incr (c : Int) : Int := if c = 2147483647 then -2147483648 else c + 1

namespace Explicit

/-- The first loop of `validate_heap`, over the free list from
`payload2header(fl_front)`.  The result is `none` where the function returns
`false` (a listed block is not free), otherwise the counter `free_list_size`. -/
def validate_list_loop (s : State) : Nat → Nat → Int → Except Err (Option Int)
  | 0, _, _ => .error .fuel
  | fuel + 1, header, free_list_size =>
    if header = 0 then pure (some free_list_size)
    else do
      let fr ← is_free s header
      if !fr then pure none
      else do
        let nxt ← next_free s header
        validate_list_loop s fuel nxt (int_incr free_list_size)

/-- The second loop of `validate_heap`, over the blocks from `segment_start`.
The result is `none` where the function returns `false`, otherwise the counters
`num_free_blocks` and `live_count`.  (`num_blocks` is only incremented and never
read; it is left out.) -/
def validate_block_loop (s : State) : Nat → Nat → Int → Nat → Except Err (Option (Int × Nat))
  | 0, _, _, _ => .error .fuel
  | fuel + 1, header, num_free_blocks, live_count =>
    if header = 0 then pure (some (num_free_blocks, live_count))
    else do
      let this_size ← get_payload_size s header
      if this_size % ALIGNMENT ≠ 0 then pure none
      else if header > s.segment_end then pure none
      else do
        let fr ← is_free s header
        let num_free_blocks := if fr then int_incr num_free_blocks else num_free_blocks
        let live_count := (live_count + (ALIGNMENT + this_size) % WORD) % WORD
        let nxt ← next_header s header
        validate_block_loop s fuel nxt num_free_blocks live_count

/-- The heap checker of `explicit.c`; the result carries the returned `bool`. -/
def validate_heap (fuel : Nat) (s : State) : Except Err Bool := do
  let r ← validate_list_loop s fuel (payload2header s.fl_front) 0
  match r with
  | none => pure false
  | some free_list_size => do
    let r ← validate_block_loop s fuel s.segment_start 0 0
    match r with
    | none => pure false
    | some (num_free_blocks, live_count) =>
      if live_count > s.segment_size then pure false
      else if num_free_blocks < free_list_size then pure false
      else if num_free_blocks > free_list_size then pure false
      else pure true

end Explicit

end Heap

namespace Heap

/-- An explicit heap with three listed free blocks: `myinit` on 256 bytes at
4096, four allocations of 16 bytes, then the release of the first and of the
third.  The free list is 4144, 4096, 4192 in list order. -/
def heapE5 : State :=
  stateOf (Explicit.session (2 ^ 30) 10 4096 256
    [.malloc 16, .malloc 16, .malloc 16, .malloc 16, .free 4104, .free 4152])

end Heap

namespace Heap

/-! ## Bit-level facts -/

theorem land_high_mask (x n k : Nat) (hx : x < 2 ^ n) (hk : k ≤ n) :
    x &&& (2 ^ n - 2 ^ k) = x - x % 2 ^ k := by
  have h1 : 2 ^ n - 2 ^ k = 2 ^ k * (2 ^ (n - k) - 1) := by
    rw [Nat.mul_sub, ← Nat.pow_add, Nat.add_sub_cancel' hk, Nat.mul_one]
  have h2 : x - x % 2 ^ k = 2 ^ k * (x / 2 ^ k) := by
    have := Nat.div_add_mod x (2 ^ k)
    omega
  rw [h1, h2]
  apply Nat.eq_of_testBit_eq
  intro i
  rw [Nat.testBit_and, Nat.testBit_mul_pow_two, Nat.testBit_mul_pow_two,
    Nat.testBit_two_pow_sub_one, ← Nat.shiftRight_eq_div_pow, Nat.testBit_shiftRight]
  by_cases hik : k ≤ i
  · have e : k + (i - k) = i := by omega
    simp only [hik, decide_True, Bool.true_and, e]
    by_cases hin : i < n
    · have : i - k < n - k := by omega
      simp [this]
    · have hlt : x < 2 ^ i := lt_of_lt_of_le hx (Nat.pow_le_pow_right (by decide) (by omega))
      simp [Nat.testBit_lt_two_pow hlt]
  · simp [hik]

theorem land_ZERO_LAST (w : Nat) (hw : w < WORD) : w &&& ZERO_LAST = w - w % 2 := by
  have := land_high_mask w 64 1 hw (by decide)
  simpa [ZERO_LAST] using this

theorem lor_status (sz st : Nat) (h : sz % 2 = 0) (hs : st < 2) : sz ||| st = sz + st := by
  have e : sz = 2 ^ 1 * (sz / 2) := by omega
  rw [e, ← Nat.mul_add_lt_is_or (by simpa using hs)]

theorem roundup_eq (n : Nat) (hn : n + 7 < WORD) : roundup n ALIGNMENT = (n + 7) / 8 * 8 := by
  unfold roundup ALIGNMENT
  have e1 : (n + 8 + (WORD - 1)) % WORD = n + 7 := by
    unfold WORD at *; omega
  have e2 : WORD - 1 - (8 + (WORD - 1)) % WORD = 2 ^ 64 - 2 ^ 3 := by
    unfold WORD; norm_num
  rw [e1, e2, land_high_mask (n + 7) 64 3 hn (by decide)]
  omega

theorem roundup_wrap (n : Nat) (hn : n < WORD) (h7 : WORD ≤ n + 7) : roundup n ALIGNMENT = 0 := by
  unfold roundup ALIGNMENT
  have e1 : (n + 8 + (WORD - 1)) % WORD = n + 7 - WORD := by
    unfold WORD at *; omega
  have e2 : WORD - 1 - (8 + (WORD - 1)) % WORD = 2 ^ 64 - 2 ^ 3 := by
    unfold WORD; norm_num
  have hlt : n + 7 - WORD < 2 ^ 64 := by unfold WORD at *; omega
  rw [e1, e2, land_high_mask (n + 7 - WORD) 64 3 hlt (by decide)]
  unfold WORD at *; omega

theorem sub_mod_word (a b : Nat) (hb : b ≤ a) (ha : a < WORD) : (a + (WORD - b)) % WORD = a - b := by
  unfold WORD at *; omega

theorem add_mod_word (a b : Nat) (h : a + b < WORD) : (a + b) % WORD = a + b :=
  Nat.mod_eq_of_lt h

/-! ## Reads and writes of words -/

theorem readLE_lt (m : Nat → Nat) (a k : Nat) : readLE m a k < 256 ^ k := by
  induction k generalizing a with
  | zero => simp [readLE]
  | succ k ih =>
    have := ih (a + 1)
    have hb : m a % 256 < 256 := Nat.mod_lt _ (by decide)
    simp only [readLE, pow_succ]
    nlinarith

theorem read64_lt (m : Nat → Nat) (a : Nat) : read64 m a < WORD := by
  have := readLE_lt m a 8
  simpa [read64, WORD] using this

theorem readLE_congr (m m2 : Nat → Nat) (a k : Nat) (h : ∀ i, i < k → m2 (a + i) = m (a + i)) :
    readLE m2 a k = readLE m a k := by
  induction k generalizing a with
  | zero => rfl
  | succ k ih =>
    simp only [readLE]
    rw [ih (a + 1) (fun i hi => by have := h (i + 1) (by omega); rwa [Nat.add_assoc, Nat.add_comm 1 i])]
    have := h 0 (by omega)
    simp only [Nat.add_zero] at this
    rw [this]

theorem read64_congr (m m2 : Nat → Nat) (a : Nat) (h : ∀ i, i < 8 → m2 (a + i) = m (a + i)) :
    read64 m2 a = read64 m a := readLE_congr m m2 a 8 h

theorem writeLE_outside (m : Nat → Nat) (a v k x : Nat) (h : x < a ∨ a + k ≤ x) :
    writeLE m a v k x = m x := by
  unfold writeLE
  rw [if_neg (by omega)]

theorem write64_outside (m : Nat → Nat) (a v x : Nat) (h : x < a ∨ a + 8 ≤ x) :
    write64 m a v x = m x := writeLE_outside m a v 8 x h

theorem readLE_writeLE_same (m : Nat → Nat) (a v k : Nat) :
    readLE (writeLE m a v k) a k = v % 256 ^ k := by
  induction k generalizing a v m with
  | zero => simp [readLE, Nat.mod_one]
  | succ k ih =>
    simp only [readLE]
    have h0 : writeLE m a v (k + 1) a = v % 256 := by
      unfold writeLE; rw [if_pos (by omega)]; simp
    have h1 : readLE (writeLE m a v (k + 1)) (a + 1) k = readLE (writeLE m (a + 1) (v / 256) k) (a + 1) k := by
      apply readLE_congr
      intro i hi
      unfold writeLE
      rw [if_pos (by omega), if_pos (by omega)]
      have : a + 1 + i - a = (a + 1 + i - (a + 1)) + 1 := by omega
      rw [this, pow_succ, Nat.div_div_eq_div_mul, Nat.mul_comm]
    rw [h0, h1, ih, Nat.mod_mod, pow_succ, Nat.mul_comm (256 ^ k) 256, Nat.mod_mul]

theorem read64_write64_same (m : Nat → Nat) (a v : Nat) :
    read64 (write64 m a v) a = v % WORD := by
  have := readLE_writeLE_same m a v 8
  simpa [read64, write64, WORD] using this

theorem read64_write64_ne (m : Nat → Nat) (a v b : Nat) (h : b + 8 ≤ a ∨ a + 8 ≤ b) :
    read64 (write64 m a v) b = read64 m b := by
  apply read64_congr
  intro i hi
  apply write64_outside
  omega

end Heap

namespace Heap

/-! ## The result monad -/

@[simp] theorem ok_bind {α β : Type} (x : α) (f : α → Except Err β) :
    (Except.ok x >>= f) = f x := by
  show Except.bind (Except.ok x) f = f x
  unfold Except.bind
  exact id rfl

@[simp] theorem error_bind {α β : Type} (e : Err) (f : α → Except Err β) :
    (Except.error e >>= f) = Except.error e := by
  show Except.bind (Except.error e) f = Except.error e
  unfold Except.bind
  exact id rfl

@[simp] theorem pure_eq_ok {α : Type} (x : α) : (pure x : Except Err α) = Except.ok x :=
  id rfl

/-! ## Projections of updated states -/

@[simp] theorem setMem_mem (s : State) (m : Nat → Nat) :
    (s.setMem m).mem = m := id rfl

@[simp] theorem setMem_segment_size (s : State) (m : Nat → Nat) :
    (s.setMem m).segment_size = s.segment_size := id rfl

@[simp] theorem setMem_segment_start (s : State) (m : Nat → Nat) :
    (s.setMem m).segment_start = s.segment_start := id rfl

@[simp] theorem setMem_segment_end (s : State) (m : Nat → Nat) :
    (s.setMem m).segment_end = s.segment_end := id rfl

@[simp] theorem setMem_fl_front (s : State) (m : Nat → Nat) :
    (s.setMem m).fl_front = s.fl_front := id rfl

@[simp] theorem setMem_nused (s : State) (m : Nat → Nat) :
    (s.setMem m).nused = s.nused := id rfl

@[simp] theorem setNused_mem (s : State) (v : Nat) :
    (s.setNused v).mem = s.mem := id rfl

@[simp] theorem setNused_segment_size (s : State) (v : Nat) :
    (s.setNused v).segment_size = s.segment_size := id rfl

@[simp] theorem setNused_segment_start (s : State) (v : Nat) :
    (s.setNused v).segment_start = s.segment_start := id rfl

@[simp] theorem setNused_segment_end (s : State) (v : Nat) :
    (s.setNused v).segment_end = s.segment_end := id rfl

@[simp] theorem setNused_fl_front (s : State) (v : Nat) :
    (s.setNused v).fl_front = s.fl_front := id rfl

@[simp] theorem setNused_nused (s : State) (v : Nat) :
    (s.setNused v).nused = v := id rfl

@[simp] theorem setFront_mem (s : State) (v : Nat) :
    (s.setFront v).mem = s.mem := id rfl

@[simp] theorem setFront_segment_size (s : State) (v : Nat) :
    (s.setFront v).segment_size = s.segment_size := id rfl

@[simp] theorem setFront_segment_start (s : State) (v : Nat) :
    (s.setFront v).segment_start = s.segment_start := id rfl

@[simp] theorem setFront_segment_end (s : State) (v : Nat) :
    (s.setFront v).segment_end = s.segment_end := id rfl

@[simp] theorem setFront_fl_front (s : State) (v : Nat) :
    (s.setFront v).fl_front = v := id rfl

@[simp] theorem setFront_nused (s : State) (v : Nat) :
    (s.setFront v).nused = s.nused := id rfl

@[simp] theorem setRegion_mem (s : State) (a n e : Nat) :
    (s.setRegion a n e).mem = s.mem := id rfl

@[simp] theorem setRegion_segment_size (s : State) (a n e : Nat) :
    (s.setRegion a n e).segment_size = n := id rfl

@[simp] theorem setRegion_segment_start (s : State) (a n e : Nat) :
    (s.setRegion a n e).segment_start = a := id rfl

@[simp] theorem setRegion_segment_end (s : State) (a n e : Nat) :
    (s.setRegion a n e).segment_end = e := id rfl

@[simp] theorem setRegion_fl_front (s : State) (a n e : Nat) :
    (s.setRegion a n e).fl_front = s.fl_front := id rfl

@[simp] theorem setRegion_nused (s : State) (a n e : Nat) :
    (s.setRegion a n e).nused = s.nused := id rfl

@[simp] theorem setHdr_mem (s : State) (h sz : Nat) (fr : Bool) :
    (setHdr s h sz fr).mem = write64 s.mem h (hdrWord sz fr) := id rfl

@[simp] theorem setHdr_segment_size (s : State) (h sz : Nat) (fr : Bool) :
    (setHdr s h sz fr).segment_size = s.segment_size := id rfl

@[simp] theorem setHdr_segment_start (s : State) (h sz : Nat) (fr : Bool) :
    (setHdr s h sz fr).segment_start = s.segment_start := id rfl

@[simp] theorem setHdr_segment_end (s : State) (h sz : Nat) (fr : Bool) :
    (setHdr s h sz fr).segment_end = s.segment_end := id rfl

@[simp] theorem setHdr_fl_front (s : State) (h sz : Nat) (fr : Bool) :
    (setHdr s h sz fr).fl_front = s.fl_front := id rfl

@[simp] theorem setHdr_nused (s : State) (h sz : Nat) (fr : Bool) :
    (setHdr s h sz fr).nused = s.nused := id rfl

/-! ## Loads, stores and the header codec -/

theorem load_ok (s : State) (a : Nat) (h1 : s.segment_start ≤ a) (h2 : a + 8 ≤ s.segment_end) :
    load s a = .ok (read64 s.mem a) := by
  unfold load
  rw [if_pos ⟨h1, h2⟩]

theorem store_ok (s : State) (a v : Nat) (h1 : s.segment_start ≤ a) (h2 : a + 8 ≤ s.segment_end) :
    store s a v = .ok (s.setMem (write64 s.mem a v)) := by
  unfold store
  rw [if_pos ⟨h1, h2⟩]

theorem load_segv (s : State) (a : Nat) (h : a < s.segment_start ∨ s.segment_end < a + 8) :
    load s a = .error .segv := by
  unfold load
  rw [if_neg (by unfold inRegion; omega)]

theorem hdrWord_lt (sz : Nat) (fr : Bool) (h : sz + 8 ≤ WORD) : hdrWord sz fr < WORD := by
  unfold hdrWord; split <;> omega

theorem hdrWord_size (sz : Nat) (fr : Bool) (h8 : sz % 8 = 0) (hw : sz + 8 ≤ WORD) :
    hdrWord sz fr &&& ZERO_LAST = sz := by
  rw [land_ZERO_LAST _ (hdrWord_lt sz fr hw)]
  unfold hdrWord; split <;> omega

theorem hdrWord_free (sz : Nat) (fr : Bool) (h8 : sz % 8 = 0) :
    (hdrWord sz fr &&& 1 == 0) = fr := by
  rw [Nat.and_one_is_mod]
  unfold hdrWord
  cases fr
  · have : (sz + 1) % 2 = 1 := by omega
    simp [this]
  · have : sz % 2 = 0 := by omega
    simp [this]

theorem lor_zero_status (sz : Nat) : sz ||| 0 = hdrWord sz true := by
  simp [hdrWord]

theorem lor_one_status (sz : Nat) (h8 : sz % 8 = 0) : sz ||| 1 = hdrWord sz false := by
  rw [lor_status sz 1 (by omega) (by decide)]
  simp [hdrWord]

theorem get_payload_size_ok (s : State) (h sz : Nat) (fr : Bool)
    (h1 : s.segment_start ≤ h) (h2 : h + 8 ≤ s.segment_end)
    (hw : read64 s.mem h = hdrWord sz fr) (h8 : sz % 8 = 0) (hlt : sz + 8 ≤ WORD) :
    get_payload_size s h = .ok sz := by
  unfold get_payload_size
  rw [load_ok s h h1 h2, hw]
  simp [hdrWord_size sz fr h8 hlt]

theorem is_free_ok (s : State) (h sz : Nat) (fr : Bool)
    (h1 : s.segment_start ≤ h) (h2 : h + 8 ≤ s.segment_end)
    (hw : read64 s.mem h = hdrWord sz fr) (h8 : sz % 8 = 0) :
    is_free s h = .ok fr := by
  unfold is_free
  rw [load_ok s h h1 h2, hw]
  simp only [ok_bind, pure_eq_ok, hdrWord_free sz fr h8]

theorem header2payload_eq (h : Nat) (hlt : h + 8 < WORD) : header2payload h = h + 8 := by
  unfold header2payload ALIGNMENT
  exact Nat.mod_eq_of_lt hlt

theorem payload2header_eq (p : Nat) (h8 : 8 ≤ p) (hlt : p < WORD) : payload2header p = p - 8 := by
  unfold payload2header ALIGNMENT WORD at *
  omega

theorem payload2header_null : payload2header 0 = WORD - 8 := by
  unfold payload2header ALIGNMENT WORD
  norm_num

/-! ## Chains of blocks -/

theorem Chain_append (a e : Nat) (l r : List Blk) :
    Chain a (l ++ r) e ↔ ∃ mid, Chain a l mid ∧ Chain mid r e := by
  induction l generalizing a with
  | nil => simp [Chain]
  | cons b l ih =>
    show (b.addr = a ∧ Chain (a + 8 + b.size) (l ++ r) e) ↔
      ∃ mid, (b.addr = a ∧ Chain (a + 8 + b.size) l mid) ∧ Chain mid r e
    rw [ih]
    constructor
    · rintro ⟨hb, mid, h1, h2⟩
      exact ⟨mid, ⟨hb, h1⟩, h2⟩
    · rintro ⟨mid, ⟨hb, h1⟩, h2⟩
      exact ⟨hb, mid, h1, h2⟩

theorem Chain_le (a e : Nat) (bs : List Blk) (h : Chain a bs e) : a ≤ e := by
  induction bs generalizing a with
  | nil => simp [Chain] at h; omega
  | cons b bs ih =>
    have := ih _ h.2
    omega

theorem Chain_unique (a e e2 : Nat) (bs : List Blk) (h : Chain a bs e) (h2 : Chain a bs e2) :
    e = e2 := by
  induction bs generalizing a with
  | nil => simp [Chain] at h h2; omega
  | cons b bs ih => exact ih _ h.2 h2.2

theorem Chain_mem (a e : Nat) (bs : List Blk) (h : Chain a bs e) (b : Blk) (hb : b ∈ bs) :
    a ≤ b.addr ∧ b.addr + 8 + b.size ≤ e := by
  induction bs generalizing a with
  | nil => simp at hb
  | cons c bs ih =>
    rcases List.mem_cons.1 hb with rfl | hb
    · have := Chain_le _ _ _ h.2
      have := h.1
      omega
    · have := ih _ h.2 hb
      omega

/-- Splitting a chain at a member. -/
theorem Chain_split (a e : Nat) (l r : List Blk) (b : Blk) :
    Chain a (l ++ b :: r) e ↔ Chain a l b.addr ∧ Chain (b.addr + 8 + b.size) r e := by
  rw [Chain_append]
  constructor
  · rintro ⟨mid, h1, h2, h3⟩
    subst h2
    exact ⟨h1, h3⟩
  · rintro ⟨h1, h3⟩
    exact ⟨b.addr, h1, rfl, h3⟩

theorem Chain_length (a e : Nat) (bs : List Blk) (h : Chain a bs e) : a + 8 * bs.length ≤ e := by
  induction bs generalizing a with
  | nil => simp [Chain] at h; simp; omega
  | cons b bs ih =>
    have := ih _ h.2
    simp only [List.length_cons]
    omega

theorem Tiled.mem_bounds {pmin : Nat} {s : State} {bs : List Blk} (t : Tiled pmin s bs)
    {b : Blk} (hb : b ∈ bs) :
    s.segment_start ≤ b.addr ∧ b.addr + 8 + b.size ≤ s.segment_end ∧ s.segment_end < WORD ∧
      0 < s.segment_start := by
  have h1 := Chain_mem _ _ _ t.chain b hb
  have h2 := t.end_lt
  have h3 := t.start_pos
  omega

theorem Tiled.get_payload_size_eq {pmin : Nat} {s : State} {bs : List Blk} (t : Tiled pmin s bs)
    {b : Blk} (hb : b ∈ bs) : get_payload_size s b.addr = .ok b.size := by
  have hm := t.mem_bounds hb
  have ho := t.ok b hb
  exact get_payload_size_ok s b.addr b.size b.free hm.1 (by omega) ho.1 ho.2.1 (by omega)

theorem Tiled.is_free_eq {pmin : Nat} {s : State} {bs : List Blk} (t : Tiled pmin s bs)
    {b : Blk} (hb : b ∈ bs) : is_free s b.addr = .ok b.free := by
  have hm := t.mem_bounds hb
  have ho := t.ok b hb
  exact is_free_ok s b.addr b.size b.free hm.1 (by omega) ho.1 ho.2.1

theorem Tiled.next_header_eq {pmin : Nat} {s : State} {l r : List Blk} {b : Blk}
    (t : Tiled pmin s (l ++ b :: r)) : next_header s b.addr = .ok (nextAddr r) := by
  have hb : b ∈ l ++ b :: r := by simp
  have hm := t.mem_bounds hb
  have hc := ((Chain_split _ _ _ _ _).1 t.chain).2
  unfold next_header
  rw [t.get_payload_size_eq hb]
  simp only [ok_bind]
  rw [header2payload_eq _ (by omega), Nat.mod_eq_of_lt (by omega)]
  cases r with
  | nil =>
    simp only [Chain] at hc
    simp [nextAddr, hc]
  | cons c r =>
    have h1 := hc.1
    have hcm : c ∈ l ++ b :: c :: r := by simp
    have h2 := t.mem_bounds hcm
    have : b.addr + 8 + b.size ≠ s.segment_end := by omega
    simp [nextAddr, this, h1]

theorem Tiled.congr_hdr {pmin : Nat} {s t : State} {bs : List Blk} (h : Tiled pmin s bs)
    (hr : SameRegion s t) (hm : ∀ b ∈ bs, read64 t.mem b.addr = read64 s.mem b.addr) :
    Tiled pmin t bs := by
  obtain ⟨e1, e2, e3⟩ := hr
  refine ⟨by rw [e1]; exact h.start_pos, by rw [e2]; exact h.end_lt, by rw [e1, e2, e3]; exact h.size_eq,
    by rw [e1, e2]; exact h.chain, h.nonempty, ?_⟩
  intro b hb
  have := h.ok b hb
  unfold BlkOK at *
  rw [hm b hb]
  exact this

end Heap

namespace Heap

theorem set_header_free_ok (s : State) (h sz : Nat)
    (h1 : s.segment_start ≤ h) (h2 : h + 8 ≤ s.segment_end) :
    set_header s h sz 0 = .ok (setHdr s h sz true) := by
  unfold set_header
  rw [store_ok s h _ h1 h2, lor_zero_status]
  rfl

theorem set_header_alloc_ok (s : State) (h sz : Nat) (h8 : sz % 8 = 0)
    (h1 : s.segment_start ≤ h) (h2 : h + 8 ≤ s.segment_end) :
    set_header s h sz 1 = .ok (setHdr s h sz false) := by
  unfold set_header
  rw [store_ok s h _ h1 h2, lor_one_status sz h8]
  rfl

theorem setHdr_read_same (s : State) (h sz : Nat) (fr : Bool) (hlt : sz + 8 ≤ WORD) :
    read64 (setHdr s h sz fr).mem h = hdrWord sz fr := by
  rw [setHdr_mem, read64_write64_same]
  exact Nat.mod_eq_of_lt (hdrWord_lt sz fr hlt)

theorem setHdr_read_ne (s : State) (h sz : Nat) (fr : Bool) (a : Nat) (hd : a + 8 ≤ h ∨ h + 8 ≤ a) :
    read64 (setHdr s h sz fr).mem a = read64 s.mem a := by
  rw [setHdr_mem]
  exact read64_write64_ne _ _ _ _ hd

theorem setHdr_mem_outside (s : State) (h sz : Nat) (fr : Bool) (x : Nat) (hd : x < h ∨ h + 8 ≤ x) :
    (setHdr s h sz fr).mem x = s.mem x := by
  rw [setHdr_mem]
  exact write64_outside _ _ _ _ hd

theorem acct_append (l r : List Blk) : acct (l ++ r) = acct l + acct r := by
  induction l with
  | nil => simp [acct]
  | cons b l ih => simp [acct, ih]; omega

theorem Chain_acct (a e : Nat) (bs : List Blk) (h : Chain a bs e) : a + acct bs ≤ e := by
  induction bs generalizing a with
  | nil => simp [Chain] at h; simp [acct]; omega
  | cons b bs ih =>
    have := ih _ h.2
    simp only [acct]
    split <;> omega

namespace Implicit

theorem find_first_loop_eq {s : State} (needed : Nat) (bs2 : List Blk) :
    ∀ (l : List Blk) (fuel : Nat), Tiled 8 s (l ++ bs2) → bs2.length < fuel →
      find_first_loop s needed fuel (nextAddr bs2) = .ok (addrOf (bs2.find? (fit needed))) := by
  induction bs2 with
  | nil =>
    intro l fuel _ hf
    cases fuel with
    | zero => simp at hf
    | succ fuel => simp [find_first_loop, nextAddr, addrOf]
  | cons c r ih =>
    intro l fuel t hf
    cases fuel with
    | zero => simp at hf
    | succ fuel =>
      have hc : c ∈ l ++ c :: r := by simp
      have hm := t.mem_bounds hc
      have hne : c.addr ≠ 0 := by omega
      simp only [find_first_loop, nextAddr, if_neg hne, t.get_payload_size_eq hc, t.is_free_eq hc,
        ok_bind, t.next_header_eq]
      by_cases hfit : fit needed c = true
      · have : (decide (needed ≤ c.size) && c.free) = true := hfit
        simp [this, List.find?, hfit, addrOf]
      · have : (decide (needed ≤ c.size) && c.free) = false := by
          simpa [fit] using hfit
        have hfit2 : fit needed c = false := by simpa using hfit
        rw [this]
        simp only [Bool.false_eq_true, if_false, List.find?, hfit2]
        have t2 : Tiled 8 s ((l ++ [c]) ++ r) := by simpa using t
        exact ih (l ++ [c]) fuel t2 (by simpa using hf)

theorem find_first_eq {s : State} {bs : List Blk} (needed fuel : Nat) (t : Tiled 8 s bs)
    (hf : bs.length < fuel) :
    find_first fuel s needed = .ok (addrOf (bs.find? (fit needed))) := by
  unfold find_first
  cases bs with
  | nil => exact absurd rfl t.nonempty
  | cons b r =>
    have h1 : b.addr = s.segment_start := t.chain.1
    rw [← h1]
    exact find_first_loop_eq needed (b :: r) [] fuel (by simpa using t) hf

end Implicit
end Heap

namespace Heap

theorem validate_facts (MAX : Nat) (s : State) (n : Nat) (hn : n < WORD)
    (hv : validate_request MAX s n (roundup n ALIGNMENT) = true) :
    roundup n ALIGNMENT = (n + 7) / 8 * 8 ∧ 1 ≤ n ∧ n + 7 < WORD ∧ n ≤ MAX ∧
      (n + s.nused) % WORD ≤ s.segment_size := by
  unfold validate_request at hv
  by_cases h0 : roundup n ALIGNMENT = 0
  · simp [h0] at hv
  · rw [if_neg h0] at hv
    by_cases h1 : (n + s.nused) % WORD > s.segment_size
    · simp [h1] at hv
    · rw [if_neg h1] at hv
      by_cases h2 : n > MAX
      · simp [h2] at hv
      · by_cases h7 : n + 7 < WORD
        · have e := roundup_eq n h7
          rw [e] at h0
          refine ⟨e, ?_, h7, ?_, ?_⟩ <;> omega
        · exact absurd (roundup_wrap n hn (by omega)) h0

namespace Implicit

theorem mymalloc_eq {s : State} {bs : List Blk} (MAX fuel n : Nat) (t : Tiled 8 s bs)
    (hn : n < WORD) (hf : bs.length < fuel) :
    mymalloc MAX fuel s n = .ok (
      if validate_request MAX s n (roundup n ALIGNMENT) = true then
        match bs.find? (fit (roundup n ALIGNMENT)) with
        | none => (0, s)
        | some b => (b.addr + 8, carve s b (roundup n ALIGNMENT))
      else (0, s)) := by
  unfold mymalloc
  by_cases hv : validate_request MAX s n (roundup n ALIGNMENT) = true
  · obtain ⟨e, h1, h7, -, -⟩ := validate_facts MAX s n hn hv
    have h8 : roundup n ALIGNMENT % 8 = 0 := by rw [e]; omega
    have hpos : 8 ≤ roundup n ALIGNMENT := by rw [e]; omega
    simp only [hv, Bool.not_true, Bool.false_eq_true, if_false, if_true]
    rw [find_first_eq _ fuel t hf]
    simp only [ok_bind]
    generalize roundup n ALIGNMENT = needed at *
    cases hfind : bs.find? (fit needed) with
    | none => simp only [addrOf, if_true, pure_eq_ok]
    | some b =>
      have hb : b ∈ bs := List.mem_of_find?_eq_some hfind
      have hfit : fit needed b = true := List.find?_some hfind
      have hm := t.mem_bounds hb
      have ho := t.ok b hb
      have hne : b.addr ≠ 0 := by omega
      simp only [fit, Bool.and_eq_true, decide_eq_true_eq] at hfit
      obtain ⟨hle, hfree⟩ := hfit
      simp only [addrOf]
      rw [if_neg hne, t.get_payload_size_eq hb]
      simp only [ok_bind]
      have hp : header2payload b.addr = b.addr + 8 := header2payload_eq _ (by omega)
      rw [hp]
      have hrem : (b.size + (WORD - needed)) % WORD = b.size - needed :=
        sub_mod_word _ _ hle (by omega)
      rw [hrem]
      unfold carve big_enough MINIMUM_BLOCK_SIZE
      by_cases hbig : b.size - needed < 16
      · simp only [hbig, if_true, pure_eq_ok, ok_bind]
        rw [set_header_alloc_ok s b.addr b.size ho.2.1 hm.1 (by omega)]
        simp only [ok_bind, setHdr_nused]
      · simp only [hbig, if_false, pure_eq_ok, ok_bind, Bool.false_eq_true]
        unfold split_block
        simp only [ALIGNMENT]
        have e1 : (b.addr + 8 + needed) % WORD = b.addr + 8 + needed :=
          Nat.mod_eq_of_lt (by omega)
        have e2 : (b.size - needed + (WORD - 8)) % WORD = b.size - needed - 8 :=
          sub_mod_word _ 8 (by omega) (by omega)
        rw [e1, e2, set_header_free_ok _ _ _ (by simp only [setNused_segment_start]; omega)
          (by simp only [setNused_segment_end]; omega)]
        simp only [ok_bind]
        rw [set_header_alloc_ok _ _ _ h8 (by simp only [setHdr_segment_start, setNused_segment_start]; omega)
          (by simp only [setHdr_segment_end, setNused_segment_end]; omega)]
        simp only [ok_bind, setHdr_nused, setNused_nused]
  · simp only [hv, Bool.not_false, if_true, pure_eq_ok, Bool.false_eq_true, if_false]

end Implicit
end Heap

namespace Heap

/-- Replacing a segment of the tiling by other blocks over the same addresses,
when memory changed only inside the segment. -/
theorem Tiled.replace_seg {pmin : Nat} {s t : State} {l seg r k : List Blk} {a e : Nat}
    (h : Tiled pmin s (l ++ seg ++ r))
    (hl : Chain s.segment_start l a) (hr : Chain e r s.segment_end)
    (hreg : SameRegion s t)
    (hframe : ∀ x, (x < a ∨ e ≤ x) → t.mem x = s.mem x)
    (hmid : Chain a k e) (hne : k ≠ [])
    (hok : ∀ c ∈ k, BlkOK pmin t.mem c) :
    Tiled pmin t (l ++ k ++ r) := by
  obtain ⟨e1, e2, e3⟩ := hreg
  refine ⟨by rw [e1]; exact h.start_pos, by rw [e2]; exact h.end_lt,
    by rw [e1, e2, e3]; exact h.size_eq, ?_, ?_, ?_⟩
  · rw [e1, e2, List.append_assoc, Chain_append]
    exact ⟨a, hl, (Chain_append _ _ _ _).2 ⟨e, hmid, hr⟩⟩
  · cases k with
    | nil => exact absurd rfl hne
    | cons c k => simp
  · intro c hc
    rcases List.mem_append.1 hc with hc | hc
    · rcases List.mem_append.1 hc with hc | hc
      · have hb := Chain_mem _ _ _ hl c hc
        have ho := h.ok c (by simp [hc])
        refine ⟨?_, ho.2⟩
        rw [← ho.1]
        apply read64_congr
        intro i hi
        apply hframe
        omega
      · exact hok c hc
    · have hb := Chain_mem _ _ _ hr c hc
      have ho := h.ok c (by simp [hc])
      refine ⟨?_, ho.2⟩
      rw [← ho.1]
      apply read64_congr
      intro i hi
      apply hframe
      omega

/-- The pieces of a tiling around one of its blocks. -/
theorem Tiled.split_at {pmin : Nat} {s : State} {l r : List Blk} {b : Blk}
    (h : Tiled pmin s (l ++ b :: r)) :
    Chain s.segment_start l b.addr ∧ Chain (b.addr + 8 + b.size) r s.segment_end :=
  (Chain_split _ _ _ _ _).1 h.chain

theorem sameRegion_refl (s : State) : SameRegion s s := ⟨rfl, rfl, rfl⟩

theorem SameRegion.trans {s t u : State} (h1 : SameRegion s t) (h2 : SameRegion t u) :
    SameRegion s u :=
  ⟨h2.1.trans h1.1, h2.2.1.trans h1.2.1, h2.2.2.trans h1.2.2⟩

theorem acct_carve (bmin : Nat) (b : Blk) (needed : Nat) :
    acct (carveBlks bmin b needed) =
      if b.size - needed < bmin then 8 + b.size else 8 + needed + 8 := by
  unfold carveBlks
  split <;> simp [acct]

namespace Implicit

theorem carve_region (s : State) (b : Blk) (needed : Nat) : SameRegion s (carve s b needed) := by
  unfold carve
  split <;> simp [SameRegion]

theorem carve_front (s : State) (b : Blk) (needed : Nat) :
    (carve s b needed).fl_front = s.fl_front := by
  unfold carve
  split <;> simp

theorem carve_nused (s : State) (b : Blk) (needed : Nat) :
    (carve s b needed).nused =
      if b.size - needed < 16 then (s.nused + b.size) % WORD
      else ((s.nused + 8) % WORD + needed) % WORD := by
  unfold carve
  split <;> simp

/-- Memory after `carve` differs only in the header of `b` and, when the block
is split, in the new header at `b.addr + 8 + needed`. -/
theorem carve_mem (s : State) (b : Blk) (needed x : Nat)
    (hx : (x < b.addr ∨ b.addr + 8 ≤ x) ∧ (x < b.addr + 8 + needed ∨ b.addr + 8 + needed + 8 ≤ x)) :
    (carve s b needed).mem x = s.mem x := by
  unfold carve
  split
  · rw [setNused_mem, setHdr_mem_outside _ _ _ _ _ hx.1]
  · rw [setNused_mem, setHdr_mem_outside _ _ _ _ _ hx.1, setHdr_mem_outside _ _ _ _ _ hx.2,
      setNused_mem]

theorem carve_frame (s : State) (b : Blk) (needed x : Nat) (hle : needed ≤ b.size)
    (hx : x < b.addr ∨ b.addr + 8 + b.size ≤ x) :
    (carve s b needed).mem x = s.mem x := by
  by_cases hbig : b.size - needed < 16
  · unfold carve
    rw [if_pos hbig, setNused_mem, setHdr_mem_outside _ _ _ _ _ (by omega)]
  · apply carve_mem
    omega

theorem carve_tiled {s : State} {l r : List Blk} {b : Blk} {needed : Nat}
    (t : Tiled 8 s (l ++ b :: r)) (hle : needed ≤ b.size)
    (h8 : needed % 8 = 0) (hpos : 8 ≤ needed) :
    Tiled 8 (carve s b needed) (l ++ carveBlks 16 b needed ++ r) := by
  have hb : b ∈ l ++ b :: r := by simp
  have hm := t.mem_bounds hb
  have ho := t.ok b hb
  obtain ⟨hl, hr⟩ := t.split_at
  have t2 : Tiled 8 s (l ++ [b] ++ r) := by simpa using t
  by_cases hbig : b.size - needed < 16
  · refine t2.replace_seg hl hr (carve_region s b needed) ?_ ?_ ?_ ?_
    · intro x hx
      exact carve_frame _ _ _ _ hle hx
    · simp [carveBlks, hbig, Chain]
    · simp [carveBlks, hbig]
    · intro c hc
      simp only [carveBlks, hbig, if_true, List.mem_singleton] at hc
      subst hc
      refine ⟨?_, ho.2⟩
      simp only [carve, hbig, if_true, setNused_mem]
      exact setHdr_read_same _ _ _ _ (by omega)
  · refine t2.replace_seg hl hr (carve_region s b needed) ?_ ?_ ?_ ?_
    · intro x hx
      apply carve_mem
      omega
    · simp only [carveBlks, hbig, if_false, Chain, true_and]
      omega
    · simp [carveBlks, hbig]
    · intro c hc
      simp only [carveBlks, hbig, if_false, List.mem_cons, List.mem_singleton, List.not_mem_nil,
        or_false] at hc
      rcases hc with rfl | rfl
      · refine ⟨?_, h8, hpos⟩
        simp only [carve, hbig, if_false, setNused_mem]
        exact setHdr_read_same _ _ _ _ (by omega)
      · have h82 := ho.2.1
        refine ⟨?_, by simp; omega, by simp; omega⟩
        simp only [carve, hbig, if_false, setNused_mem]
        rw [setHdr_read_ne _ _ _ _ _ (by omega)]
        exact setHdr_read_same _ _ _ _ (by omega)

end Implicit
end Heap

namespace Heap

theorem Chain_disjoint (a e : Nat) (bs : List Blk) (h : Chain a bs e) (c d : Blk)
    (hc : c ∈ bs) (hd : d ∈ bs) :
    c = d ∨ c.addr + 8 + c.size ≤ d.addr ∨ d.addr + 8 + d.size ≤ c.addr := by
  induction bs generalizing a with
  | nil => simp at hc
  | cons x bs ih =>
    rcases List.mem_cons.1 hc with rfl | hc2 <;> rcases List.mem_cons.1 hd with rfl | hd2
    · exact Or.inl rfl
    · have := Chain_mem _ _ _ h.2 d hd2
      have := h.1
      right; left; omega
    · have := Chain_mem _ _ _ h.2 c hc2
      have := h.1
      right; right; omega
    · exact ih _ h.2 hc2 hd2

/-- A write inside the payload of a block leaves the tiling as it is. -/
theorem Tiled.payload_write {pmin : Nat} {s t : State} {bs : List Blk} (h : Tiled pmin s bs)
    (c : Blk) (hc : c ∈ bs) (hreg : SameRegion s t)
    (hframe : ∀ x, (x < c.addr + 8 ∨ c.addr + 8 + c.size ≤ x) → t.mem x = s.mem x) :
    Tiled pmin t bs := by
  refine h.congr_hdr hreg ?_
  intro d hd
  apply read64_congr
  intro i hi
  apply hframe
  rcases Chain_disjoint _ _ _ h.chain c d hc hd with rfl | h1 | h1 <;> omega

theorem Tiled.set_free {pmin : Nat} {s : State} {l r : List Blk} {b : Blk} (fr : Bool)
    (h : Tiled pmin s (l ++ b :: r)) :
    Tiled pmin (setHdr s b.addr b.size fr) (l ++ { b with free := fr } :: r) := by
  have hb : b ∈ l ++ b :: r := by simp
  have hm := h.mem_bounds hb
  have ho := h.ok b hb
  obtain ⟨hl, hr⟩ := h.split_at
  have t2 : Tiled pmin s (l ++ [b] ++ r) := by simpa using h
  have := t2.replace_seg (t := setHdr s b.addr b.size fr) (k := [{ b with free := fr }]) hl hr
    (by simp [SameRegion])
    (fun x hx => setHdr_mem_outside _ _ _ _ _ (by omega))
    (by simp [Chain]) (by simp)
    (by
      intro c hc
      simp only [List.mem_singleton] at hc
      subst hc
      exact ⟨setHdr_read_same _ _ _ _ (by omega), ho.2⟩)
  simpa using this

theorem Tiled.setNused {pmin : Nat} {s : State} {bs : List Blk} (h : Tiled pmin s bs) (v : Nat) :
    Tiled pmin (s.setNused v) bs :=
  h.congr_hdr (by simp [SameRegion]) (by simp)

namespace Implicit

theorem myfree_eq {s : State} {l r : List Blk} {b : Blk} (t : Tiled 8 s (l ++ b :: r)) :
    myfree s (b.addr + 8) = .ok (release s b) := by
  have hb : b ∈ l ++ b :: r := by simp
  have hm := t.mem_bounds hb
  unfold myfree
  rw [if_neg (by omega), payload2header_eq _ (by omega) (by omega)]
  simp only [Nat.add_sub_cancel, t.get_payload_size_eq hb, ok_bind]
  rw [set_header_free_ok _ _ _ hm.1 (by omega)]
  simp only [ok_bind, pure_eq_ok, setHdr_nused, release]

theorem release_tiled {s : State} {l r : List Blk} {b : Blk} (t : Tiled 8 s (l ++ b :: r)) :
    Tiled 8 (release s b) (l ++ { b with free := true } :: r) :=
  (t.set_free true).setNused _

theorem release_region (s : State) (b : Blk) : SameRegion s (release s b) := by
  simp [SameRegion, release]

theorem copied_region (s : State) (dst src k : Nat) : SameRegion s (copied s dst src k) := by
  simp [SameRegion, copied]

theorem memcpy_ok (s : State) (dst src k : Nat)
    (hd : s.segment_start ≤ dst ∧ dst + k ≤ s.segment_end)
    (hs : s.segment_start ≤ src ∧ src + k ≤ s.segment_end) :
    memcpy s dst src k = .ok (copied s dst src k) := by
  unfold memcpy copied
  by_cases hk : k = 0
  · subst hk
    rw [if_pos rfl]
    have : (fun x => if dst ≤ x ∧ x < dst + 0 then s.mem (src + (x - dst)) else s.mem x) = s.mem := by
      funext x
      rw [if_neg (by omega)]
    rw [this]
    rfl
  · rw [if_neg hk, if_pos ⟨hd, hs⟩]

end Implicit
end Heap

namespace Heap
namespace Implicit

/-- What a call of the implicit `mymalloc` does to a tiled heap. -/
theorem mymalloc_spec {s : State} {bs : List Blk} (MAX fuel n : Nat) (t : Tiled 8 s bs)
    (hn : n < WORD) (hf : bs.length < fuel) :
    ∃ q s2, mymalloc MAX fuel s n = .ok (q, s2) ∧
      ((q = 0 ∧ s2 = s) ∨
        (∃ l c r, bs = l ++ c :: r ∧ c.free = true ∧ (n + 7) / 8 * 8 ≤ c.size ∧ 1 ≤ n ∧
          q = c.addr + 8 ∧ s2 = carve s c ((n + 7) / 8 * 8) ∧
          Tiled 8 s2 (l ++ carveBlks 16 c ((n + 7) / 8 * 8) ++ r))) := by
  rw [mymalloc_eq MAX fuel n t hn hf]
  by_cases hv : validate_request MAX s n (roundup n ALIGNMENT) = true
  · obtain ⟨e, h1, h7, -, -⟩ := validate_facts MAX s n hn hv
    rw [if_pos hv, e]
    cases hfind : bs.find? (fit ((n + 7) / 8 * 8)) with
    | none => exact ⟨0, s, rfl, Or.inl ⟨rfl, rfl⟩⟩
    | some c =>
      have hc : c ∈ bs := List.mem_of_find?_eq_some hfind
      have hfit : fit ((n + 7) / 8 * 8) c = true := List.find?_some hfind
      simp only [fit, Bool.and_eq_true, decide_eq_true_eq] at hfit
      obtain ⟨l, r, rfl⟩ := List.append_of_mem hc
      refine ⟨c.addr + 8, carve s c ((n + 7) / 8 * 8), rfl, Or.inr ⟨l, c, r, rfl, hfit.2, hfit.1, h1,
        rfl, rfl, ?_⟩⟩
      exact carve_tiled t hfit.1 (by omega) (by omega)
  · rw [if_neg hv]
    exact ⟨0, s, rfl, Or.inl ⟨rfl, rfl⟩⟩

theorem acct_replace (l r : List Blk) (b : Blk) (fr : Bool) :
    acct (l ++ { b with free := fr } :: r) + (if b.free then 0 else b.size)
      = acct (l ++ b :: r) + (if fr then 0 else b.size) := by
  simp only [acct_append, acct]
  cases fr <;> cases b.free <;> simp <;> omega

theorem acct_le_size {pmin : Nat} {s : State} {bs : List Blk} (t : Tiled pmin s bs) :
    acct bs ≤ s.segment_size := by
  have := Chain_acct _ _ _ t.chain
  have := t.size_eq
  omega

theorem length_lt_size {s : State} {bs : List Blk} (t : Tiled 8 s bs) :
    bs.length < s.segment_size := by
  have h1 := Chain_length _ _ _ t.chain
  have h2 := t.size_eq
  have h3 : 0 < bs.length := List.length_pos.2 t.nonempty
  omega

/-- The accounting equation survives `mymalloc`. -/
theorem carve_acct {s : State} {l r : List Blk} {c : Blk} {needed : Nat}
    (t : Tiled 8 s (l ++ c :: r)) (hfree : c.free = true) (hle : needed ≤ c.size)
    (h8 : needed % 8 = 0) (hpos : 8 ≤ needed) (hacc : s.nused = acct (l ++ c :: r)) :
    (carve s c needed).nused = acct (l ++ carveBlks 16 c needed ++ r) := by
  have t2 := carve_tiled t hle h8 hpos
  have hle2 := acct_le_size t2
  have hW := t.end_lt
  have hsz := t.size_eq
  have hreg := (carve_region s c needed).2.2
  rw [carve_nused, hacc]
  simp only [acct_append, acct_carve, acct, hfree, if_true] at hle2 ⊢
  split
  · rename_i hbig
    rw [if_pos hbig] at hle2
    rw [Nat.mod_eq_of_lt (by omega)]
    omega
  · rename_i hbig
    rw [if_neg hbig] at hle2
    rw [Nat.mod_eq_of_lt (a := acct l + (8 + 0 + acct r) + 8) (by omega), Nat.mod_eq_of_lt (by omega)]
    omega

end Implicit
end Heap

namespace Heap
namespace Implicit

theorem release_acct {s : State} {l r : List Blk} {b : Blk} (t : Tiled 8 s (l ++ b :: r))
    (hfree : b.free = false) (hacc : s.nused = acct (l ++ b :: r)) :
    (release s b).nused = acct (l ++ { b with free := true } :: r) := by
  have h := acct_replace l r b true
  have hle := acct_le_size t
  have hW := t.end_lt
  have hsz := t.size_eq
  rw [hfree] at h
  simp only [Bool.false_eq_true, if_false, if_true] at h
  simp only [release, setNused_nused, hacc]
  rw [sub_mod_word _ _ (by omega) (by omega)]
  omega

theorem release_mem (s : State) (b : Blk) (x : Nat) (hx : x < b.addr ∨ b.addr + 8 ≤ x) :
    (release s b).mem x = s.mem x := by
  simp only [release, setNused_mem]
  exact setHdr_mem_outside _ _ _ _ _ hx

theorem copied_mem_dst (s : State) (dst src k i : Nat) (hi : i < k) :
    (copied s dst src k).mem (dst + i) = s.mem (src + i) := by
  simp only [copied, setMem_mem]
  rw [if_pos (by omega), Nat.add_sub_cancel_left]

theorem copied_mem_outside (s : State) (dst src k x : Nat) (hx : x < dst ∨ dst + k ≤ x) :
    (copied s dst src k).mem x = s.mem x := by
  simp only [copied, setMem_mem]
  rw [if_neg (by omega)]

/-- What a call of the implicit `myrealloc` on an allocated block does. -/
theorem myrealloc_spec {s : State} {bs : List Blk} {b : Blk} (MAX fuel n : Nat)
    (t : Tiled 8 s bs) (hb : b ∈ bs) (hfree : b.free = false)
    (hn : n < WORD) (hf : bs.length < fuel) :
    ∃ q s2, myrealloc MAX fuel s (b.addr + 8) n = .ok (q, s2) ∧
      ((q = 0 ∧ s2 = s) ∨
        (∃ bs2, Tiled 8 s2 bs2 ∧ q ≠ 0 ∧ SameRegion s s2 ∧
          (∀ i, i < b.size → i < n → s2.mem (q + i) = s.mem (b.addr + 8 + i)) ∧
          (s.nused = acct bs → s2.nused = acct bs2))) := by
  have hm := t.mem_bounds hb
  unfold myrealloc
  rw [if_neg (by omega)]
  obtain ⟨q, s1, e1, h1⟩ := mymalloc_spec MAX fuel n t hn hf
  rw [e1]
  simp only [ok_bind]
  rcases h1 with ⟨hq, hs⟩ | ⟨l, c, r, rfl, hcfree, hle, hn1, rfl, rfl, t1⟩
  · rw [hq, hs]
    exact ⟨0, s, by simp only [if_true, pure_eq_ok], Or.inl ⟨rfl, rfl⟩⟩
  · have hc : c ∈ l ++ c :: r := by simp
    have hcm := t.mem_bounds hc
    have hco := t.ok c hc
    have hnle : n ≤ (n + 7) / 8 * 8 := by omega
    have h8 : (n + 7) / 8 * 8 % 8 = 0 := by omega
    have hpos : 8 ≤ (n + 7) / 8 * 8 := by omega
    generalize (n + 7) / 8 * 8 = needed at *
    rw [if_neg (by omega), payload2header_eq _ (by omega) (by omega)]
    simp only [Nat.add_sub_cancel]
    -- the old block is still a block of the new tiling
    have hb1 : b ∈ l ++ carveBlks 16 c needed ++ r := by
      rcases List.mem_append.1 hb with h | h
      · simp [h]
      · rcases List.mem_cons.1 h with h | h
        · subst h; rw [hcfree] at hfree; exact absurd hfree (by simp)
        · simp [h]
    have hne : b ≠ c := by
      intro h; subst h; rw [hcfree] at hfree; exact absurd hfree (by simp)
    have hdis := Chain_disjoint _ _ _ t.chain b c hb hc
    have hdis : b.addr + 8 + b.size ≤ c.addr ∨ c.addr + 8 + c.size ≤ b.addr := by
      rcases hdis with h | h
      · exact absurd h hne
      · exact h
    rw [t1.get_payload_size_eq hb1]
    simp only [ok_bind]
    have hreg1 := carve_region s c needed
    -- the copy
    have hk : (if b.size < n then b.size else n) ≤ b.size ∧ (if b.size < n then b.size else n) ≤ n ∧
        ((if b.size < n then b.size else n) = b.size ∨ (if b.size < n then b.size else n) = n) := by
      split <;> omega
    generalize (if b.size < n then b.size else n) = k at *
    rw [memcpy_ok _ _ _ _ (by rw [hreg1.1, hreg1.2.1]; omega) (by rw [hreg1.1, hreg1.2.1]; omega)]
    simp only [ok_bind]
    -- the new block in the tiling after the carve
    have hnew : ∃ c2, c2 ∈ l ++ carveBlks 16 c needed ++ r ∧ c2.addr = c.addr ∧ needed ≤ c2.size := by
      unfold carveBlks
      split
      · exact ⟨{ c with free := false }, by simp, rfl, hle⟩
      · exact ⟨{ addr := c.addr, size := needed, free := false }, by simp, rfl, le_refl _⟩
    obtain ⟨c2, hc2, hc2a, hc2s⟩ := hnew
    have t2 : Tiled 8 (copied (carve s c needed) (c.addr + 8) (b.addr + 8) k)
        (l ++ carveBlks 16 c needed ++ r) :=
      t1.payload_write c2 hc2 (copied_region _ _ _ _)
        (fun x hx => copied_mem_outside _ _ _ _ _ (by omega))
    obtain ⟨l2, r2, e2⟩ := List.append_of_mem hb1
    rw [e2] at t2 t1
    rw [myfree_eq t2]
    simp only [ok_bind, pure_eq_ok]
    refine ⟨_, _, rfl, Or.inr ⟨_, release_tiled t2, by omega, ?_, ?_, ?_⟩⟩
    · exact (hreg1.trans (copied_region _ _ _ _)).trans (release_region _ _)
    · intro i hi1 hi2
      rw [release_mem _ _ (c.addr + 8 + i) (by omega), copied_mem_dst _ _ _ _ i (by omega)]
      exact carve_frame _ _ _ _ hle (by omega)
    · intro hacc
      have ha1 := carve_acct t hcfree hle h8 hpos hacc
      rw [e2] at ha1
      exact release_acct t2 hfree (by simpa [copied] using ha1)

end Implicit
end Heap

namespace Heap

theorem hdrWord_inj (sz sz2 : Nat) (fr fr2 : Bool) (h1 : sz % 8 = 0) (h2 : sz2 % 8 = 0)
    (h : hdrWord sz fr = hdrWord sz2 fr2) : sz = sz2 ∧ fr = fr2 := by
  unfold hdrWord at h
  cases fr <;> cases fr2 <;> simp at h ⊢ <;> omega

theorem Chain_ok_unique (pmin : Nat) (m : Nat → Nat) (a e : Nat) (bs bs2 : List Blk)
    (h1 : Chain a bs e) (h2 : Chain a bs2 e)
    (o1 : ∀ b ∈ bs, BlkOK pmin m b) (o2 : ∀ b ∈ bs2, BlkOK pmin m b) : bs = bs2 := by
  induction bs generalizing a bs2 with
  | nil =>
    cases bs2 with
    | nil => rfl
    | cons c r =>
      have := Chain_le _ _ _ h2.2
      simp only [Chain] at h1
      omega
  | cons b l ih =>
    cases bs2 with
    | nil =>
      have := Chain_le _ _ _ h1.2
      simp only [Chain] at h2
      omega
    | cons c r =>
      have hb := o1 b (by simp)
      have hc := o2 c (by simp)
      have ha : b.addr = c.addr := by rw [h1.1, h2.1]
      have hw : hdrWord b.size b.free = hdrWord c.size c.free := by
        rw [← hb.1, ← hc.1, ha]
      obtain ⟨hs, hf⟩ := hdrWord_inj _ _ _ _ hb.2.1 hc.2.1 hw
      have hbc : b = c := by
        cases b; cases c; simp at ha hs hf ⊢; exact ⟨ha, hs, hf⟩
      subst hbc
      have := ih (a + 8 + b.size) r h1.2 h2.2 (fun x hx => o1 x (by simp [hx]))
        (fun x hx => o2 x (by simp [hx]))
      rw [this]

theorem Tiled.unique {pmin : Nat} {s : State} {bs bs2 : List Blk} (h1 : Tiled pmin s bs)
    (h2 : Tiled pmin s bs2) : bs = bs2 :=
  Chain_ok_unique pmin s.mem _ _ bs bs2 h1.chain h2.chain h1.ok h2.ok

theorem acct_eq_sum (bs : List Blk) :
    acct bs = 8 * bs.length + ((bs.filter (fun b => !b.free)).map Blk.size).sum := by
  induction bs with
  | nil => simp [acct]
  | cons b bs ih =>
    simp only [acct, ih, List.length_cons, List.filter_cons]
    cases b.free <;> simp <;> omega

namespace Implicit

theorem myinit_spec (s0 s : State) (start size : Nat)
    (h8 : size % 8 = 0) (hpos : 0 < start) (hlt : start + size < WORD)
    (h : myinit s0 start size = .ok (true, s)) :
    Tiled 8 s [{ addr := start, size := size - 8, free := true }] ∧
      s.nused = (s0.nused + 8) % WORD := by
  unfold myinit MINIMUM_BLOCK_SIZE at h
  by_cases h16 : size < 16
  · rw [if_pos h16] at h
    simp only [pure_eq_ok, Except.ok.injEq, Prod.mk.injEq] at h
    exact absurd h.1 (by simp)
  · rw [if_neg h16] at h
    simp only [ALIGNMENT, setRegion_segment_start, setRegion_segment_size] at h
    rw [Nat.mod_eq_of_lt hlt, sub_mod_word size 8 (by omega) (by omega),
      set_header_free_ok _ _ _ (by simp) (by simp; omega)] at h
    simp only [ok_bind, pure_eq_ok, Except.ok.injEq, Prod.mk.injEq, true_and, setHdr_nused,
      setRegion_nused] at h
    subst h
    refine ⟨⟨by simpa using hpos, by simpa using hlt, by simp, ?_, by simp, ?_⟩, by simp⟩
    · simp only [setNused_segment_start, setHdr_segment_start, setRegion_segment_start,
        setNused_segment_end, setHdr_segment_end, setRegion_segment_end, Chain, true_and]
      omega
    · intro b hb
      simp only [List.mem_singleton] at hb
      subst hb
      refine ⟨?_, by simp; omega, by simp; omega⟩
      simp only [setNused_mem]
      exact setHdr_read_same _ _ _ _ (by omega)

theorem step_inv (MAX fuel : Nat) (s : State) (op : Op) (hi : Inv s) (hv : Valid s op)
    (hf : s.segment_size ≤ fuel) :
    ∃ r t, step MAX fuel s op = .ok (r, t) ∧ Inv t := by
  obtain ⟨bs, tl, hacc⟩ := hi
  have hfl : bs.length < fuel := lt_of_lt_of_le (length_lt_size tl) hf
  cases op with
  | malloc n =>
    obtain ⟨q, s2, e, h⟩ := mymalloc_spec MAX fuel n tl hv hfl
    refine ⟨q, s2, e, ?_⟩
    rcases h with ⟨-, hs⟩ | ⟨l, c, r, rfl, hcfree, hle, hn1, -, hs, t1⟩
    · rw [hs]; exact ⟨bs, tl, hacc⟩
    · rw [hs] at t1 ⊢
      exact ⟨_, t1, carve_acct tl hcfree hle (by omega) (by omega) hacc⟩
  | free p =>
    rcases hv with rfl | ⟨bs2, tl2, b, hb, hbf, rfl⟩
    · exact ⟨0, s, by simp only [step, myfree, if_true, pure_eq_ok, ok_bind], bs, tl, hacc⟩
    · have := tl.unique tl2
      subst this
      obtain ⟨l, r, rfl⟩ := List.append_of_mem hb
      refine ⟨0, release s b, by simp only [step, myfree_eq tl, ok_bind, pure_eq_ok], _,
        release_tiled tl, release_acct tl hbf hacc⟩
  | realloc p n =>
    obtain ⟨hn, rfl | ⟨bs2, tl2, b, hb, hbf, rfl⟩⟩ := hv
    · obtain ⟨q, s2, e, h⟩ := mymalloc_spec MAX fuel n tl hn hfl
      refine ⟨q, s2, by simp only [step, myrealloc, if_true, e], ?_⟩
      rcases h with ⟨-, hs⟩ | ⟨l, c, r, rfl, hcfree, hle, hn1, -, hs, t1⟩
      · rw [hs]; exact ⟨bs, tl, hacc⟩
      · rw [hs] at t1 ⊢
        exact ⟨_, t1, carve_acct tl hcfree hle (by omega) (by omega) hacc⟩
    · have := tl.unique tl2
      subst this
      obtain ⟨q, s2, e, h⟩ := myrealloc_spec MAX fuel n tl hb hbf hn hfl
      refine ⟨q, s2, e, ?_⟩
      rcases h with ⟨-, hs⟩ | ⟨bs3, t3, -, -, -, ha⟩
      · rw [hs]; exact ⟨bs, tl, hacc⟩
      · exact ⟨bs3, t3, ha hacc⟩

theorem reachable_inv (MAX : Nat) (s : State) (h : Reachable MAX s) : Inv s := by
  induction h with
  | init s0 s start size h0 h8 hpos hlt hi =>
    obtain ⟨t, hn⟩ := myinit_spec s0 s start size h8 hpos hlt hi
    refine ⟨_, t, ?_⟩
    rw [hn, h0]
    simp [acct, WORD]
  | step s t op fuel r _ hv hf hs ih =>
    obtain ⟨r2, t2, e, hi⟩ := step_inv MAX fuel s op ih hv hf
    rw [e] at hs
    simp only [Except.ok.injEq, Prod.mk.injEq] at hs
    rw [← hs.2]
    exact hi

end Implicit
end Heap

namespace Heap

/-! ## The doubly linked list in memory -/

theorem Fwd_nil (m : Nat → Nat) (z : Nat) : Fwd m [] z ↔ True := Iff.rfl

theorem Fwd_cons (m : Nat → Nat) (h : Nat) (t : List Nat) (z : Nat) :
    Fwd m (h :: t) z ↔ read64 m (h + 16) = t.headD z ∧ Fwd m t z := Iff.rfl

theorem Bwd_nil (m : Nat → Nat) (p : Nat) : Bwd m p [] ↔ True := Iff.rfl

theorem Bwd_cons (m : Nat → Nat) (h : Nat) (t : List Nat) (p : Nat) :
    Bwd m p (h :: t) ↔ read64 m (h + 8) = p ∧ Bwd m h t := Iff.rfl

theorem Fwd_append (m : Nat → Nat) (l r : List Nat) (z : Nat) :
    Fwd m (l ++ r) z ↔ Fwd m l (r.headD z) ∧ Fwd m r z := by
  induction l with
  | nil => rw [List.nil_append, Fwd_nil, true_and]
  | cons a l ih =>
    rw [List.cons_append, Fwd_cons, Fwd_cons, ih]
    cases l with
    | nil =>
      rw [List.nil_append, List.headD_nil]
      exact ⟨fun ⟨h1, _, h3⟩ => ⟨⟨h1, trivial⟩, h3⟩, fun ⟨⟨h1, _⟩, h3⟩ => ⟨h1, trivial, h3⟩⟩
    | cons b l =>
      rw [List.cons_append, List.headD_cons, List.headD_cons]
      exact ⟨fun ⟨h1, h2, h3⟩ => ⟨⟨h1, h2⟩, h3⟩, fun ⟨⟨h1, h2⟩, h3⟩ => ⟨h1, h2, h3⟩⟩

theorem Bwd_append (m : Nat → Nat) (l r : List Nat) (p : Nat) :
    Bwd m p (l ++ r) ↔ Bwd m p l ∧ Bwd m (l.getLastD p) r := by
  induction l generalizing p with
  | nil => rw [List.nil_append, Bwd_nil, true_and]; rfl
  | cons a l ih =>
    rw [List.cons_append, Bwd_cons, Bwd_cons, ih, List.getLastD_cons]
    exact ⟨fun ⟨h1, h2, h3⟩ => ⟨⟨h1, h2⟩, h3⟩, fun ⟨⟨h1, h2⟩, h3⟩ => ⟨h1, h2, h3⟩⟩

theorem Fwd_congr (m m2 : Nat → Nat) (l : List Nat) (z : Nat)
    (h : ∀ g ∈ l, read64 m2 (g + 16) = read64 m (g + 16)) (hf : Fwd m l z) : Fwd m2 l z := by
  induction l with
  | nil => trivial
  | cons a l ih =>
    refine ⟨?_, ih (fun g hg => h g (by simp [hg])) hf.2⟩
    rw [h a (by simp)]
    exact hf.1

theorem Bwd_congr (m m2 : Nat → Nat) (l : List Nat) (p : Nat)
    (h : ∀ g ∈ l, read64 m2 (g + 8) = read64 m (g + 8)) (hf : Bwd m p l) : Bwd m2 p l := by
  induction l generalizing p with
  | nil => trivial
  | cons a l ih =>
    refine ⟨?_, ih a (fun g hg => h g (by simp [hg])) hf.2⟩
    rw [h a (by simp)]
    exact hf.1

theorem frontOf_pos (fl : List Nat) (h : ∀ g ∈ fl, 0 < g) : fl ≠ [] → 0 < frontOf fl := by
  cases fl with
  | nil => intro h; exact absurd rfl h
  | cons a l => intro _; simp [frontOf]

theorem Spaced.congr_region {s t : State} {fl : List Nat} (h : Spaced s fl) (hr : SameRegion s t) :
    Spaced t fl := by
  obtain ⟨e1, e2, -⟩ := hr
  exact ⟨by rw [e1, e2]; exact h.inreg, h.sep⟩

theorem Spaced.nodup {s : State} {fl : List Nat} (h : Spaced s fl) : fl.Nodup := by
  refine h.sep.imp ?_
  intro a b hab
  omega

end Heap

namespace Heap
namespace Explicit

theorem set_nodes_ok (s : State) (p a b : Nat) (h1 : s.segment_start ≤ p)
    (h2 : p + 16 ≤ s.segment_end) (hW : s.segment_end < WORD) :
    set_nodes s p a b = .ok (s.setMem (write64 (write64 s.mem p a) (p + 8) b)) := by
  unfold set_nodes
  rw [store_ok _ _ _ h1 (by omega)]
  simp only [ok_bind]
  rw [Nat.mod_eq_of_lt (by omega), store_ok _ _ _ (by simp; omega) (by simp; omega)]
  simp only [setMem_mem]
  rfl

theorem frontOf_append (l r : List Nat) (h : l ≠ []) : frontOf (l ++ r) = frontOf l := by
  cases l with
  | nil => exact absurd rfl h
  | cons a l => rfl

theorem frontOf_mem (l : List Nat) (h : l ≠ []) : ∃ x ∈ l, frontOf l = x + 8 := by
  cases l with
  | nil => exact absurd rfl h
  | cons a l => exact ⟨a, by simp, rfl⟩

/-- Removal of a member from the free list. -/
theorem detach_spec (s : State) (l r : List Nat) (h : Nat)
    (hpos : 0 < s.segment_start) (hW : s.segment_end < WORD)
    (hl : Listed s (l ++ h :: r)) (hsp : Spaced s (l ++ h :: r)) :
    ∃ t, detach_free_block s (h + 8) = .ok t ∧ Listed t (l ++ r) ∧ SameRegion s t ∧
      t.nused = s.nused ∧
      (∀ x, (∀ g ∈ l ++ h :: r, ¬ InNode g x) → t.mem x = s.mem x) ∧
      read64 t.mem (h + 8) = 0 ∧ read64 t.mem (h + 16) = 0 := by
  have hin := hsp.inreg
  have hh := hin h (by simp)
  have hsep := hsp.sep
  rw [List.pairwise_append] at hsep
  obtain ⟨sepl, sephr, seplr⟩ := hsep
  rw [List.pairwise_cons] at sephr
  obtain ⟨sephr, sepr⟩ := sephr
  have hfwd := hl.fwd
  have hbwd := hl.bwd
  rw [Fwd_append, Fwd_cons] at hfwd
  rw [Bwd_append, Bwd_cons] at hbwd
  obtain ⟨fl1, fh, fr⟩ := hfwd
  obtain ⟨bl1, bh, br⟩ := hbwd
  have hfront := hl.front
  unfold detach_free_block
  rw [Nat.mod_eq_of_lt (show h + 8 + 8 < WORD by omega)]
  have e16 : h + 8 + 8 = h + 16 := by omega
  rw [e16]
  cases l with
  | nil =>
    simp only [List.nil_append, frontOf, List.getLastD_nil] at hfront bh ⊢
    rw [if_pos hfront, load_ok _ _ (by omega) (by omega), fh]
    simp only [ok_bind]
    cases r with
    | nil =>
      simp only [List.headD_nil, if_true, pure_eq_ok]
      refine ⟨_, rfl, ⟨by simp [frontOf], trivial, trivial⟩, by simp [SameRegion], by simp,
        fun x _ => by simp, by simpa using bh, by simpa using fh⟩
    | cons g t =>
      have hg := hin g (by simp)
      have hgh : h + 24 ≤ g ∨ g + 24 ≤ h := sephr g (by simp)
      have hg0 : g ≠ 0 := by omega
      have hp : header2payload g = g + 8 := header2payload_eq _ (by omega)
      simp only [List.headD_cons, if_neg hg0, setFront_fl_front, hp]
      rw [store_ok _ _ _ (by simp; omega) (by simp; omega)]
      simp only [ok_bind]
      rw [load_ok _ _ (by simp; omega) (by simp; omega)]
      simp only [setMem_mem, setFront_mem, ok_bind]
      rw [read64_write64_ne _ _ _ _ (by omega), fh]
      simp only [List.headD_cons, ne_eq, hg0, not_false_eq_true, if_true, hp]
      rw [load_ok _ _ (by simp; omega) (by simp; omega)]
      simp only [setMem_mem, setFront_mem, ok_bind]
      rw [read64_write64_ne _ _ _ _ (by omega), bh]
      rw [store_ok _ _ _ (by simp; omega) (by simp; omega)]
      simp only [ok_bind, setMem_mem, setFront_mem]
      rw [set_nodes_ok _ _ _ _ (by simp; omega) (by simp; omega) (by simpa using hW)]
      simp only [setMem_mem, e16]
      refine ⟨_, rfl, ⟨by simp [frontOf], ?_, ?_⟩, by simp [SameRegion], by simp, ?_, ?_, ?_⟩
      · -- forward links of the rest
        simp only [setMem_mem]
        refine Fwd_congr s.mem _ _ _ ?_ fr
        intro x hx
        have hxh : h + 24 ≤ x ∨ x + 24 ≤ h := sephr x hx
        rw [read64_write64_ne _ _ _ _ (by omega), read64_write64_ne _ _ _ _ (by omega)]
        rcases List.mem_cons.1 hx with rfl | hxt
        · rw [read64_write64_ne _ _ _ _ (by omega), read64_write64_ne _ _ _ _ (by omega)]
        · have hxg : g + 24 ≤ x ∨ x + 24 ≤ g := (List.pairwise_cons.1 sepr).1 x hxt
          rw [read64_write64_ne _ _ _ _ (by omega), read64_write64_ne _ _ _ _ (by omega)]
      · -- backward links of the rest
        simp only [setMem_mem]
        rw [Bwd_cons] at br ⊢
        refine ⟨?_, ?_⟩
        · rw [read64_write64_ne _ _ _ _ (by omega), read64_write64_ne _ _ _ _ (by omega),
            read64_write64_same]
          rfl
        · refine Bwd_congr s.mem _ _ _ ?_ br.2
          intro x hxt
          have hxh : h + 24 ≤ x ∨ x + 24 ≤ h := sephr x (by simp [hxt])
          have hxg : g + 24 ≤ x ∨ x + 24 ≤ g := (List.pairwise_cons.1 sepr).1 x hxt
          rw [read64_write64_ne _ _ _ _ (by omega), read64_write64_ne _ _ _ _ (by omega),
            read64_write64_ne _ _ _ _ (by omega), read64_write64_ne _ _ _ _ (by omega)]
      · intro x hx
        have h1 := hx h (by simp)
        have h2 := hx g (by simp)
        unfold InNode at h1 h2
        simp only [setMem_mem]
        rw [write64_outside _ _ _ _ (by omega), write64_outside _ _ _ _ (by omega),
          write64_outside _ _ _ _ (by omega), write64_outside _ _ _ _ (by omega)]
      · simp only [setMem_mem]
        rw [read64_write64_ne _ _ _ _ (by omega), read64_write64_same]
        rfl
      · simp only [setMem_mem]
        rw [read64_write64_same]
        rfl
  | cons a0 l1 =>
    have hne : a0 :: l1 ≠ [] := by simp
    rcases List.eq_nil_or_concat (a0 :: l1) with e | ⟨l0, pv, e⟩
    · exact absurd e hne
    rw [List.concat_eq_append] at e
    rw [e] at hfront bh fl1 bl1 sepl seplr hin ⊢
    have hne2 : l0 ++ [pv] ≠ [] := by simp
    rw [List.getLastD_concat] at bh
    have hpvh : pv + 24 ≤ h ∨ h + 24 ≤ pv := seplr pv (by simp) h (by simp)
    have hpv := hin pv (by simp)
    obtain ⟨x0, hx0, ex0⟩ := frontOf_mem _ hne2
    have hx0h : x0 + 24 ≤ h ∨ h + 24 ≤ x0 := seplr x0 hx0 h (by simp)
    rw [frontOf_append _ _ hne2] at hfront
    rw [if_neg (by omega), load_ok _ _ (by omega) (by omega), bh]
    simp only [ok_bind]
    rw [load_ok _ _ (by omega) (by omega), fh]
    simp only [ok_bind]
    have hp : header2payload pv = pv + 8 := header2payload_eq _ (by omega)
    rw [hp, Nat.mod_eq_of_lt (show pv + 8 + 8 < WORD by omega)]
    have e16p : pv + 8 + 8 = pv + 16 := by omega
    rw [e16p, store_ok _ _ _ (by omega) (by omega)]
    simp only [ok_bind]
    rw [load_ok _ _ (by simp; omega) (by simp; omega)]
    simp only [setMem_mem, ok_bind]
    rw [read64_write64_ne _ _ _ _ (by omega), fh]
    rw [Fwd_append, Fwd_cons] at fl1
    obtain ⟨fl0, fpv, -⟩ := fl1
    simp only [List.headD_cons, List.headD_nil] at fpv fl0
    have hfr2 : frontOf ((l0 ++ [pv]) ++ r) = frontOf (l0 ++ [pv]) := frontOf_append _ _ hne2
    have sepl0 := (List.pairwise_append.1 sepl).2.2
    cases r with
    | nil =>
      simp only [List.headD_nil, ne_eq, not_true_eq_false, if_false, pure_eq_ok, ok_bind]
      rw [set_nodes_ok _ _ _ _ (by simp; omega) (by simp; omega) (by simpa using hW)]
      simp only [setMem_mem, e16]
      refine ⟨_, rfl, ⟨by rw [setMem_fl_front, setMem_fl_front, hfr2, hfront], ?_, ?_⟩,
        by simp [SameRegion], by simp, ?_, ?_, ?_⟩
      · simp only [setMem_mem]
        rw [Fwd_append, Fwd_append, Fwd_cons]
        refine ⟨⟨?_, ?_, trivial⟩, trivial⟩
        · refine Fwd_congr s.mem _ _ _ ?_ fl0
          intro x hx
          have hxh : x + 24 ≤ h ∨ h + 24 ≤ x := seplr x (by simp [hx]) h (by simp)
          have hxp : x + 24 ≤ pv ∨ pv + 24 ≤ x := sepl0 x hx pv (by simp)
          rw [read64_write64_ne _ _ _ _ (by omega), read64_write64_ne _ _ _ _ (by omega),
            read64_write64_ne _ _ _ _ (by omega)]
        · rw [read64_write64_ne _ _ _ _ (by omega), read64_write64_ne _ _ _ _ (by omega),
            read64_write64_same]
          rfl
      · simp only [setMem_mem]
        rw [List.append_nil]
        refine Bwd_congr s.mem _ _ _ ?_ bl1
        intro x hx
        have hxh : x + 24 ≤ h ∨ h + 24 ≤ x := seplr x hx h (by simp)
        have hxp : x = pv ∨ x + 24 ≤ pv ∨ pv + 24 ≤ x := by
          rcases List.mem_append.1 hx with h1 | h1
          · exact Or.inr (sepl0 x h1 pv (by simp))
          · simp only [List.mem_singleton] at h1; exact Or.inl h1
        rw [read64_write64_ne _ _ _ _ (by omega), read64_write64_ne _ _ _ _ (by omega),
          read64_write64_ne _ _ _ _ (by omega)]
      · intro x hx
        have h1 := hx h (by simp)
        have h2 := hx pv (by simp)
        unfold InNode at h1 h2
        simp only [setMem_mem]
        rw [write64_outside _ _ _ _ (by omega), write64_outside _ _ _ _ (by omega),
          write64_outside _ _ _ _ (by omega)]
      · simp only [setMem_mem]
        rw [read64_write64_ne _ _ _ _ (by omega), read64_write64_same]
        rfl
      · simp only [setMem_mem]
        rw [read64_write64_same]
        rfl
    | cons g t =>
      have hg := hin g (by simp)
      have hgh : h + 24 ≤ g ∨ g + 24 ≤ h := sephr g (by simp)
      have hgp : pv + 24 ≤ g ∨ g + 24 ≤ pv := seplr pv (by simp) g (by simp)
      have hg0 : g ≠ 0 := by omega
      have hpg : header2payload g = g + 8 := header2payload_eq _ (by omega)
      simp only [List.headD_cons, ne_eq, hg0, not_false_eq_true, if_true, hpg]
      rw [load_ok _ _ (by simp; omega) (by simp; omega)]
      simp only [setMem_mem, ok_bind]
      rw [read64_write64_ne _ _ _ _ (by omega), bh]
      rw [store_ok _ _ _ (by simp; omega) (by simp; omega)]
      simp only [ok_bind, setMem_mem]
      rw [set_nodes_ok _ _ _ _ (by simp; omega) (by simp; omega) (by simpa using hW)]
      simp only [setMem_mem, e16]
      refine ⟨_, rfl, ⟨by simp only [setMem_fl_front]; rw [hfr2, hfront], ?_, ?_⟩,
        by simp [SameRegion], by simp, ?_, ?_, ?_⟩
      · simp only [setMem_mem]
        rw [Fwd_append, Fwd_append, Fwd_cons]
        refine ⟨⟨?_, ?_, trivial⟩, ?_⟩
        · refine Fwd_congr s.mem _ _ _ ?_ fl0
          intro x hx
          have hxh : x + 24 ≤ h ∨ h + 24 ≤ x := seplr x (by simp [hx]) h (by simp)
          have hxg : x + 24 ≤ g ∨ g + 24 ≤ x := seplr x (by simp [hx]) g (by simp)
          have hxp : x + 24 ≤ pv ∨ pv + 24 ≤ x := sepl0 x hx pv (by simp)
          rw [read64_write64_ne _ _ _ _ (by omega), read64_write64_ne _ _ _ _ (by omega),
            read64_write64_ne _ _ _ _ (by omega), read64_write64_ne _ _ _ _ (by omega)]
        · rw [read64_write64_ne _ _ _ _ (by omega), read64_write64_ne _ _ _ _ (by omega),
            read64_write64_ne _ _ _ _ (by omega), read64_write64_same]
          simp only [List.headD_cons, List.headD_nil]
          exact Nat.mod_eq_of_lt (by omega)
        · refine Fwd_congr s.mem _ _ _ ?_ fr
          intro x hx
          have hxh : h + 24 ≤ x ∨ x + 24 ≤ h := sephr x hx
          have hxp : pv + 24 ≤ x ∨ x + 24 ≤ pv := seplr pv (by simp) x (by simp [hx])
          have hxg : x = g ∨ g + 24 ≤ x ∨ x + 24 ≤ g := by
            rcases List.mem_cons.1 hx with h1 | h1
            · exact Or.inl h1
            · exact Or.inr ((List.pairwise_cons.1 sepr).1 x h1)
          rw [read64_write64_ne _ _ _ _ (by omega), read64_write64_ne _ _ _ _ (by omega),
            read64_write64_ne _ _ _ _ (by omega), read64_write64_ne _ _ _ _ (by omega)]
      · simp only [setMem_mem]
        rw [Bwd_append, List.getLastD_concat, Bwd_cons]
        rw [Bwd_cons] at br
        refine ⟨?_, ?_, ?_⟩
        · refine Bwd_congr s.mem _ _ _ ?_ bl1
          intro x hx
          have hxh : x + 24 ≤ h ∨ h + 24 ≤ x := seplr x hx h (by simp)
          have hxg : x + 24 ≤ g ∨ g + 24 ≤ x := seplr x hx g (by simp)
          have hxp : x = pv ∨ x + 24 ≤ pv ∨ pv + 24 ≤ x := by
            rcases List.mem_append.1 hx with h1 | h1
            · exact Or.inr (sepl0 x h1 pv (by simp))
            · simp only [List.mem_singleton] at h1; exact Or.inl h1
          rw [read64_write64_ne _ _ _ _ (by omega), read64_write64_ne _ _ _ _ (by omega),
            read64_write64_ne _ _ _ _ (by omega), read64_write64_ne _ _ _ _ (by omega)]
        · rw [read64_write64_ne _ _ _ _ (by omega), read64_write64_ne _ _ _ _ (by omega),
            read64_write64_same]
          exact Nat.mod_eq_of_lt (by omega)
        · refine Bwd_congr s.mem _ _ _ ?_ br.2
          intro x hxt
          have hxh : h + 24 ≤ x ∨ x + 24 ≤ h := sephr x (by simp [hxt])
          have hxg : g + 24 ≤ x ∨ x + 24 ≤ g := (List.pairwise_cons.1 sepr).1 x hxt
          have hxp : pv + 24 ≤ x ∨ x + 24 ≤ pv := seplr pv (by simp) x (by simp [hxt])
          rw [read64_write64_ne _ _ _ _ (by omega), read64_write64_ne _ _ _ _ (by omega),
            read64_write64_ne _ _ _ _ (by omega), read64_write64_ne _ _ _ _ (by omega)]
      · intro x hx
        have h1 := hx h (by simp)
        have h2 := hx pv (by simp)
        have h3 := hx g (by simp)
        unfold InNode at h1 h2 h3
        simp only [setMem_mem]
        rw [write64_outside _ _ _ _ (by omega), write64_outside _ _ _ _ (by omega),
          write64_outside _ _ _ _ (by omega), write64_outside _ _ _ _ (by omega)]
      · simp only [setMem_mem]
        rw [read64_write64_ne _ _ _ _ (by omega), read64_write64_same]
        rfl
      · simp only [setMem_mem]
        rw [read64_write64_same]
        rfl

end Explicit
end Heap

namespace Heap
namespace Explicit

/-- Insertion of a block at the front of the free list. -/
theorem add_spec (s : State) (fl : List Nat) (h : Nat)
    (hpos : 0 < s.segment_start) (hW : s.segment_end < WORD)
    (hl : Listed s fl) (hsp : Spaced s (h :: fl)) :
    ∃ t, add_free_block s (h + 8) = .ok t ∧ Listed t (h :: fl) ∧ SameRegion s t ∧
      t.nused = s.nused ∧
      (∀ x, (∀ g ∈ h :: fl, ¬ InNode g x) → t.mem x = s.mem x) := by
  have hin := hsp.inreg
  have hh := hin h (by simp)
  have hsep := hsp.sep
  rw [List.pairwise_cons] at hsep
  obtain ⟨seph, sepfl⟩ := hsep
  have hfront := hl.front
  have e16 : h + 8 + 8 = h + 16 := by omega
  unfold add_free_block
  cases fl with
  | nil =>
    simp only [frontOf] at hfront
    rw [if_pos hfront, set_nodes_ok _ _ _ _ (by omega) (by omega) hW]
    simp only [ok_bind, pure_eq_ok, e16]
    refine ⟨_, rfl, ⟨by simp [frontOf], ?_, ?_⟩, by simp [SameRegion], by simp, ?_⟩
    · rw [Fwd_cons]
      refine ⟨?_, trivial⟩
      simp only [setFront_mem, setMem_mem, List.headD_nil]
      rw [read64_write64_same]
      rfl
    · rw [Bwd_cons]
      refine ⟨?_, trivial⟩
      simp only [setFront_mem, setMem_mem]
      rw [read64_write64_ne _ _ _ _ (by omega), read64_write64_same]
      rfl
    · intro x hx
      have h1 := hx h (by simp)
      unfold InNode at h1
      simp only [setFront_mem, setMem_mem]
      rw [write64_outside _ _ _ _ (by omega), write64_outside _ _ _ _ (by omega)]
  | cons g t =>
    have hg := hin g (by simp)
    have hgh : h + 24 ≤ g ∨ g + 24 ≤ h := seph g (by simp)
    simp only [frontOf] at hfront
    rw [if_neg (by omega), hfront, store_ok _ _ _ (by omega) (by omega)]
    simp only [ok_bind, setMem_fl_front]
    rw [payload2header_eq _ (by omega) (by omega), hfront,
      payload2header_eq _ (by omega) (by omega)]
    simp only [Nat.add_sub_cancel]
    rw [set_nodes_ok _ _ _ _ (by simp; omega) (by simp; omega) (by simpa using hW)]
    simp only [ok_bind, pure_eq_ok, e16, setMem_mem]
    have hfwd := hl.fwd
    have hbwd := hl.bwd
    rw [Bwd_cons] at hbwd
    refine ⟨_, rfl, ⟨by simp [frontOf], ?_, ?_⟩, by simp [SameRegion], by simp, ?_⟩
    · rw [Fwd_cons]
      simp only [setFront_mem, setMem_mem, List.headD_cons]
      refine ⟨?_, ?_⟩
      · rw [read64_write64_same]
        exact Nat.mod_eq_of_lt (by omega)
      · refine Fwd_congr s.mem _ _ _ ?_ hfwd
        intro x hx
        have hxh : h + 24 ≤ x ∨ x + 24 ≤ h := seph x hx
        have hxg : x = g ∨ g + 24 ≤ x ∨ x + 24 ≤ g := by
          rcases List.mem_cons.1 hx with h1 | h1
          · exact Or.inl h1
          · exact Or.inr ((List.pairwise_cons.1 sepfl).1 x h1)
        rw [read64_write64_ne _ _ _ _ (by omega), read64_write64_ne _ _ _ _ (by omega),
          read64_write64_ne _ _ _ _ (by omega)]
    · rw [Bwd_cons, Bwd_cons]
      simp only [setFront_mem, setMem_mem]
      refine ⟨?_, ?_, ?_⟩
      · rw [read64_write64_ne _ _ _ _ (by omega), read64_write64_same]
        rfl
      · rw [read64_write64_ne _ _ _ _ (by omega), read64_write64_ne _ _ _ _ (by omega),
          read64_write64_same]
        exact Nat.mod_eq_of_lt (by omega)
      · refine Bwd_congr s.mem _ _ _ ?_ hbwd.2
        intro x hx
        have hxh : h + 24 ≤ x ∨ x + 24 ≤ h := seph x (by simp [hx])
        have hxg : g + 24 ≤ x ∨ x + 24 ≤ g := (List.pairwise_cons.1 sepfl).1 x hx
        rw [read64_write64_ne _ _ _ _ (by omega), read64_write64_ne _ _ _ _ (by omega),
          read64_write64_ne _ _ _ _ (by omega)]
    · intro x hx
      have h1 := hx h (by simp)
      have h2 := hx g (by simp)
      unfold InNode at h1 h2
      simp only [setFront_mem, setMem_mem]
      rw [write64_outside _ _ _ _ (by omega), write64_outside _ _ _ _ (by omega),
        write64_outside _ _ _ _ (by omega)]

theorem find_first_loop_list_eq (s : State) (needed : Nat) (hpos : 0 < s.segment_start)
    (hW : s.segment_end < WORD) (fl : List Nat) :
    ∀ fuel, fl.length < fuel → Fwd s.mem fl 0 →
      (∀ g ∈ fl, s.segment_start ≤ g ∧ g + 24 ≤ s.segment_end) →
      find_first_loop s needed fuel (fl.headD 0) = .ok ((fl.find? (fitAt s needed)).getD 0) := by
  induction fl with
  | nil =>
    intro fuel hf _ _
    cases fuel with
    | zero => simp at hf
    | succ fuel =>
      unfold find_first_loop
      simp only [List.headD_nil, if_true, pure_eq_ok, List.find?_nil, Option.getD_none]
  | cons g t ih =>
    intro fuel hf hfwd hin
    cases fuel with
    | zero => simp at hf
    | succ fuel =>
      have hg := hin g (by simp)
      rw [Fwd_cons] at hfwd
      unfold find_first_loop
      simp only [List.headD_cons]
      rw [if_neg (by omega)]
      unfold get_payload_size next_free
      rw [load_ok _ _ (by omega) (by omega)]
      simp only [ok_bind, pure_eq_ok]
      by_cases hfit : needed ≤ read64 s.mem g &&& ZERO_LAST
      · rw [if_pos hfit]
        have : fitAt s needed g = true := by simp [fitAt, hfit]
        simp only [List.find?_cons, this, Option.getD_some]
      · rw [if_neg hfit]
        have : fitAt s needed g = false := by simp [fitAt, hfit]
        simp only [List.find?_cons, this]
        rw [header2payload_eq _ (by omega), Nat.mod_eq_of_lt (show g + 8 + 8 < WORD by omega),
          show g + 8 + 8 = g + 16 by omega, load_ok _ _ (by omega) (by omega), hfwd.1]
        simp only [ok_bind]
        exact ih fuel (by simpa using hf) hfwd.2 (fun x hx => hin x (by simp [hx]))

theorem find_first_list_eq (s : State) (needed fuel : Nat) (fl : List Nat) (hne : fl ≠ [])
    (hpos : 0 < s.segment_start) (hW : s.segment_end < WORD) (hl : Listed s fl)
    (hin : ∀ g ∈ fl, s.segment_start ≤ g ∧ g + 24 ≤ s.segment_end) (hf : fl.length < fuel) :
    find_first fuel s needed = .ok ((fl.find? (fitAt s needed)).getD 0) := by
  unfold find_first
  cases fl with
  | nil => exact absurd rfl hne
  | cons g t =>
    have hg := hin g (by simp)
    have := hl.front
    simp only [frontOf] at this
    rw [this, payload2header_eq _ (by omega) (by omega)]
    simp only [Nat.add_sub_cancel]
    exact find_first_loop_list_eq s needed hpos hW (g :: t) fuel hf hl.fwd hin

/-- With an empty free list `find_first` dereferences `NULL - 8`. -/
theorem find_first_nil (s : State) (needed fuel : Nat) (hW : s.segment_end < WORD)
    (hl : Listed s []) : find_first (fuel + 1) s needed = .error .segv := by
  unfold find_first
  have := hl.front
  simp only [frontOf] at this
  rw [this, payload2header_null]
  unfold find_first_loop
  have hne : WORD - 8 ≠ 0 := by unfold WORD; norm_num
  rw [if_neg hne]
  unfold get_payload_size
  rw [load_segv _ _ (Or.inr (by unfold WORD at *; omega))]
  simp only [error_bind]

end Explicit
end Heap

namespace Heap

theorem Tiled.addr_inj {pmin : Nat} {s : State} {bs : List Blk} (t : Tiled pmin s bs)
    {b c : Blk} (hb : b ∈ bs) (hc : c ∈ bs) (h : b.addr = c.addr) : b = c := by
  rcases Chain_disjoint _ _ _ t.chain b c hb hc with h1 | h1 | h1
  · exact h1
  · omega
  · omega

/-- Distinct blocks of a tiling with payloads of at least 16 bytes keep their
headers and link words apart. -/
theorem Tiled.sep {s : State} {bs : List Blk} (t : Tiled 16 s bs) {b c : Blk}
    (hb : b ∈ bs) (hc : c ∈ bs) (h : b.addr ≠ c.addr) :
    b.addr + 24 ≤ c.addr ∨ c.addr + 24 ≤ b.addr := by
  have h1 := (t.ok b hb).2.2
  have h2 := (t.ok c hc).2.2
  rcases Chain_disjoint _ _ _ t.chain b c hb hc with h3 | h3 | h3
  · rw [h3] at h; exact absurd rfl h
  · omega
  · omega

theorem spaced_of_sub {s : State} {bs : List Blk} {fl : List Nat} (t : Tiled 16 s bs)
    (hnd : fl.Nodup) (hsub : ∀ h ∈ fl, ∃ b ∈ bs, b.addr = h) : Spaced s fl := by
  refine ⟨?_, ?_⟩
  · intro g hg
    obtain ⟨b, hb, rfl⟩ := hsub g hg
    have := t.mem_bounds hb
    have := (t.ok b hb).2.2
    omega
  · refine hnd.pairwise_of_forall_ne ?_
    intro g hg k hk hne
    obtain ⟨b, hb, rfl⟩ := hsub g hg
    obtain ⟨c, hc, rfl⟩ := hsub k hk
    exact t.sep hb hc hne

/-- A change of memory that leaves every header byte alone keeps the tiling. -/
theorem Tiled.frame_hdr {pmin : Nat} {s t : State} {bs : List Blk} (h : Tiled pmin s bs)
    (hr : SameRegion s t)
    (hm : ∀ b ∈ bs, ∀ x, b.addr ≤ x → x < b.addr + 8 → t.mem x = s.mem x) :
    Tiled pmin t bs := by
  refine h.congr_hdr hr ?_
  intro b hb
  apply read64_congr
  intro i hi
  exact hm b hb _ (by omega) (by omega)

/-- A byte of a header is not a byte of the link words of a block. -/
theorem Tiled.hdr_not_node {s : State} {bs : List Blk} (t : Tiled 16 s bs) {b c : Blk}
    (hb : b ∈ bs) (hc : c ∈ bs) (x : Nat) (h1 : b.addr ≤ x) (h2 : x < b.addr + 8) :
    ¬ InNode c.addr x := by
  unfold InNode
  by_cases h : b.addr = c.addr
  · omega
  · have := t.sep hb hc h
    have := (t.ok c hc).2.2
    rcases Chain_disjoint _ _ _ t.chain b c hb hc with h3 | h3 | h3
    · rw [h3] at h; exact absurd rfl h
    · omega
    · omega

/-- A change of memory confined to the link words of listed blocks keeps the tiling. -/
theorem Tiled.frame_nodes {s t : State} {bs : List Blk} {fl : List Nat} (h : Tiled 16 s bs)
    (hsub : ∀ g ∈ fl, ∃ b ∈ bs, b.addr = g) (hr : SameRegion s t)
    (hm : ∀ x, (∀ g ∈ fl, ¬ InNode g x) → t.mem x = s.mem x) : Tiled 16 t bs := by
  refine h.frame_hdr hr ?_
  intro b hb x h1 h2
  apply hm
  intro g hg
  obtain ⟨c, hc, rfl⟩ := hsub g hg
  exact h.hdr_not_node hb hc x h1 h2

theorem Listed.congr_links {s t : State} {fl : List Nat} (h : Listed s fl)
    (hf : t.fl_front = s.fl_front)
    (hm : ∀ g ∈ fl, read64 t.mem (g + 8) = read64 s.mem (g + 8) ∧
      read64 t.mem (g + 16) = read64 s.mem (g + 16)) : Listed t fl :=
  ⟨by rw [hf]; exact h.front, Fwd_congr _ _ _ _ (fun g hg => (hm g hg).2) h.fwd,
    Bwd_congr _ _ _ _ (fun g hg => (hm g hg).1) h.bwd⟩

/-- A change of memory away from the link words of the listed blocks keeps the list. -/
theorem Listed.frame {s t : State} {fl : List Nat} (h : Listed s fl)
    (hf : t.fl_front = s.fl_front)
    (hm : ∀ g ∈ fl, ∀ x, InNode g x → t.mem x = s.mem x) : Listed t fl := by
  refine h.congr_links hf ?_
  intro g hg
  constructor
  · apply read64_congr
    intro i hi
    exact hm g hg _ (by unfold InNode; omega)
  · apply read64_congr
    intro i hi
    exact hm g hg _ (by unfold InNode; omega)

namespace Explicit

theorem needOf_facts (n : Nat) : needOf n % 8 = 0 ∧ 16 ≤ needOf n ∧ needOf n < WORD ∧
    (n + 7 < WORD → needOf n = max 16 ((n + 7) / 8 * 8) ∧ n ≤ needOf n) := by
  unfold needOf MINIMUM_PAYLOAD_SIZE
  have hW64 : WORD = 18446744073709551616 := by unfold WORD; norm_num
  by_cases h7 : n + 7 < WORD
  · rw [roundup_eq n h7]
    split <;> omega
  · have hlt : roundup n ALIGNMENT < WORD := by
      unfold roundup
      exact lt_of_le_of_lt Nat.and_le_left (Nat.mod_lt _ (by unfold WORD; norm_num))
    have hl := land_high_mask ((n + ALIGNMENT + (WORD - 1)) % WORD) 64 3
      (Nat.mod_lt _ (by unfold WORD; norm_num)) (by decide)
    have e2 : WORD - 1 - (ALIGNMENT + (WORD - 1)) % WORD = 2 ^ 64 - 2 ^ 3 := by
      unfold WORD ALIGNMENT; norm_num
    have hr : roundup n ALIGNMENT % 8 = 0 := by
      unfold roundup
      rw [e2, hl]
      generalize (n + ALIGNMENT + (WORD - 1)) % WORD = x
      have h23 : (2 : Nat) ^ 3 = 8 := by norm_num
      rw [h23]
      omega
    split
    · omega
    · omega

theorem validate_explicit (MAX : Nat) (s : State) (n : Nat)
    (hv : validate_request MAX s n (needOf n) = true) :
    n ≤ MAX ∧ (n + s.nused) % WORD ≤ s.segment_size := by
  unfold validate_request at hv
  have h0 : needOf n ≠ 0 := by have := needOf_facts n; omega
  rw [if_neg h0] at hv
  by_cases h1 : (n + s.nused) % WORD > s.segment_size
  · simp [h1] at hv
  · rw [if_neg h1] at hv
    by_cases h2 : n > MAX
    · simp [h2] at hv
    · omega

end Explicit
end Heap

namespace Heap

theorem WF.spaced {s : State} {bs : List Blk} {fl : List Nat} (w : WF s bs fl) : Spaced s fl :=
  spaced_of_sub w.tiled w.nodup (fun h hh => by
    obtain ⟨b, hb, e, -⟩ := w.sub h hh
    exact ⟨b, hb, e⟩)

theorem WF.fit_size {s : State} {bs : List Blk} {fl : List Nat} (w : WF s bs fl) {b : Blk}
    (hb : b ∈ bs) (needed : Nat) : Explicit.fitAt s needed b.addr = decide (needed ≤ b.size) := by
  have hm := w.tiled.mem_bounds hb
  have ho := w.tiled.ok b hb
  unfold Explicit.fitAt
  rw [ho.1, hdrWord_size _ _ ho.2.1 (by omega)]

namespace Explicit

theorem mymalloc_unfold (MAX fuel : Nat) (s : State) (n : Nat) :
    mymalloc MAX fuel s n =
      (if !validate_request MAX s n (needOf n) then pure (0, s)
      else do
        let header ← find_first fuel s (needOf n)
        if header = 0 then pure (0, s)
        else do
          let payload := header2payload header
          let s ← detach_free_block s payload
          let payloadsz ← get_payload_size s header
          let remaining := (payloadsz + (WORD - needOf n)) % WORD
          let (needed, s) ← (if big_enough remaining then pure (payloadsz, s)
            else do
              let s ← split_block s payload (needOf n) remaining
              pure (needOf n, s))
          let s ← set_header s header needed 1
          pure (payload, s.setNused ((s.nused + needed) % WORD))) := by
  unfold mymalloc needOf
  rfl

/-- The request is rejected. -/
theorem mymalloc_reject (MAX fuel : Nat) (s : State) (n : Nat)
    (hv : validate_request MAX s n (needOf n) = false) :
    mymalloc MAX fuel s n = .ok (0, s) := by
  rw [mymalloc_unfold, hv]
  simp only [Bool.not_false, if_true, pure_eq_ok]

/-- No listed block is large enough. -/
theorem mymalloc_none {s : State} {bs : List Blk} {fl : List Nat} (MAX fuel n : Nat)
    (w : WF s bs fl) (hv : validate_request MAX s n (needOf n) = true) (hne : fl ≠ [])
    (hf : fl.length < fuel) (hfind : fl.find? (fitAt s (needOf n)) = none) :
    mymalloc MAX fuel s n = .ok (0, s) := by
  rw [mymalloc_unfold, hv]
  simp only [Bool.not_true, Bool.false_eq_true, if_false]
  rw [find_first_list_eq s _ fuel fl hne w.tiled.start_pos w.tiled.end_lt w.listed w.spaced.inreg hf,
    hfind]
  simp only [Option.getD_none, ok_bind, if_true, pure_eq_ok]

/-- The free list is empty: the search dereferences `NULL - 8`. -/
theorem mymalloc_empty {s : State} {bs : List Blk} (MAX fuel n : Nat)
    (w : WF s bs []) (hv : validate_request MAX s n (needOf n) = true) :
    mymalloc MAX (fuel + 1) s n = .error .segv := by
  rw [mymalloc_unfold, hv]
  simp only [Bool.not_true, Bool.false_eq_true, if_false]
  rw [find_first_nil s _ fuel w.tiled.end_lt w.listed]
  simp only [error_bind]

end Explicit
end Heap

namespace Heap
namespace Explicit

theorem carveList_sub (b : Blk) (needed : Nat) (rest : List Nat) (g : Nat)
    (hg : g ∈ carveList b needed rest) :
    g ∈ rest ∨ (¬ b.size - needed < 24 ∧ g = b.addr + 8 + needed) := by
  unfold carveList at hg
  split at hg
  · exact Or.inl hg
  · rename_i hbig
    rcases List.mem_cons.1 hg with h | h
    · exact Or.inr ⟨hbig, h⟩
    · exact Or.inl h

/-- A listed block is large enough: `mymalloc` takes it. -/
theorem mymalloc_take {s : State} {bs : List Blk} {fl : List Nat} (MAX fuel n : Nat)
    (w : WF s bs fl) (hv : validate_request MAX s n (needOf n) = true) (hf : fl.length < fuel)
    (h : Nat) (hfind : fl.find? (fitAt s (needOf n)) = some h) :
    ∃ l b r l1 r1 t, bs = l ++ b :: r ∧ fl = l1 ++ h :: r1 ∧ b.addr = h ∧ b.free = true ∧
      needOf n ≤ b.size ∧ (∀ g ∈ l1, fitAt s (needOf n) g = false) ∧
      mymalloc MAX fuel s n = .ok (h + 8, t) ∧
      WF t (l ++ carveBlks 24 b (needOf n) ++ r) (carveList b (needOf n) (l1 ++ r1)) ∧
      SameRegion s t ∧
      t.nused = (if b.size - needOf n < 24 then (s.nused + b.size) % WORD
        else ((s.nused + 8) % WORD + needOf n) % WORD) ∧
      (∀ x, (∀ g ∈ fl, ¬ InNode g x) → (x < b.addr ∨ b.addr + 8 + b.size ≤ x) →
        t.mem x = s.mem x) := by
  obtain ⟨hfit, l1, r1, efl, hpre⟩ := List.find?_eq_some.1 hfind
  have hhfl : h ∈ fl := by rw [efl]; simp
  obtain ⟨b, hb, hba, hbfree⟩ := w.sub h hhfl
  obtain ⟨l, r, ebs⟩ := List.append_of_mem hb
  have hm := w.tiled.mem_bounds hb
  have ho := w.tiled.ok b hb
  have hsp := w.spaced
  obtain ⟨h8, h16, hnW, -⟩ := needOf_facts n
  have hfne : fl ≠ [] := by rw [efl]; simp
  rw [← hba, w.fit_size hb] at hfit
  simp only [decide_eq_true_eq] at hfit
  have hpre2 : ∀ g ∈ l1, fitAt s (needOf n) g = false := by
    intro g hg
    simpa using hpre g hg
  refine ⟨l, b, r, l1, r1, ?_⟩
  rw [mymalloc_unfold, hv]
  simp only [Bool.not_true, Bool.false_eq_true, if_false]
  rw [find_first_list_eq s _ fuel fl hfne w.tiled.start_pos w.tiled.end_lt w.listed hsp.inreg hf,
    hfind]
  simp only [Option.getD_some, ok_bind]
  generalize needOf n = needed at *
  subst hba
  rw [if_neg (by omega), header2payload_eq _ (by omega)]
  -- detach
  have hl0 := w.listed
  rw [efl] at hl0 hsp
  obtain ⟨t1, e1, hl1, hreg1, hnu1, hfr1, -, -⟩ :=
    detach_spec s l1 r1 b.addr w.tiled.start_pos w.tiled.end_lt hl0 hsp
  rw [e1]
  simp only [ok_bind]
  have hsubfl : ∀ g ∈ l1 ++ b.addr :: r1, ∃ c ∈ bs, c.addr = g := by
    intro g hg
    obtain ⟨c, hc, e, -⟩ := w.sub g (by rw [efl]; exact hg)
    exact ⟨c, hc, e⟩
  have ht1 : Tiled 16 t1 bs := w.tiled.frame_nodes hsubfl hreg1 hfr1
  rw [ht1.get_payload_size_eq hb]
  simp only [ok_bind]
  rw [sub_mod_word _ _ hfit (by omega)]
  have hnd := w.nodup
  rw [efl] at hnd
  have hnd1 : (l1 ++ r1).Nodup := by
    have := List.nodup_append.1 hnd
    have h2 := List.nodup_cons.1 this.2.1
    refine List.nodup_append.2 ⟨this.1, h2.2, ?_⟩
    intro x hx1 hx2
    exact this.2.2 hx1 (by simp [hx2])
  have hnotin : b.addr ∉ l1 ++ r1 := by
    have := List.nodup_append.1 hnd
    have h2 := List.nodup_cons.1 this.2.1
    intro hx
    rcases List.mem_append.1 hx with hx | hx
    · exact this.2.2 hx (by simp)
    · exact h2.1 hx
  -- the other listed blocks are free blocks of `l` or `r`
  have hsub1 : ∀ g ∈ l1 ++ r1, ∃ c, (c ∈ l ∨ c ∈ r) ∧ c.addr = g ∧ c.free = true := by
    intro g hg
    have hg2 : g ∈ fl := by
      rw [efl]
      rcases List.mem_append.1 hg with h | h
      · simp [h]
      · simp [h]
    obtain ⟨c, hc, e, hcf⟩ := w.sub g hg2
    rw [ebs] at hc
    rcases List.mem_append.1 hc with h | h
    · exact ⟨c, Or.inl h, e, hcf⟩
    · rcases List.mem_cons.1 h with h | h
      · subst h; rw [e] at hnotin; exact absurd hg hnotin
      · exact ⟨c, Or.inr h, e, hcf⟩
  have hsep1 : ∀ g ∈ l1 ++ r1, g + 24 ≤ b.addr ∨ b.addr + 8 + b.size ≤ g := by
    intro g hg
    obtain ⟨c, hc, e, -⟩ := hsub1 g hg
    have hc2 : c ∈ bs := by
      rw [ebs]
      rcases hc with h | h
      · simp [h]
      · simp [h]
    have hco := (w.tiled.ok c hc2).2.2
    have hne : c ≠ b := by
      intro hcb; rw [hcb] at e; rw [← e] at hg; exact hnotin hg
    rcases Chain_disjoint _ _ _ w.tiled.chain c b hc2 hb with h3 | h3 | h3
    · exact absurd h3 hne
    · left; omega
    · right; omega
  unfold big_enough MINIMUM_BLOCK_SIZE
  by_cases hbig : b.size - needed < 24
  · -- the whole block is taken
    simp only [hbig, if_true, pure_eq_ok, ok_bind]
    rw [set_header_alloc_ok _ _ _ ho.2.1 (by rw [hreg1.1]; omega) (by rw [hreg1.2.1]; omega)]
    simp only [ok_bind, setHdr_nused, hnu1]
    rw [ebs] at ht1
    have ht2 := (ht1.set_free false).setNused ((s.nused + b.size) % WORD)
    refine ⟨_, ebs, efl, trivial, hbfree, hfit, hpre2, rfl, ⟨?_, ?_, ?_, ?_⟩, ?_, by simp, ?_⟩
    · simpa [carveBlks, hbig] using ht2
    · simp only [carveList, hbig, if_true]
      refine hl1.frame (by simp) ?_
      intro g hg x hx
      have := hsep1 g hg
      unfold InNode at hx
      rw [setNused_mem, setHdr_mem_outside _ _ _ _ _ (by omega)]
    · simpa [carveList, hbig] using hnd1
    · intro g hg
      simp only [carveList, hbig, if_true] at hg
      obtain ⟨c, hc, e, hcf⟩ := hsub1 g hg
      refine ⟨c, ?_, e, hcf⟩
      rcases hc with h | h
      · simp [h]
      · simp [h]
    · exact hreg1.trans (by simp [SameRegion])
    · intro x hx1 hx2
      rw [setNused_mem, setHdr_mem_outside _ _ _ _ _ (by omega)]
      exact hfr1 x (by rw [efl] at hx1; exact hx1)
  · -- the block is split
    simp only [hbig, if_false, Bool.false_eq_true, pure_eq_ok, ok_bind]
    unfold split_block
    simp only [ALIGNMENT]
    have eh2 : (b.addr + 8 + needed) % WORD = b.addr + 8 + needed := Nat.mod_eq_of_lt (by omega)
    have erem : (b.size - needed + (WORD - 8)) % WORD = b.size - needed - 8 :=
      sub_mod_word _ 8 (by omega) (by omega)
    rw [eh2, erem]
    have hs1 : t1.segment_start = s.segment_start := hreg1.1
    have he1 : t1.segment_end = s.segment_end := hreg1.2.1
    rw [set_header_free_ok _ _ _ (by simp only [setNused_segment_start]; omega)
      (by simp only [setNused_segment_end]; omega)]
    simp only [ok_bind]
    rw [header2payload_eq _ (by omega)]
    generalize ht2def : setHdr (t1.setNused ((t1.nused + 8) % WORD)) (b.addr + 8 + needed)
      (b.size - needed - 8) true = t2
    have hreg2 : SameRegion t1 t2 := by rw [← ht2def]; simp [SameRegion]
    have hfront2 : t2.fl_front = t1.fl_front := by rw [← ht2def]; simp
    have hnu2 : t2.nused = (s.nused + 8) % WORD := by rw [← ht2def]; simp [hnu1]
    have hmem2 : ∀ x, (x < b.addr + 8 + needed ∨ b.addr + 8 + needed + 8 ≤ x) →
        t2.mem x = t1.mem x := by
      intro x hx
      rw [← ht2def, setHdr_mem_outside _ _ _ _ _ hx, setNused_mem]
    have hrd2 : read64 t2.mem (b.addr + 8 + needed) = hdrWord (b.size - needed - 8) true := by
      rw [← ht2def]
      exact setHdr_read_same _ _ _ _ (by omega)
    have hl2 : Listed t2 (l1 ++ r1) := by
      refine hl1.frame hfront2 ?_
      intro g hg x hx
      have := hsep1 g hg
      unfold InNode at hx
      exact hmem2 x (by omega)
    have hsp2 : Spaced t2 ((b.addr + 8 + needed) :: (l1 ++ r1)) := by
      refine ⟨?_, ?_⟩
      · intro g hg
        rw [hreg2.1, hreg2.2.1, hs1, he1]
        rcases List.mem_cons.1 hg with h | h
        · rw [h]; omega
        · have := hsp.inreg g (by
            rcases List.mem_append.1 h with h | h
            · simp [h]
            · simp [h])
          exact this
      · rw [List.pairwise_cons]
        refine ⟨?_, ?_⟩
        · intro g hg
          have := hsep1 g hg
          omega
        · have := hsp.sep
          rw [List.pairwise_append] at this ⊢
          refine ⟨this.1, (List.pairwise_cons.1 this.2.1).2, ?_⟩
          intro x hx y hy
          exact this.2.2 x hx y (by simp [hy])
    obtain ⟨t3, e3, hl3, hreg3, hnu3, hfr3⟩ := add_spec t2 (l1 ++ r1) (b.addr + 8 + needed)
      (by rw [hreg2.1, hs1]; exact w.tiled.start_pos) (by rw [hreg2.2.1, he1]; exact w.tiled.end_lt)
      hl2 hsp2
    rw [e3]
    simp only [ok_bind]
    rw [set_header_alloc_ok _ _ _ h8 (by rw [hreg3.1, hreg2.1, hs1]; omega)
      (by rw [hreg3.2.1, hreg2.2.1, he1]; omega)]
    simp only [ok_bind, setHdr_nused, hnu3, hnu2]
    -- memory of `t3` against `t1`
    have hmem3 : ∀ x, (∀ g ∈ l1 ++ r1, ¬ InNode g x) →
        (x < b.addr + 8 + needed ∨ b.addr + 8 + needed + 24 ≤ x) → t3.mem x = t1.mem x := by
      intro x hx1 hx2
      rw [hfr3 x (by
        intro g hg
        rcases List.mem_cons.1 hg with h | h
        · rw [h]; unfold InNode; omega
        · exact hx1 g h)]
      exact hmem2 x (by omega)
    have ht3 : Tiled 16 t3 bs := by
      refine ht1.frame_hdr ((hreg2.trans hreg3)) ?_
      intro d hd x hx1 hx2
      apply hmem3
      · intro g hg
        obtain ⟨c, hc, e, -⟩ := hsub1 g hg
        rw [← e]
        refine ht1.hdr_not_node hd ?_ x hx1 hx2
        rw [ebs]
        rcases hc with h | h
        · simp [h]
        · simp [h]
      · rcases Chain_disjoint _ _ _ ht1.chain d b hd hb with h3 | h3 | h3
        · rw [h3] at hx1 hx2; omega
        · omega
        · omega
    have hrd3 : read64 t3.mem (b.addr + 8 + needed) = hdrWord (b.size - needed - 8) true := by
      rw [← hrd2]
      apply read64_congr
      intro i hi
      rw [hfr3 _ (by
        intro g hg
        rcases List.mem_cons.1 hg with h | h
        · rw [h]; unfold InNode; omega
        · have := hsep1 g h
          unfold InNode; omega)]
    obtain ⟨hcl, hcr⟩ := (Chain_split _ _ _ _ _).1 (by rw [← ebs]; exact w.tiled.chain)
    have ht3b : Tiled 16 t3 (l ++ [b] ++ r) := by rw [ebs] at ht3; simpa using ht3
    have hregf : SameRegion s
        ((setHdr t3 b.addr needed false).setNused (((s.nused + 8) % WORD + needed) % WORD)) :=
      (hreg1.trans (hreg2.trans hreg3)).trans (by simp [SameRegion])
    have htf := ht3b.replace_seg (t := (setHdr t3 b.addr needed false).setNused
        (((s.nused + 8) % WORD + needed) % WORD))
      (k := carveBlks 24 b needed) (a := b.addr) (e := b.addr + 8 + b.size)
      (by rw [hreg3.1, hreg2.1, hs1]; exact hcl) (by rw [hreg3.2.1, hreg2.2.1, he1]; exact hcr)
      (by simp [SameRegion])
      (by
        intro x hx
        rw [setNused_mem, setHdr_mem_outside _ _ _ _ _ (by omega)])
      (by
        simp only [carveBlks, hbig, if_false, Chain, true_and]
        omega)
      (by simp [carveBlks, hbig])
      (by
        intro c hc
        simp only [carveBlks, hbig, if_false, List.mem_cons, List.mem_singleton,
          List.not_mem_nil, or_false] at hc
        rcases hc with rfl | rfl
        · refine ⟨?_, h8, h16⟩
          rw [setNused_mem]
          exact setHdr_read_same _ _ _ _ (by omega)
        · have h82 := ho.2.1
          refine ⟨?_, by simp; omega, by simp; omega⟩
          rw [setNused_mem, setHdr_read_ne _ _ _ _ _ (by simp)]
          exact hrd3)
    refine ⟨_, ebs, efl, trivial, hbfree, hfit, hpre2, rfl, ⟨htf, ?_, ?_, ?_⟩, hregf,
      by simp, ?_⟩
    · simp only [carveList, hbig, if_false]
      refine hl3.frame (by simp) ?_
      intro g hg x hx
      have hgx : g + 24 ≤ b.addr ∨ b.addr + 8 ≤ g := by
        rcases List.mem_cons.1 hg with h | h
        · rw [h]; omega
        · have := hsep1 g h; omega
      unfold InNode at hx
      rw [setNused_mem, setHdr_mem_outside _ _ _ _ _ (by omega)]
    · simp only [carveList, hbig, if_false]
      refine List.nodup_cons.2 ⟨?_, hnd1⟩
      intro hx
      have := hsep1 _ hx
      omega
    · intro g hg
      rcases carveList_sub _ _ _ _ hg with h | ⟨-, h⟩
      · obtain ⟨c, hc, e, hcf⟩ := hsub1 g h
        refine ⟨c, ?_, e, hcf⟩
        rcases hc with h | h
        · simp [h]
        · simp [h]
      · refine ⟨{ addr := b.addr + 8 + needed, size := b.size - needed - 8, free := true }, ?_,
          h.symm, rfl⟩
        simp [carveBlks, hbig]
    · intro x hx1 hx2
      rw [setNused_mem, setHdr_mem_outside _ _ _ _ _ (by omega), hmem3 x (by
        intro g hg
        exact hx1 g (by
          rw [efl]
          rcases List.mem_append.1 hg with h | h
          · simp [h]
          · simp [h])) (by omega)]
      exact hfr1 x (by rw [efl] at hx1; exact hx1)

end Explicit
end Heap

namespace Heap

theorem Chain_aligned (a e : Nat) (bs : List Blk) (h : Chain a bs e) (ha : a % 8 = 0)
    (hs : ∀ b ∈ bs, b.size % 8 = 0) : ∀ b ∈ bs, b.addr % 8 = 0 := by
  induction bs generalizing a with
  | nil => intro b hb; simp at hb
  | cons c bs ih =>
    intro b hb
    have hc := hs c (by simp)
    rcases List.mem_cons.1 hb with rfl | hb
    · rw [h.1]; exact ha
    · exact ih (a + 8 + c.size) h.2 (by omega) (fun x hx => hs x (by simp [hx])) b hb

theorem Tiled.aligned {pmin : Nat} {s : State} {bs : List Blk} (t : Tiled pmin s bs)
    (ha : s.segment_start % 8 = 0) {b : Blk} (hb : b ∈ bs) : b.addr % 8 = 0 :=
  Chain_aligned _ _ _ t.chain ha (fun c hc => (t.ok c hc).2.1) b hb

theorem Tiled.weaken {s : State} {bs : List Blk} (t : Tiled 16 s bs) : Tiled 8 s bs :=
  ⟨t.start_pos, t.end_lt, t.size_eq, t.chain, t.nonempty, fun b hb => by
    have := t.ok b hb
    exact ⟨this.1, this.2.1, by have := this.2.2; omega⟩⟩

namespace Explicit

theorem myinit_wf (s0 s : State) (start size : Nat)
    (h8 : size % 8 = 0) (hpos : 0 < start) (hlt : start + size < WORD)
    (h : myinit s0 start size = .ok (true, s)) :
    WF s [{ addr := start, size := size - 8, free := true }] [start] ∧
      s.nused = (s0.nused + 8) % WORD := by
  unfold myinit MINIMUM_BLOCK_SIZE at h
  by_cases h24 : size < 24
  · rw [if_pos h24] at h
    simp only [pure_eq_ok, Except.ok.injEq, Prod.mk.injEq] at h
    exact absurd h.1 (by simp)
  · rw [if_neg h24] at h
    simp only [ALIGNMENT, setRegion_segment_start, setRegion_segment_size] at h
    rw [Nat.mod_eq_of_lt hlt, sub_mod_word size 8 (by omega) (by omega),
      set_header_free_ok _ _ _ (by simp) (by simp; omega)] at h
    simp only [ok_bind, setHdr_segment_start, setRegion_segment_start] at h
    rw [header2payload_eq _ (by omega),
      set_nodes_ok _ _ _ _ (by simp) (by simp; omega) (by simpa using hlt)] at h
    simp only [ok_bind, pure_eq_ok, Except.ok.injEq, Prod.mk.injEq, true_and, setFront_fl_front,
      setFront_mem, setHdr_mem, setRegion_mem, setMem_nused, setFront_nused, setHdr_nused,
      setRegion_nused] at h
    subst h
    have e16 : start + 8 + 8 = start + 16 := by omega
    refine ⟨⟨⟨by simpa using hpos, by simpa using hlt, by simp, ?_, by simp, ?_⟩,
      ⟨by simp [frontOf], ?_, ?_⟩, by simp, ?_⟩, by simp⟩
    · simp only [setNused_segment_start, setMem_segment_start, setFront_segment_start,
        setHdr_segment_start, setRegion_segment_start, setNused_segment_end, setMem_segment_end,
        setFront_segment_end, setHdr_segment_end, setRegion_segment_end, Chain, true_and]
      omega
    · intro b hb
      simp only [List.mem_singleton] at hb
      subst hb
      refine ⟨?_, by simp; omega, by simp; omega⟩
      simp only [setNused_mem, setMem_mem]
      rw [read64_write64_ne _ _ _ _ (by simp), read64_write64_ne _ _ _ _ (by simp),
        read64_write64_same]
      exact Nat.mod_eq_of_lt (hdrWord_lt _ _ (by omega))
    · rw [Fwd_cons]
      refine ⟨?_, trivial⟩
      simp only [setNused_mem, setMem_mem, e16, List.headD_nil]
      rw [read64_write64_same]
      rfl
    · rw [Bwd_cons]
      refine ⟨?_, trivial⟩
      simp only [setNused_mem, setMem_mem, e16]
      rw [read64_write64_ne _ _ _ _ (by omega), read64_write64_same]
      rfl
    · intro g hg
      simp only [List.mem_singleton] at hg
      exact ⟨{ addr := start, size := size - 8, free := true }, by simp, hg.symm, rfl⟩

end Explicit
end Heap

namespace Heap

theorem WF.linked {s : State} {bs : List Blk} {fl : List Nat} (w : WF s bs fl) :
    Linked s bs fl :=
  ⟨w.tiled, w.listed, w.nodup, fun h hh => by
    obtain ⟨b, hb, e, -⟩ := w.sub h hh
    exact ⟨b, hb, e⟩⟩

theorem Linked.spaced_of_linked {s : State} {bs : List Blk} {fl : List Nat} (w : Linked s bs fl) :
    Spaced s fl :=
  spaced_of_sub w.tiled w.nodup w.sub

theorem erase_of_split (l1 r1 : List Nat) (h : Nat) (hnd : (l1 ++ h :: r1).Nodup) :
    (l1 ++ h :: r1).erase h = l1 ++ r1 := by
  have h1 : h ∉ l1 := by
    intro hx
    exact (List.nodup_append.1 hnd).2.2 hx (by simp)
  rw [List.erase_append_right _ h1, List.erase_cons_head]

theorem Chain_span (a e : Nat) (run : List Blk) (h : Chain a run e) : e = a + span run := by
  induction run generalizing a with
  | nil => simp only [Chain] at h; simp [span, h]
  | cons c t ih =>
    have := ih _ h.2
    simp only [span]
    omega

theorem decN_zero (v : Nat) : decN v 0 = v := id rfl

theorem decN_succ (v k : Nat) : decN v (k + 1) = decN ((v + (WORD - 8)) % WORD) k := by
  unfold decN
  rw [Function.iterate_succ_apply]
  exact id rfl

theorem decN_eq (v k : Nat) (h : 8 * k ≤ v) (hv : v < WORD) : decN v k = v - 8 * k := by
  induction k generalizing v with
  | zero => rw [decN_zero]; omega
  | succ k ih =>
    rw [decN_succ, sub_mod_word v 8 (by omega) hv, ih (v - 8) (by omega) (by omega)]
    omega

namespace Explicit

/-- The loop of `coalesce` on a run of listed free blocks. -/
theorem coalesce_loop_spec (run : List Blk) :
    ∀ (s : State) (fl : List Nat) (pre r : List Blk) (acc fuel : Nat),
      Linked s (pre ++ run ++ r) fl → (∀ c ∈ run, c.free = true ∧ c.addr ∈ fl) →
      (∀ c, r.head? = some c → c.free = false) → run.length < fuel →
      acc + span run < WORD →
      ∃ t, coalesce_loop fuel s (nextAddr (run ++ r)) acc = .ok (t, acc + span run) ∧
        Linked t (pre ++ run ++ r) (fl.diff (run.map Blk.addr)) ∧ SameRegion s t ∧
        t.nused = decN s.nused run.length ∧
        (∀ x, (∀ g ∈ fl, ¬ InNode g x) → t.mem x = s.mem x) := by
  induction run with
  | nil =>
    intro s fl pre r acc fuel w _ hstop hf _
    cases fuel with
    | zero => simp at hf
    | succ fuel =>
      unfold coalesce_loop
      simp only [List.nil_append, span, Nat.add_zero, List.map_nil, List.diff_nil,
        List.length_nil, decN_zero, List.append_nil]
      cases r with
      | nil =>
        simp only [nextAddr, if_true, pure_eq_ok]
        exact ⟨s, rfl, by simpa using w, sameRegion_refl s, rfl, fun _ _ => rfl⟩
      | cons c r =>
        have hc : c ∈ pre ++ [] ++ c :: r := by simp
        have hm := w.tiled.mem_bounds hc
        have hcf := hstop c rfl
        simp only [nextAddr]
        rw [if_neg (by omega), w.tiled.is_free_eq hc, hcf]
        simp only [ok_bind, Bool.not_false, if_true, pure_eq_ok]
        exact ⟨s, rfl, by simpa using w, sameRegion_refl s, rfl, fun _ _ => rfl⟩
  | cons c run ih =>
    intro s fl pre r acc fuel w hrun hstop hf hacc
    cases fuel with
    | zero => simp at hf
    | succ fuel =>
      have hc : c ∈ pre ++ c :: run ++ r := by simp
      have hm := w.tiled.mem_bounds hc
      have hco := w.tiled.ok c hc
      obtain ⟨hcf, hcfl⟩ := hrun c (by simp)
      simp only [span] at hacc
      unfold coalesce_loop
      simp only [List.cons_append, nextAddr]
      rw [if_neg (by omega), w.tiled.is_free_eq hc, hcf]
      simp only [ok_bind, Bool.not_true, Bool.false_eq_true, if_false]
      rw [w.tiled.get_payload_size_eq hc]
      simp only [ok_bind, ALIGNMENT]
      rw [Nat.mod_eq_of_lt (show 8 + c.size < WORD by omega),
        Nat.mod_eq_of_lt (show acc + (8 + c.size) < WORD by omega),
        header2payload_eq _ (by omega)]
      obtain ⟨l1, r1, efl⟩ := List.append_of_mem hcfl
      have hl0 := w.listed
      have hsp := w.spaced_of_linked
      have hnd := w.nodup
      rw [efl] at hl0 hsp hnd
      obtain ⟨t1, e1, hl1, hreg1, hnu1, hfr1, -, -⟩ :=
        detach_spec s l1 r1 c.addr w.tiled.start_pos w.tiled.end_lt hl0 hsp
      rw [e1]
      simp only [ok_bind]
      have ht1 : Tiled 16 t1 (pre ++ c :: run ++ r) :=
        w.tiled.frame_nodes w.sub hreg1 (by rw [efl]; exact hfr1)
      have ht1n : Tiled 16 (t1.setNused ((t1.nused + (WORD - 8)) % WORD))
          (pre ++ c :: (run ++ r)) := by
        have := ht1.setNused ((t1.nused + (WORD - 8)) % WORD)
        simpa using this
      rw [ht1n.next_header_eq]
      simp only [ok_bind]
      -- the state handed to the next iteration
      have hera : fl.erase c.addr = l1 ++ r1 := by rw [efl]; exact erase_of_split _ _ _ hnd
      have hnd1 : (fl.erase c.addr).Nodup := w.nodup.erase _
      have w1 : Linked (t1.setNused ((t1.nused + (WORD - 8)) % WORD)) ((pre ++ [c]) ++ run ++ r)
          (fl.erase c.addr) := by
        refine ⟨by simpa using ht1n, ?_, hnd1, ?_⟩
        · rw [hera]
          exact hl1.frame (by simp) (fun g _ x _ => by simp)
        · intro g hg
          obtain ⟨d, hd, e⟩ := w.sub g (List.mem_of_mem_erase hg)
          exact ⟨d, by simpa using hd, e⟩
      have hrun1 : ∀ d ∈ run, d.free = true ∧ d.addr ∈ fl.erase c.addr := by
        intro d hd
        obtain ⟨hdf, hdfl⟩ := hrun d (by simp [hd])
        refine ⟨hdf, (w.nodup.mem_erase_iff).2 ⟨?_, hdfl⟩⟩
        intro heq
        have hd2 : d ∈ pre ++ c :: run ++ r := by simp [hd]
        have := w.tiled.addr_inj hd2 hc heq
        subst this
        -- `c` cannot occur again in the run that follows it
        obtain ⟨hcl, hcr⟩ := (Chain_split _ _ _ _ _).1 (by
          have := w.tiled.chain
          rw [List.append_assoc, List.cons_append] at this
          exact this)
        have := Chain_mem _ _ _ hcr d (by simp [hd])
        omega
      obtain ⟨t2, e2, w2, hreg2, hnu2, hfr2⟩ := ih (t1.setNused ((t1.nused + (WORD - 8)) % WORD))
        (fl.erase c.addr) (pre ++ [c]) r (acc + (8 + c.size)) fuel w1 hrun1 hstop
        (by simpa using hf) (by omega)
      rw [e2]
      refine ⟨t2, by rw [show acc + (8 + c.size) + span run = acc + span (c :: run) by simp only [span]; omega],
        ?_, ?_, ?_, ?_⟩
      · have := w2
        simp only [List.append_assoc, List.singleton_append] at this
        simpa [List.diff_cons] using this
      · exact (hreg1.trans (by simp [SameRegion])).trans hreg2
      · rw [hnu2]
        simp only [setNused_nused, hnu1, List.length_cons, decN_succ]
      · intro x hx
        rw [hfr2 x (fun g hg => hx g (List.mem_of_mem_erase hg))]
        simp only [setNused_mem]
        exact hfr1 x (by rw [← efl]; exact hx)

end Explicit
end Heap

namespace Heap

theorem span_mod {pmin : Nat} {s : State} {bs : List Blk} (t : Tiled pmin s bs) (run : List Blk)
    (h : ∀ c ∈ run, c ∈ bs) : span run % 8 = 0 := by
  induction run with
  | nil => rfl
  | cons c run ih =>
    have := (t.ok c (h c (by simp))).2.1
    have := ih (fun d hd => h d (by simp [hd]))
    simp only [span]
    omega

theorem span_pos (c : Blk) (run : List Blk) : 8 ≤ span (c :: run) := by
  simp only [span]
  omega

theorem diff_cons_keep (fl dl : List Nat) (h : Nat) (hn : h ∉ dl) :
    (h :: fl).diff dl = h :: fl.diff dl := by
  induction dl generalizing fl with
  | nil => simp
  | cons d dl ih =>
    have hne : d ≠ h := by
      intro e; exact hn (by simp [e])
    rw [List.diff_cons, List.diff_cons, List.erase_cons_tail (by simpa using hne.symm)]
    exact ih _ (fun hx => hn (by simp [hx]))

namespace Explicit

/-- What `coalesce` does to a block followed by a run of listed free blocks. -/
theorem coalesce_spec {s : State} {l run r : List Blk} {b : Blk} {fl : List Nat} (fuel : Nat)
    (w : Linked s (l ++ b :: run ++ r) fl) (hrun : ∀ c ∈ run, c.free = true ∧ c.addr ∈ fl)
    (hstop : ∀ c, r.head? = some c → c.free = false) (hf : run.length < fuel) :
    ∃ t, coalesce fuel s b.addr = .ok t ∧
      Linked t (l ++ merged b run :: r) (fl.diff (run.map Blk.addr)) ∧ SameRegion s t ∧
      t.nused = decN s.nused run.length ∧
      (∀ x, (∀ g ∈ fl, ¬ InNode g x) → (x < b.addr ∨ b.addr + 8 ≤ x) → t.mem x = s.mem x) := by
  have hb : b ∈ l ++ b :: run ++ r := by simp
  have hm := w.tiled.mem_bounds hb
  have ho := w.tiled.ok b hb
  have hch := w.tiled.chain
  rw [List.append_assoc, List.cons_append, Chain_split, Chain_append] at hch
  obtain ⟨hcl, e, hcrun, hcr⟩ := hch
  have he := Chain_span _ _ _ hcrun
  have hele := Chain_le _ _ _ hcr
  have ht0 : Tiled 16 s (l ++ b :: (run ++ r)) := by simpa using w.tiled
  unfold coalesce
  rw [ht0.next_header_eq]
  simp only [ok_bind]
  have w0 : Linked s ((l ++ [b]) ++ run ++ r) fl := by
    have := w
    simpa using this
  obtain ⟨t1, e1, w1, hreg1, hnu1, hfr1⟩ := coalesce_loop_spec run s fl (l ++ [b]) r 0 fuel w0
    hrun hstop hf (by omega)
  rw [e1]
  simp only [ok_bind, Nat.zero_add]
  have w1b : Linked t1 (l ++ b :: run ++ r) (fl.diff (run.map Blk.addr)) := by
    have := w1
    simpa using this
  cases run with
  | nil =>
    simp only [span, Nat.lt_irrefl, gt_iff_lt, if_false, pure_eq_ok]
    refine ⟨t1, rfl, ?_, hreg1, hnu1, fun x hx _ => hfr1 x hx⟩
    simpa [merged] using w1b
  | cons c run =>
    have hsp := span_pos c run
    rw [if_pos (by omega)]
    unfold merge_blocks
    rw [w1b.tiled.get_payload_size_eq hb]
    simp only [ok_bind]
    rw [Nat.mod_eq_of_lt (by omega),
      set_header_free_ok _ _ _ (by rw [hreg1.1]; omega) (by rw [hreg1.2.1]; omega)]
    have hs8 : span (c :: run) % 8 = 0 :=
      span_mod w.tiled (c :: run) (fun d hd => by
        rw [List.append_assoc, List.cons_append]
        exact List.mem_append_right _ (List.mem_cons_of_mem _ (List.mem_append_left _ hd)))
    have ht1 : Tiled 16 t1 (l ++ (b :: c :: run) ++ r) := by
      have := w1b.tiled
      simpa using this
    have htf := ht1.replace_seg (t := setHdr t1 b.addr (b.size + span (c :: run)) true)
      (k := [merged b (c :: run)]) (a := b.addr) (e := e)
      (by rw [hreg1.1]; exact hcl) (by rw [hreg1.2.1]; exact hcr)
      (by simp [SameRegion])
      (fun x hx => setHdr_mem_outside _ _ _ _ _ (by omega))
      (by simp only [merged, Chain, true_and]; omega)
      (by simp)
      (by
        intro d hd
        simp only [List.mem_singleton] at hd
        subst hd
        refine ⟨?_, ?_, ?_⟩
        · exact setHdr_read_same _ _ _ _ (by omega)
        · have := ho.2.1
          simp only [merged]
          omega
        · have := ho.2.2
          simp only [merged]
          omega)
    refine ⟨_, rfl, ⟨by simpa using htf, ?_, w1b.nodup, ?_⟩, hreg1.trans (by simp [SameRegion]),
      by simp [hnu1], ?_⟩
    · refine w1b.listed.frame (by simp) ?_
      intro g hg x hx
      obtain ⟨d, hd, hda⟩ := w1b.sub g hg
      have hsep : d.addr = b.addr ∨ d.addr + 24 ≤ b.addr ∨ b.addr + 24 ≤ d.addr := by
        by_cases hxe : d.addr = b.addr
        · exact Or.inl hxe
        · exact Or.inr (w1b.tiled.sep hd hb hxe)
      unfold InNode at hx
      exact setHdr_mem_outside _ _ _ _ _ (by omega)
    · intro g hg
      obtain ⟨hgfl, hgn⟩ := (w.nodup.mem_diff_iff).1 hg
      obtain ⟨d, hd, hda⟩ := w.sub g hgfl
      rw [List.append_assoc, List.cons_append] at hd
      rcases List.mem_append.1 hd with h | h
      · exact ⟨d, by simp [h], hda⟩
      · rcases List.mem_cons.1 h with h | h
        · exact ⟨merged b (c :: run), by simp, by rw [← hda, h]; rfl⟩
        · rcases List.mem_append.1 h with h | h
          · exfalso
            apply hgn
            rw [← hda]
            exact List.mem_map_of_mem _ h
          · exact ⟨d, by simp [h], hda⟩
    · intro x hx1 hx2
      rw [setHdr_mem_outside _ _ _ _ _ (by omega)]
      exact hfr1 x hx1

end Explicit
end Heap

namespace Heap
namespace Explicit

/-- What `myfree` does to a block that is not on the free list and is followed
by a run of listed free blocks. -/
theorem myfree_spec {s : State} {l run r : List Blk} {b : Blk} {fl : List Nat} (fuel : Nat)
    (w : WF s (l ++ b :: run ++ r) fl) (hbn : b.addr ∉ fl)
    (hrun : ∀ c ∈ run, c.free = true ∧ c.addr ∈ fl)
    (hstop : ∀ c, r.head? = some c → c.free = false) (hf : run.length < fuel) :
    ∃ t, myfree fuel s (b.addr + 8) = .ok t ∧
      WF t (l ++ { addr := b.addr, size := b.size + span run, free := true } :: r)
        (b.addr :: fl.diff (run.map Blk.addr)) ∧
      SameRegion s t ∧
      t.nused = (decN s.nused run.length + (WORD - b.size)) % WORD ∧
      (∀ x, (∀ g ∈ fl, ¬ InNode g x) → (x < b.addr ∨ b.addr + 24 ≤ x) → t.mem x = s.mem x) := by
  have hb : b ∈ l ++ b :: run ++ r := by simp
  have hm := w.tiled.mem_bounds hb
  have ho := w.tiled.ok b hb
  unfold myfree
  rw [if_neg (by omega), payload2header_eq _ (by omega) (by omega)]
  simp only [Nat.add_sub_cancel]
  rw [w.tiled.get_payload_size_eq hb]
  simp only [ok_bind]
  -- insertion at the front of the list
  have hsub1 : ∀ g ∈ b.addr :: fl, ∃ c ∈ l ++ b :: run ++ r, c.addr = g := by
    intro g hg
    rcases List.mem_cons.1 hg with h | h
    · exact ⟨b, hb, h.symm⟩
    · exact w.linked.sub g h
  have hnd1 : (b.addr :: fl).Nodup := List.nodup_cons.2 ⟨hbn, w.nodup⟩
  have hsp1 : Spaced s (b.addr :: fl) := spaced_of_sub w.tiled hnd1 hsub1
  obtain ⟨t1, e1, hl1, hreg1, hnu1, hfr1⟩ :=
    add_spec s fl b.addr w.tiled.start_pos w.tiled.end_lt w.listed hsp1
  rw [e1]
  simp only [ok_bind]
  have ht1 : Tiled 16 t1 (l ++ b :: (run ++ r)) := by
    have := w.tiled.frame_nodes hsub1 hreg1 hfr1
    simpa using this
  rw [set_header_free_ok _ _ _ (by rw [hreg1.1]; omega) (by rw [hreg1.2.1]; omega)]
  simp only [ok_bind]
  have ht2 := ht1.set_free true
  have hbn2 : b.addr ∉ run.map Blk.addr := by
    intro hx
    obtain ⟨c, hc, hca⟩ := List.mem_map.1 hx
    have hc2 : c ∈ l ++ b :: run ++ r := by simp [hc]
    have := w.tiled.addr_inj hc2 hb hca
    subst this
    obtain ⟨-, hcr⟩ := (Chain_split _ _ _ _ _).1 (by
      have := w.tiled.chain
      rw [List.append_assoc, List.cons_append] at this
      exact this)
    have := Chain_mem _ _ _ hcr c (by simp [hc])
    omega
  have w2 : Linked (setHdr t1 b.addr b.size true)
      (l ++ { b with free := true } :: run ++ r) (b.addr :: fl) := by
    refine ⟨by simpa using ht2, ?_, hnd1, ?_⟩
    · refine hl1.frame (by simp) ?_
      intro g hg x hx
      obtain ⟨d, hd, hda⟩ := hsub1 g hg
      have hsep : d.addr = b.addr ∨ d.addr + 24 ≤ b.addr ∨ b.addr + 24 ≤ d.addr := by
        by_cases hxe : d.addr = b.addr
        · exact Or.inl hxe
        · exact Or.inr (w.tiled.sep hd hb hxe)
      unfold InNode at hx
      exact setHdr_mem_outside _ _ _ _ _ (by omega)
    · intro g hg
      obtain ⟨d, hd, hda⟩ := hsub1 g hg
      rw [List.append_assoc, List.cons_append] at hd
      rcases List.mem_append.1 hd with h | h
      · exact ⟨d, by simp [h], hda⟩
      · rcases List.mem_cons.1 h with h | h
        · exact ⟨{ b with free := true }, by simp, by rw [← hda, h]⟩
        · exact ⟨d, by
            rw [List.append_assoc, List.cons_append]
            exact List.mem_append_right _ (List.mem_cons_of_mem _ h), hda⟩
  obtain ⟨t3, e3, w3, hreg3, hnu3, hfr3⟩ :=
    coalesce_spec (b := { b with free := true }) fuel w2
      (fun c hc => ⟨(hrun c hc).1, List.mem_cons_of_mem _ (hrun c hc).2⟩) hstop hf
  rw [e3]
  simp only [ok_bind, pure_eq_ok]
  have hmer : merged { b with free := true } run
      = { addr := b.addr, size := b.size + span run, free := true } := by
    cases run with
    | nil => simp [merged, span]
    | cons c run => simp [merged]
  rw [hmer, diff_cons_keep _ _ _ hbn2] at w3
  refine ⟨_, rfl, ⟨w3.tiled.setNused _, ?_, w3.nodup, ?_⟩, ?_, ?_, ?_⟩
  · exact w3.listed.frame (by simp) (fun g _ x _ => by simp)
  · intro g hg
    rcases List.mem_cons.1 hg with h | h
    · exact ⟨{ addr := b.addr, size := b.size + span run, free := true }, by simp, h.symm, rfl⟩
    · obtain ⟨hgfl, hgn⟩ := (w.nodup.mem_diff_iff).1 h
      obtain ⟨d, hd, hda, hdf⟩ := w.sub g hgfl
      rw [List.append_assoc, List.cons_append] at hd
      rcases List.mem_append.1 hd with h | h
      · exact ⟨d, by simp [h], hda, hdf⟩
      · rcases List.mem_cons.1 h with h | h
        · exfalso
          apply hbn
          rw [← h, hda]
          exact hgfl
        · rcases List.mem_append.1 h with h | h
          · exfalso
            apply hgn
            rw [← hda]
            exact List.mem_map_of_mem _ h
          · exact ⟨d, by simp [h], hda, hdf⟩
  · exact ((hreg1.trans (by simp [SameRegion])).trans hreg3).trans (by simp [SameRegion])
  · simp only [setNused_nused, hnu3, setHdr_nused, hnu1]
  · intro x hx1 hx2
    rw [setNused_mem, hfr3 x (by
      intro g hg
      rcases List.mem_cons.1 hg with h | h
      · rw [h]; unfold InNode; omega
      · exact hx1 g h) (by simp; omega), setHdr_mem_outside _ _ _ _ _ (by omega)]
    exact hfr1 x (by
      intro g hg
      rcases List.mem_cons.1 hg with h | h
      · rw [h]; unfold InNode; omega
      · exact hx1 g h)

end Explicit
end Heap

namespace Heap

/-- A list of blocks splits into its leading run of free blocks and a rest
that does not start with a free block. -/
theorem free_run_split (rest : List Blk) :
    ∃ run r, rest = run ++ r ∧ (∀ c ∈ run, c.free = true) ∧
      (∀ c, r.head? = some c → c.free = false) := by
  induction rest with
  | nil => exact ⟨[], [], rfl, by simp, by simp⟩
  | cons c rest ih =>
    obtain ⟨run, r, e, h1, h2⟩ := ih
    by_cases hc : c.free = true
    · refine ⟨c :: run, r, by rw [e]; rfl, ?_, h2⟩
      intro d hd
      rcases List.mem_cons.1 hd with h | h
      · rw [h]; exact hc
      · exact h1 d h
    · refine ⟨[], c :: rest, rfl, by simp, ?_⟩
      intro d hd
      simp only [List.head?_cons, Option.some.injEq] at hd
      rw [← hd]
      simpa using hc

/-- Where the parts of a tiling around a block and the run after it lie. -/
theorem Tiled.parts {pmin : Nat} {s : State} {l run r : List Blk} {b : Blk}
    (t : Tiled pmin s (l ++ b :: run ++ r)) :
    (∀ d ∈ l, s.segment_start ≤ d.addr ∧ d.addr + 8 + d.size ≤ b.addr) ∧
    (∀ c ∈ run, b.addr + 8 + b.size ≤ c.addr ∧
      c.addr + 8 + c.size ≤ b.addr + 8 + b.size + span run) ∧
    (∀ d ∈ r, b.addr + 8 + b.size + span run ≤ d.addr ∧ d.addr + 8 + d.size ≤ s.segment_end) ∧
    b.addr + 8 + b.size + span run ≤ s.segment_end := by
  have hch := t.chain
  rw [List.append_assoc, List.cons_append, Chain_split, Chain_append] at hch
  obtain ⟨hcl, e, hcrun, hcr⟩ := hch
  have he := Chain_span _ _ _ hcrun
  have hele := Chain_le _ _ _ hcr
  refine ⟨?_, ?_, ?_, by omega⟩
  · intro d hd
    exact Chain_mem _ _ _ hcl d hd
  · intro c hc
    have := Chain_mem _ _ _ hcrun c hc
    omega
  · intro d hd
    have := Chain_mem _ _ _ hcr d hd
    omega

/-- The free list is no longer than the list of blocks. -/
theorem Linked.length_le {s : State} {bs : List Blk} {fl : List Nat} (w : Linked s bs fl) :
    fl.length ≤ bs.length := by
  have hsub : fl ⊆ bs.map Blk.addr := by
    intro g hg
    obtain ⟨b, hb, e⟩ := w.sub g hg
    exact List.mem_map.2 ⟨b, hb, e⟩
  have := (List.subperm_of_subset w.nodup hsub).length_le
  simpa using this

/-- A tiling with payloads of at least 16 bytes has fewer blocks than the
region has bytes. -/
theorem Tiled.length_lt {pmin : Nat} {s : State} {bs : List Blk} (t : Tiled pmin s bs) :
    bs.length < s.segment_size := by
  have h1 := Chain_length _ _ _ t.chain
  have h2 := t.size_eq
  have h3 : 0 < bs.length := List.length_pos.2 t.nonempty
  omega

end Heap

namespace Heap
namespace Explicit

theorem copied_self (s : State) (p k : Nat) : Implicit.copied s p p k = s := by
  unfold Implicit.copied
  have : (fun x => if p ≤ x ∧ x < p + k then s.mem (p + (x - p)) else s.mem x) = s.mem := by
    funext x
    split
    · rename_i h
      rw [Nat.add_sub_cancel' h.1]
    · rfl
  rw [this]
  rfl

/-- A call of `memcpy` that returns leaves the copied state. -/
theorem memcpy_inv (s : State) (d a n : Nat) (t : State) (h : memcpy s d a n = .ok t) :
    t = Implicit.copied s d a n := by
  unfold memcpy at h
  by_cases hn : n = 0
  · rw [if_pos hn] at h
    subst hn
    have e : Implicit.copied s d a 0 = s := by
      unfold Implicit.copied
      have : (fun x => if d ≤ x ∧ x < d + 0 then s.mem (a + (x - d)) else s.mem x) = s.mem := by
        funext x
        rw [if_neg (by omega)]
      rw [this]
      rfl
    rw [e]
    exact (Except.ok.inj h).symm
  · rw [if_neg hn] at h
    by_cases hr : inRegion s d n ∧ inRegion s a n
    · rw [if_pos hr] at h
      exact (Except.ok.inj h).symm
    · rw [if_neg hr] at h
      exact absurd h (by simp)

theorem myrealloc_unfold (MAX fuel : Nat) (s : State) (p n : Nat) :
    myrealloc MAX fuel s p n =
      (if p = 0 then mymalloc MAX fuel s n
      else if !validate_request MAX s n (needOf n) then pure (0, s)
      else do
        let old_size ← get_payload_size s (payload2header p)
        let s ← coalesce fuel s (payload2header p)
        let post_cs_size ← get_payload_size s (payload2header p)
        if needOf n ≤ post_cs_size then do
          let s ← realloc_inplace s (if old_size < n then old_size else n) p (needOf n)
            post_cs_size (payload2header p)
          pure (p, s)
        else do
          let (new_ptr, s) ← mymalloc MAX fuel s n
          if new_ptr = 0 then pure (0, s)
          else do
            let s ← memcpy s new_ptr p n
            let s ← myfree fuel s p
            pure (new_ptr, s.setNused ((s.nused + needOf n) % WORD))) := by
  unfold myrealloc needOf
  rfl

/-- The in-place branch of `myrealloc` on a block that is not on the free list
returns and leaves the first `needed` bytes of the payload as they were. -/
theorem realloc_inplace_spec {t1 : State} {l r : List Blk} {mb : Blk} {fl1 : List Nat}
    (w1 : Linked t1 (l ++ mb :: r) fl1) (hnot : mb.addr ∉ fl1)
    (k needed : Nat) (h8 : needed % 8 = 0) (h16 : 16 ≤ needed)
    (hle : needed ≤ mb.size) (hkb : k ≤ mb.size) :
    ∃ t, realloc_inplace t1 k (mb.addr + 8) needed mb.size mb.addr = .ok t ∧
      ∀ x, mb.addr + 8 ≤ x → x < mb.addr + 8 + needed → t.mem x = t1.mem x := by
  have hb : mb ∈ l ++ mb :: r := by simp
  have hm := w1.tiled.mem_bounds hb
  have ho := w1.tiled.ok mb hb
  have hsp := w1.spaced_of_linked
  have hsep1 : ∀ g ∈ fl1, g + 24 ≤ mb.addr ∨ mb.addr + 8 + mb.size ≤ g := by
    intro g hg
    obtain ⟨c, hc, e⟩ := w1.sub g hg
    have hco := (w1.tiled.ok c hc).2.2
    have hne : c ≠ mb := by
      intro hcb; rw [hcb] at e; rw [← e] at hg; exact hnot hg
    rcases Chain_disjoint _ _ _ w1.tiled.chain c mb hc hb with h3 | h3 | h3
    · exact absurd h3 hne
    · left; omega
    · right; omega
  unfold realloc_inplace
  rw [Implicit.memcpy_ok t1 _ _ k ⟨by omega, by omega⟩ ⟨by omega, by omega⟩, copied_self]
  simp only [ok_bind]
  rw [sub_mod_word _ _ hle (by omega)]
  unfold big_enough MINIMUM_BLOCK_SIZE
  by_cases hbig : mb.size - needed < 24
  · simp only [hbig, if_true, pure_eq_ok, ok_bind]
    rw [set_header_alloc_ok _ _ _ ho.2.1 (by omega) (by omega)]
    simp only [ok_bind]
    refine ⟨_, rfl, ?_⟩
    intro x hx1 hx2
    rw [setNused_mem, setHdr_mem_outside _ _ _ _ _ (by omega)]
  · simp only [hbig, if_false, Bool.false_eq_true, pure_eq_ok, ok_bind]
    unfold split_block
    simp only [ALIGNMENT]
    have eh2 : (mb.addr + 8 + needed) % WORD = mb.addr + 8 + needed :=
      Nat.mod_eq_of_lt (by omega)
    have erem : (mb.size - needed + (WORD - 8)) % WORD = mb.size - needed - 8 :=
      sub_mod_word _ 8 (by omega) (by omega)
    rw [eh2, erem]
    rw [set_header_free_ok _ _ _ (by simp only [setNused_segment_start]; omega)
      (by simp only [setNused_segment_end]; omega)]
    simp only [ok_bind]
    rw [header2payload_eq _ (by omega)]
    generalize ht2def : setHdr (t1.setNused ((t1.nused + 8) % WORD)) (mb.addr + 8 + needed)
      (mb.size - needed - 8) true = t2
    have hreg2 : SameRegion t1 t2 := by rw [← ht2def]; simp [SameRegion]
    have hfront2 : t2.fl_front = t1.fl_front := by rw [← ht2def]; simp
    have hmem2 : ∀ x, (x < mb.addr + 8 + needed ∨ mb.addr + 8 + needed + 8 ≤ x) →
        t2.mem x = t1.mem x := by
      intro x hx
      rw [← ht2def, setHdr_mem_outside _ _ _ _ _ hx, setNused_mem]
    have hl2 : Listed t2 fl1 := by
      refine w1.listed.frame hfront2 ?_
      intro g hg x hx
      have := hsep1 g hg
      unfold InNode at hx
      exact hmem2 x (by omega)
    have hsp2 : Spaced t2 ((mb.addr + 8 + needed) :: fl1) := by
      refine ⟨?_, ?_⟩
      · intro g hg
        rw [hreg2.1, hreg2.2.1]
        rcases List.mem_cons.1 hg with h | h
        · rw [h]; omega
        · exact hsp.inreg g h
      · rw [List.pairwise_cons]
        refine ⟨?_, hsp.sep⟩
        intro g hg
        have := hsep1 g hg
        omega
    obtain ⟨t3, e3, hl3, hreg3, hnu3, hfr3⟩ := add_spec t2 fl1 (mb.addr + 8 + needed)
      (by rw [hreg2.1]; exact w1.tiled.start_pos) (by rw [hreg2.2.1]; exact w1.tiled.end_lt)
      hl2 hsp2
    rw [e3]
    simp only [ok_bind]
    rw [set_header_alloc_ok _ _ _ h8 (by rw [hreg3.1, hreg2.1]; omega)
      (by rw [hreg3.2.1, hreg2.2.1]; omega)]
    simp only [ok_bind]
    refine ⟨_, rfl, ?_⟩
    intro x hx1 hx2
    rw [setNused_mem, setHdr_mem_outside _ _ _ _ _ (by omega), hfr3 x (by
      intro g hg
      rcases List.mem_cons.1 hg with h | h
      · rw [h]; unfold InNode; omega
      · have := hsep1 g h
        unfold InNode; omega)]
    exact hmem2 x (by omega)

end Explicit
end Heap

namespace Heap
namespace Explicit

/-- The relocating branch of `myrealloc`: when `mymalloc`, `memcpy` and `myfree`
return, the new payload holds the bytes of the old one. -/
theorem realloc_move_content {t1 : State} {l r : List Blk} {mb : Blk} {fl1 : List Nat}
    (MAX fuel n : Nat) (w1 : WF t1 (l ++ mb :: r) fl1) (hnot : mb.addr ∉ fl1)
    (hcomp : ∀ d, d ∈ l ∨ d ∈ r → d.free = true → d.addr ∈ fl1)
    (hM : MAX + 8 ≤ WORD) (hf : t1.segment_size ≤ fuel)
    (q2 : Nat) (t2 t3 t4 : State)
    (e2 : mymalloc MAX fuel t1 n = .ok (q2, t2)) (hq2 : q2 ≠ 0)
    (e3 : memcpy t2 q2 (mb.addr + 8) n = .ok t3)
    (e4 : myfree fuel t3 (mb.addr + 8) = .ok t4) :
    ∀ i, i < n → i < mb.size → t4.mem (q2 + i) = t1.mem (mb.addr + 8 + i) := by
  intro i hin him
  have hmbm : mb ∈ l ++ mb :: r := by simp
  have hmm := w1.tiled.mem_bounds hmbm
  have hmo := (w1.tiled.ok mb hmbm).2.2
  have hlt1 := w1.tiled.length_lt
  have hfl : fl1.length < fuel := by
    have h1 := w1.linked.length_le
    omega
  by_cases hv : validate_request MAX t1 n (needOf n) = true
  swap
  · have hv2 : validate_request MAX t1 n (needOf n) = false := by simpa using hv
    rw [mymalloc_reject MAX fuel t1 n hv2] at e2
    simp only [Except.ok.injEq, Prod.mk.injEq] at e2
    exact absurd e2.1.symm hq2
  have hvf := validate_explicit MAX t1 n hv
  obtain ⟨h8, h16, hnW, hnf⟩ := needOf_facts n
  obtain ⟨-, hnle⟩ := hnf (by omega)
  by_cases hfe : fl1 = []
  · subst hfe
    cases fuel with
    | zero => omega
    | succ fuel =>
      rw [mymalloc_empty MAX fuel n w1 hv] at e2
      exact absurd e2 (by simp)
  cases hfind : fl1.find? (fitAt t1 (needOf n)) with
  | none =>
    rw [mymalloc_none MAX fuel n w1 hv hfe hfl hfind] at e2
    simp only [Except.ok.injEq, Prod.mk.injEq] at e2
    exact absurd e2.1.symm hq2
  | some g =>
    obtain ⟨la, c, ra, l1, r1, t2b, ebs, efl, hca, hcf, hle, -, e, w2, hreg2, -, hfr2⟩ :=
      mymalloc_take MAX fuel n w1 hv hfl g hfind
    rw [e] at e2
    simp only [Except.ok.injEq, Prod.mk.injEq] at e2
    obtain ⟨hq, ht⟩ := e2
    subst ht
    subst hq
    subst hca
    generalize needOf n = needed at *
    have hc : c ∈ l ++ mb :: r := by rw [ebs]; simp
    have hcfl : c.addr ∈ fl1 := by rw [efl]; simp
    have hne : c ≠ mb := by
      intro hx; rw [hx] at hcfl; exact hnot hcfl
    have hcm := w1.tiled.mem_bounds hc
    have hdis : c.addr + 8 + c.size ≤ mb.addr ∨ mb.addr + 8 + mb.size ≤ c.addr := by
      rcases Chain_disjoint _ _ _ w1.tiled.chain c mb hc hmbm with h3 | h3 | h3
      · exact absurd h3 hne
      · exact Or.inl h3
      · exact Or.inr h3
    -- the parts of the old tiling around `c`
    have wt := w1.tiled
    rw [ebs] at wt
    have wtc : Tiled 16 t1 (la ++ c :: [] ++ ra) := by simpa using wt
    obtain ⟨hpla, -, hpra, -⟩ := wtc.parts
    simp only [span, Nat.add_zero] at hpra
    -- the allocated block at `c.addr` in the new tiling
    have hnew : ∃ c2, c2 ∈ la ++ carveBlks 24 c needed ++ ra ∧ c2.addr = c.addr ∧
        c2.free = false ∧ needed ≤ c2.size ∧ c2.size ≤ c.size := by
      unfold carveBlks
      split
      · exact ⟨{ c with free := false }, by simp, rfl, rfl, hle, le_refl _⟩
      · exact ⟨{ addr := c.addr, size := needed, free := false }, by simp, rfl, rfl,
          le_refl _, hle⟩
    obtain ⟨c2, hc2, hc2a, hc2f, hc2n, hc2s⟩ := hnew
    have hmb2 : mb ∈ la ++ carveBlks 24 c needed ++ ra := by
      have h1 : mb ∈ la ++ c :: ra := by rw [← ebs]; exact hmbm
      rcases List.mem_append.1 h1 with h | h
      · simp [h]
      · rcases List.mem_cons.1 h with h | h
        · exact absurd h.symm hne
        · simp [h]
    -- listed blocks keep clear of the new payload
    have hsep2 : ∀ g ∈ carveList c needed (l1 ++ r1),
        g + 24 ≤ c.addr ∨ c.addr + 8 + c2.size ≤ g := by
      intro g hg
      obtain ⟨d, hd, hda, hdf⟩ := w2.sub g hg
      have hdo := (w2.tiled.ok d hd).2.2
      rcases Chain_disjoint _ _ _ w2.tiled.chain d c2 hd hc2 with h3 | h3 | h3
      · rw [h3, hc2f] at hdf
        exact absurd hdf (by simp)
      · left; omega
      · right; omega
    have e3b := memcpy_inv _ _ _ _ _ e3
    subst e3b
    have hreg3 : SameRegion t2b (Implicit.copied t2b (c.addr + 8) (mb.addr + 8) n) :=
      Implicit.copied_region _ _ _ _
    have w3 : WF (Implicit.copied t2b (c.addr + 8) (mb.addr + 8) n)
        (la ++ carveBlks 24 c needed ++ ra) (carveList c needed (l1 ++ r1)) := by
      refine ⟨?_, ?_, w2.nodup, w2.sub⟩
      · refine w2.tiled.payload_write c2 hc2 hreg3 ?_
        intro x hx
        exact Implicit.copied_mem_outside _ _ _ _ _ (by omega)
      · refine w2.listed.frame (by simp [Implicit.copied]) ?_
        intro g hg x hx
        have := hsep2 g hg
        unfold InNode at hx
        exact Implicit.copied_mem_outside _ _ _ _ _ (by omega)
    -- every free block of the new tiling other than `mb` is listed
    have hce : ∀ d ∈ la ++ carveBlks 24 c needed ++ ra, d.free = true → d.addr ≠ mb.addr →
        d.addr ∈ carveList c needed (l1 ++ r1) := by
      intro d hd hdf hdne
      have hold : (d ∈ la ∨ d ∈ ra) → d.addr ∈ carveList c needed (l1 ++ r1) := by
        intro hdd
        have h1 : d ∈ l ++ mb :: r := by
          rw [ebs]
          rcases hdd with h | h
          · simp [h]
          · simp [h]
        have h2 : d ∈ l ∨ d ∈ r := by
          rcases List.mem_append.1 h1 with h | h
          · exact Or.inl h
          · rcases List.mem_cons.1 h with h | h
            · rw [h] at hdne; exact absurd rfl hdne
            · exact Or.inr h
        have h3 := hcomp d h2 hdf
        have h4 : d.addr ≠ c.addr := by
          rcases hdd with h | h
          · have := hpla d h; omega
          · have := hpra d h; omega
        have h5 : d.addr ∈ l1 ++ r1 := by
          rw [efl] at h3
          rcases List.mem_append.1 h3 with h | h
          · simp [h]
          · rcases List.mem_cons.1 h with h | h
            · exact absurd h h4
            · simp [h]
        unfold carveList
        split
        · exact h5
        · exact List.mem_cons_of_mem _ h5
      rcases List.mem_append.1 hd with h | h
      · rcases List.mem_append.1 h with h | h
        · exact hold (Or.inl h)
        · unfold carveBlks at h
          unfold carveList
          split at h
          · simp only [List.mem_singleton] at h
            rw [h] at hdf
            exact absurd hdf (by simp)
          · rename_i hbig
            rw [if_neg hbig]
            simp only [List.mem_cons, List.mem_singleton, List.not_mem_nil, or_false] at h
            rcases h with h | h
            · rw [h] at hdf
              exact absurd hdf (by simp)
            · rw [h]
              exact List.mem_cons_self _ _
      · exact hold (Or.inr h)
    have hbn2 : mb.addr ∉ carveList c needed (l1 ++ r1) := by
      intro hx
      rcases carveList_sub _ _ _ _ hx with h | ⟨hbig, h⟩
      · apply hnot
        rw [efl]
        rcases List.mem_append.1 h with h | h
        · simp [h]
        · simp [h]
      · omega
    -- the block `mb` and the run of free blocks after it in the new tiling
    obtain ⟨l2, rest2, eb⟩ := List.append_of_mem hmb2
    obtain ⟨run2, r2, er, hrunf, hstop2⟩ := free_run_split rest2
    have eb3 : la ++ carveBlks 24 c needed ++ ra = l2 ++ mb :: run2 ++ r2 := by
      rw [eb, er]; simp
    have hmem3 : ∀ d ∈ run2, d ∈ la ++ carveBlks 24 c needed ++ ra := by
      intro d hd
      rw [eb3]
      simp [hd]
    rw [eb3] at w3
    obtain ⟨-, hprun2, -, -⟩ := w3.tiled.parts
    have hrun2 : ∀ d ∈ run2, d.free = true ∧ d.addr ∈ carveList c needed (l1 ++ r1) := by
      intro d hd
      refine ⟨hrunf d hd, hce d (hmem3 d hd) (hrunf d hd) ?_⟩
      have := hprun2 d hd
      omega
    have hlen2 : run2.length < fuel := by
      have h1 := w3.tiled.length_lt
      have h2 : run2.length ≤ (l2 ++ mb :: run2 ++ r2).length := by
        simp only [List.length_append, List.length_cons]
        omega
      have h3 : (Implicit.copied t2b (c.addr + 8) (mb.addr + 8) n).segment_size
          = t1.segment_size := by
        rw [hreg3.2.2, hreg2.2.2]
      omega
    obtain ⟨t4b, e4b, -, -, -, hfr4⟩ := myfree_spec fuel w3 hbn2 hrun2 hstop2 hlen2
    rw [e4b] at e4
    have e4c := Except.ok.inj e4
    subst e4c
    have hx4 : t4b.mem (c.addr + 8 + i)
        = (Implicit.copied t2b (c.addr + 8) (mb.addr + 8) n).mem (c.addr + 8 + i) := by
      apply hfr4
      · intro g hg
        have := hsep2 g hg
        unfold InNode
        omega
      · omega
    rw [hx4, Implicit.copied_mem_dst _ _ _ _ _ hin]
    apply hfr2
    · intro g hg
      obtain ⟨d, hd, hda, -⟩ := w1.sub g hg
      have hdo := (w1.tiled.ok d hd).2.2
      have hdne : d ≠ mb := by
        intro hx; rw [hx] at hda; rw [← hda] at hg; exact hnot hg
      unfold InNode
      rcases Chain_disjoint _ _ _ w1.tiled.chain d mb hd hmbm with h3 | h3 | h3
      · exact absurd h3 hdne
      · omega
      · omega
    · omega

/-- Content preservation of the explicit `myrealloc` on an allocated block `b`
followed by the run `run` of free blocks. -/
theorem myrealloc_content {s : State} {l run r : List Blk} {b : Blk} {fl : List Nat}
    (MAX fuel n : Nat) (w : WF s (l ++ b :: run ++ r) fl)
    (hcomp : Complete (l ++ b :: run ++ r) fl) (hbf : b.free = false)
    (hrunf : ∀ c ∈ run, c.free = true) (hstop : ∀ c, r.head? = some c → c.free = false)
    (hM : MAX + 8 ≤ WORD) (hf : s.segment_size ≤ fuel)
    (q : Nat) (t : State) (h : myrealloc MAX fuel s (b.addr + 8) n = .ok (q, t)) (hq : q ≠ 0) :
    ∀ i, i < b.size → i < n → t.mem (q + i) = s.mem (b.addr + 8 + i) := by
  have hb : b ∈ l ++ b :: run ++ r := by simp
  have hm := w.tiled.mem_bounds hb
  have ho := w.tiled.ok b hb
  obtain ⟨hpl, hprun, hpr, hpe⟩ := w.tiled.parts
  have hbn : b.addr ∉ fl := by
    intro hx
    obtain ⟨d, hd, hda, hdf⟩ := w.sub _ hx
    have := w.tiled.addr_inj hd hb hda
    rw [this, hbf] at hdf
    exact absurd hdf (by simp)
  have hrun : ∀ c ∈ run, c.free = true ∧ c.addr ∈ fl := by
    intro c hcr
    exact ⟨hrunf c hcr, hcomp c (by simp [hcr]) (hrunf c hcr)⟩
  have hlen : run.length < fuel := by
    have h1 := w.tiled.length_lt
    have h2 : run.length ≤ (l ++ b :: run ++ r).length := by
      simp only [List.length_append, List.length_cons]
      omega
    omega
  rw [myrealloc_unfold, if_neg (by omega)] at h
  by_cases hv : validate_request MAX s n (needOf n) = true
  swap
  · have hv2 : validate_request MAX s n (needOf n) = false := by simpa using hv
    rw [hv2] at h
    simp only [Bool.not_false, if_true, pure_eq_ok, Except.ok.injEq, Prod.mk.injEq] at h
    exact absurd h.1.symm hq
  rw [hv] at h
  simp only [Bool.not_true, Bool.false_eq_true, if_false] at h
  have hvf := validate_explicit MAX s n hv
  obtain ⟨h8, h16, hnW, hnf⟩ := needOf_facts n
  obtain ⟨-, hnle⟩ := hnf (by omega)
  rw [payload2header_eq _ (by omega) (by omega)] at h
  simp only [Nat.add_sub_cancel] at h
  rw [w.tiled.get_payload_size_eq hb] at h
  simp only [ok_bind] at h
  obtain ⟨t1, e1, w1, hreg1, -, hfr1⟩ := coalesce_spec fuel w.linked hrun hstop hlen
  rw [e1] at h
  simp only [ok_bind] at h
  have hmb : merged b run ∈ l ++ merged b run :: r := by simp
  have hmba : (merged b run).addr = b.addr := by cases run <;> rfl
  have hmbs : b.size ≤ (merged b run).size := by
    cases run with
    | nil => exact le_refl _
    | cons c run => exact Nat.le_add_right _ _
  have hg := w1.tiled.get_payload_size_eq hmb
  rw [hmba] at hg
  rw [hg] at h
  simp only [ok_bind] at h
  -- the old payload survives the merge
  have hcont1 : ∀ i, i < b.size → t1.mem (b.addr + 8 + i) = s.mem (b.addr + 8 + i) := by
    intro i hi
    apply hfr1 _ _ (Or.inr (by omega))
    intro g hg
    obtain ⟨d, hd, hda, -⟩ := w.sub g hg
    have hdo := (w.tiled.ok d hd).2.2
    have hdne : d ≠ b := by
      intro hx; rw [hx] at hda; rw [← hda] at hg; exact hbn hg
    unfold InNode
    rcases Chain_disjoint _ _ _ w.tiled.chain d b hd hb with h3 | h3 | h3
    · exact absurd h3 hdne
    · omega
    · omega
  have hnot1 : (merged b run).addr ∉ fl.diff (run.map Blk.addr) := by
    rw [hmba]
    intro hx
    exact hbn ((w.nodup.mem_diff_iff).1 hx).1
  generalize needOf n = needed at *
  by_cases hin : needed ≤ (merged b run).size
  · rw [if_pos hin] at h
    obtain ⟨t2, e2, hfr2⟩ := realloc_inplace_spec w1 hnot1 (if b.size < n then b.size else n)
      needed h8 h16 hin (by split <;> omega)
    rw [hmba] at e2 hfr2
    rw [e2] at h
    simp only [ok_bind, pure_eq_ok, Except.ok.injEq, Prod.mk.injEq] at h
    obtain ⟨hq2, ht⟩ := h
    subst hq2
    subst ht
    intro i hi1 hi2
    rw [hfr2 _ (by omega) (by omega)]
    exact hcont1 i hi1
  · rw [if_neg hin] at h
    -- after the merge the list holds exactly the free blocks other than the old one
    have wf1 : WF t1 (l ++ merged b run :: r) (fl.diff (run.map Blk.addr)) := by
      refine ⟨w1.tiled, w1.listed, w1.nodup, ?_⟩
      intro g hg
      obtain ⟨hgfl, hgn⟩ := (w.nodup.mem_diff_iff).1 hg
      obtain ⟨d, hd, hda, hdf⟩ := w.sub g hgfl
      rw [List.append_assoc, List.cons_append] at hd
      rcases List.mem_append.1 hd with h | h
      · exact ⟨d, by simp [h], hda, hdf⟩
      · rcases List.mem_cons.1 h with h | h
        · exfalso
          apply hbn
          rw [← h, hda]
          exact hgfl
        · rcases List.mem_append.1 h with h | h
          · exfalso
            apply hgn
            rw [← hda]
            exact List.mem_map_of_mem _ h
          · exact ⟨d, by simp [h], hda, hdf⟩
    have hcomp1 : ∀ d, d ∈ l ∨ d ∈ r → d.free = true → d.addr ∈ fl.diff (run.map Blk.addr) := by
      intro d hd hdf
      have hdm : d ∈ l ++ b :: run ++ r := by
        rcases hd with h | h
        · simp [h]
        · simp [h]
      refine (w.nodup.mem_diff_iff).2 ⟨hcomp d hdm hdf, ?_⟩
      intro hx
      obtain ⟨c, hcr, hca⟩ := List.mem_map.1 hx
      have h2 := hprun c hcr
      rcases hd with h | h
      · have h1 := hpl d h
        omega
      · have h1 := hpr d h
        omega
    cases e2 : mymalloc MAX fuel t1 n with
    | error err =>
      rw [e2] at h
      exact absurd h (by simp [error_bind])
    | ok res =>
      obtain ⟨q2, t2⟩ := res
      rw [e2] at h
      simp only [ok_bind] at h
      by_cases hq2 : q2 = 0
      · rw [if_pos hq2] at h
        simp only [pure_eq_ok, Except.ok.injEq, Prod.mk.injEq] at h
        exact absurd h.1.symm hq
      · rw [if_neg hq2] at h
        cases e3 : memcpy t2 q2 (b.addr + 8) n with
        | error err =>
          rw [e3] at h
          exact absurd h (by simp [error_bind])
        | ok t3 =>
          rw [e3] at h
          simp only [ok_bind] at h
          cases e4 : myfree fuel t3 (b.addr + 8) with
          | error err =>
            rw [e4] at h
            exact absurd h (by simp [error_bind])
          | ok t4 =>
            rw [e4] at h
            simp only [ok_bind, pure_eq_ok, Except.ok.injEq, Prod.mk.injEq] at h
            obtain ⟨hqq, ht⟩ := h
            subst hqq
            subst ht
            intro i hi1 hi2
            rw [setNused_mem]
            have := realloc_move_content MAX fuel n wf1 hnot1 hcomp1 hM
              (by rw [hreg1.2.2]; exact hf) q2 t2 t3 t4 e2 hq2
              (by rw [hmba]; exact e3) (by rw [hmba]; exact e4) i hi2 (by omega)
            rw [this, hmba]
            exact hcont1 i hi1

end Explicit
end Heap

namespace Heap

/-! ## Claims on allocation -/

/-- C2. Allocate postcondition, in both variants.  On a well-formed heap whose
start address is a multiple of 8, a call of `mymalloc(n)` that returns a
payload address `q` other than `NULL` returns a multiple of 8, leaves the
header of the block marked allocated, and the payload size in that header is at
least `max(Pmin, round_up(n, 8))`, with `Pmin = 16` in the explicit and
`Pmin = 8` in the implicit variant.  (`MAX_REQUEST_SIZE` is a parameter; the
explicit variant needs it to be at most `2^64 - 8`.) -/
theorem mymalloc_postcondition (MAX fuel n : Nat) (s t : State) (bs : List Blk) (q : Nat)
    (hal : s.segment_start % 8 = 0) (hn : n < WORD) (hq : q ≠ 0) :
    (∀ fl, WF s bs fl → fl.length < fuel → MAX + 8 ≤ WORD →
      Explicit.mymalloc MAX fuel s n = .ok (q, t) →
        q % 8 = 0 ∧ is_free t (payload2header q) = .ok false ∧
          ∃ sz, get_payload_size t (payload2header q) = .ok sz ∧
            max 16 ((n + 7) / 8 * 8) ≤ sz) ∧
    (Tiled 8 s bs → bs.length < fuel →
      Implicit.mymalloc MAX fuel s n = .ok (q, t) →
        q % 8 = 0 ∧ is_free t (payload2header q) = .ok false ∧
          ∃ sz, get_payload_size t (payload2header q) = .ok sz ∧
            max 8 ((n + 7) / 8 * 8) ≤ sz) := by
  constructor
  · intro fl w hf hM h
    by_cases hv : validate_request MAX s n (Explicit.needOf n) = true
    · by_cases hfl : fl = []
      · subst hfl
        cases fuel with
        | zero => simp at hf
        | succ fuel =>
          rw [Explicit.mymalloc_empty MAX fuel n w hv] at h
          exact absurd h (by simp)
      · cases hfind : fl.find? (Explicit.fitAt s (Explicit.needOf n)) with
        | none =>
          rw [Explicit.mymalloc_none MAX fuel n w hv hfl hf hfind] at h
          simp only [Except.ok.injEq, Prod.mk.injEq] at h
          exact absurd h.1.symm hq
        | some g =>
          obtain ⟨l, b, r, l1, r1, t2, ebs, efl, hba, hbf, hle, -, e, w2, hreg, -, -⟩ :=
            Explicit.mymalloc_take MAX fuel n w hv hf g hfind
          rw [e] at h
          simp only [Except.ok.injEq, Prod.mk.injEq] at h
          obtain ⟨hq2, ht⟩ := h
          subst ht
          subst hq2
          have hvf := Explicit.validate_explicit MAX s n hv
          obtain ⟨-, -, -, hnf⟩ := Explicit.needOf_facts n
          obtain ⟨hmax, -⟩ := hnf (by omega)
          have hb : b ∈ bs := by rw [ebs]; simp
          have hbal := w.tiled.aligned hal hb
          have hm := w.tiled.mem_bounds hb
          -- the block at the returned address in the new tiling
          have hnew : ∃ c, c ∈ l ++ carveBlks 24 b (Explicit.needOf n) ++ r ∧ c.addr = b.addr ∧
              c.free = false ∧ Explicit.needOf n ≤ c.size := by
            unfold carveBlks
            split
            · exact ⟨{ b with free := false }, by simp, rfl, rfl, hle⟩
            · exact ⟨{ addr := b.addr, size := Explicit.needOf n, free := false }, by simp, rfl,
                rfl, le_refl _⟩
          obtain ⟨c, hc, hca, hcf, hcs⟩ := hnew
          rw [← hba, payload2header_eq _ (by omega) (by omega)]
          simp only [Nat.add_sub_cancel]
          refine ⟨by omega, ?_, c.size, ?_, by omega⟩
          · rw [← hca, w2.tiled.is_free_eq hc, hcf]
          · rw [← hca, w2.tiled.get_payload_size_eq hc]
    · have hv2 : validate_request MAX s n (Explicit.needOf n) = false := by simpa using hv
      rw [Explicit.mymalloc_reject MAX fuel s n hv2] at h
      simp only [Except.ok.injEq, Prod.mk.injEq] at h
      exact absurd h.1.symm hq
  · intro tl hf h
    obtain ⟨q2, s2, e, hc⟩ := Implicit.mymalloc_spec MAX fuel n tl hn hf
    rw [e] at h
    simp only [Except.ok.injEq, Prod.mk.injEq] at h
    obtain ⟨hq2, ht⟩ := h
    subst ht
    subst hq2
    rcases hc with ⟨h0, -⟩ | ⟨l, c, r, ebs, hcf, hle, hn1, hqc, hs2, t2⟩
    · exact absurd h0 hq
    · have hc : c ∈ bs := by rw [ebs]; simp
      have hcal := tl.aligned hal hc
      have hm := tl.mem_bounds hc
      have hnew : ∃ d, d ∈ l ++ carveBlks 16 c ((n + 7) / 8 * 8) ++ r ∧ d.addr = c.addr ∧
          d.free = false ∧ (n + 7) / 8 * 8 ≤ d.size := by
        unfold carveBlks
        split
        · exact ⟨{ c with free := false }, by simp, rfl, rfl, hle⟩
        · exact ⟨{ addr := c.addr, size := (n + 7) / 8 * 8, free := false }, by simp, rfl,
            rfl, le_refl _⟩
      obtain ⟨d, hd, hda, hdf, hds⟩ := hnew
      rw [hqc, payload2header_eq _ (by omega) (by omega)]
      simp only [Nat.add_sub_cancel]
      refine ⟨by omega, ?_, d.size, ?_, by omega⟩
      · rw [← hda, t2.is_free_eq hd, hdf]
      · rw [← hda, t2.get_payload_size_eq hd]

/-- C2, at the start of scenario S1 (explicit) and on the implicit heap of the
same size. -/
theorem mymalloc_postcondition_witness :
    (4104 % 8 = 0 ∧ is_free heapE1 (payload2header 4104) = .ok false ∧
      ∃ sz, get_payload_size heapE1 (payload2header 4104) = .ok sz ∧
        max 16 ((32 + 7) / 8 * 8) ≤ sz) ∧
    (4104 % 8 = 0 ∧ is_free heapI1 (payload2header 4104) = .ok false ∧
      ∃ sz, get_payload_size heapI1 (payload2header 4104) = .ok sz ∧
        max 8 ((32 + 7) / 8 * 8) ≤ sz) :=
  ⟨(mymalloc_postcondition (2 ^ 30) 10 32 heapE0 heapE1 [⟨4096, 120, true⟩] 4104
      (by decide) (by decide) (by decide)).1 [4096] (by decide) (by decide) (by decide) (by rfl),
   (mymalloc_postcondition (2 ^ 30) 200 32 heapI0 heapI1 [⟨4096, 120, true⟩] 4104
      (by decide) (by decide) (by decide)).2 (by decide) (by decide) (by rfl)⟩

/-- C3. Allocate never touches existing allocated blocks (explicit variant).  On
a well-formed heap, whatever `mymalloc(n)` returns, the header word and every
payload byte of every block that was allocated before the call are unchanged,
and every byte the call changes lies inside a block that was free before it. -/
theorem mymalloc_frame (MAX fuel n : Nat) (s t : State) (bs : List Blk) (fl : List Nat)
    (q : Nat) (w : WF s bs fl) (hf : fl.length < fuel)
    (h : Explicit.mymalloc MAX fuel s n = .ok (q, t)) :
    (∀ b ∈ bs, b.free = false →
      read64 t.mem b.addr = read64 s.mem b.addr ∧
        ∀ i, i < b.size → t.mem (b.addr + 8 + i) = s.mem (b.addr + 8 + i)) ∧
    (∀ x, t.mem x ≠ s.mem x →
      ∃ b ∈ bs, b.free = true ∧ b.addr ≤ x ∧ x < b.addr + 8 + b.size) := by
  have key : ∀ x, t.mem x ≠ s.mem x →
      ∃ b ∈ bs, b.free = true ∧ b.addr ≤ x ∧ x < b.addr + 8 + b.size := by
    intro x hx
    by_cases hv : validate_request MAX s n (Explicit.needOf n) = true
    · by_cases hfl : fl = []
      · subst hfl
        cases fuel with
        | zero => simp at hf
        | succ fuel =>
          rw [Explicit.mymalloc_empty MAX fuel n w hv] at h
          exact absurd h (by simp)
      · cases hfind : fl.find? (Explicit.fitAt s (Explicit.needOf n)) with
        | none =>
          rw [Explicit.mymalloc_none MAX fuel n w hv hfl hf hfind] at h
          simp only [Except.ok.injEq, Prod.mk.injEq] at h
          rw [h.2] at hx
          exact absurd rfl hx
        | some g =>
          obtain ⟨l, b, r, l1, r1, t2, ebs, efl, hba, hbf, hle, -, e, w2, hreg, -, hfr⟩ :=
            Explicit.mymalloc_take MAX fuel n w hv hf g hfind
          rw [e] at h
          simp only [Except.ok.injEq, Prod.mk.injEq] at h
          obtain ⟨-, ht⟩ := h
          subst ht
          have hb : b ∈ bs := by rw [ebs]; simp
          by_cases hin : b.addr ≤ x ∧ x < b.addr + 8 + b.size
          · exact ⟨b, hb, hbf, hin.1, hin.2⟩
          · by_cases hnode : ∃ k ∈ fl, InNode k x
            · obtain ⟨k, hk, hkx⟩ := hnode
              obtain ⟨c, hc, hca, hcf⟩ := w.sub k hk
              have := (w.tiled.ok c hc).2.2
              unfold InNode at hkx
              exact ⟨c, hc, hcf, by omega, by omega⟩
            · exfalso
              apply hx
              apply hfr x
              · intro k hk hkx
                exact hnode ⟨k, hk, hkx⟩
              · omega
    · have hv2 : validate_request MAX s n (Explicit.needOf n) = false := by simpa using hv
      rw [Explicit.mymalloc_reject MAX fuel s n hv2] at h
      simp only [Except.ok.injEq, Prod.mk.injEq] at h
      rw [h.2] at hx
      exact absurd rfl hx
  refine ⟨?_, key⟩
  intro b hb hbf
  have hun : ∀ x, b.addr ≤ x → x < b.addr + 8 + b.size → t.mem x = s.mem x := by
    intro x h1 h2
    by_contra hne
    obtain ⟨c, hc, hcf, h3, h4⟩ := key x hne
    rcases Chain_disjoint _ _ _ w.tiled.chain b c hb hc with h5 | h5 | h5
    · rw [h5] at hbf; rw [hcf] at hbf; exact absurd hbf (by simp)
    · omega
    · omega
  refine ⟨?_, ?_⟩
  · apply read64_congr
    intro i hi
    exact hun _ (by omega) (by omega)
  · intro i hi
    exact hun _ (by omega) (by omega)

/-- C3, on the heap of scenario S1 after its first allocation. -/
theorem mymalloc_frame_witness :
    (∀ b ∈ [(⟨4096, 32, false⟩ : Blk), ⟨4136, 80, true⟩], b.free = false →
      read64 heapE2.mem b.addr = read64 heapE1.mem b.addr ∧
        ∀ i, i < b.size → heapE2.mem (b.addr + 8 + i) = heapE1.mem (b.addr + 8 + i)) ∧
    (∀ x, heapE2.mem x ≠ heapE1.mem x →
      ∃ b ∈ [(⟨4096, 32, false⟩ : Blk), ⟨4136, 80, true⟩],
        b.free = true ∧ b.addr ≤ x ∧ x < b.addr + 8 + b.size) :=
  mymalloc_frame (2 ^ 30) 10 16 heapE1 heapE2 [⟨4096, 32, false⟩, ⟨4136, 80, true⟩] [4136] 4144
    (by decide) (by decide) (by rfl)

end Heap

namespace Heap

/-! ## Claims on sequences of calls -/

/-- C4 (fails on the code). After a successful `myinit` on 24 bytes the call
`mymalloc(16)` takes the only block and empties the free list; the request
`mymalloc(0)` then passes `validate_request`, whose arguments are swapped, and
`find_first` dereferences `payload2header(NULL)`: the call does not return, so
the sequence leaves no heap to walk. -/
theorem block_structure_sequence_faults :
    errOf (Explicit.session (2 ^ 30) 10 4096 24 [.malloc 16, .malloc 0]) = some .segv := by
  decide

/-- C5 (fails on the code). On a heap in which the free list holds exactly the
free blocks (`listWalk` and `freeWalk` agree), `myrealloc(4152, 48)` returns
`NULL` and leaves the block at 4144 with status bit 0 outside the free list:
`coalesce` has merged the right neighbour into it through `merge_blocks`, which
writes status 0, and the relocating `mymalloc` found no block. -/
theorem realloc_breaks_membership :
    (Explicit.session (2 ^ 30) 10 4096 120
        [.malloc 40, .malloc 16, .malloc 16, .malloc 16, .free 4176, .free 4104]).toOption.map
      (fun r => (r.1, (Explicit.listWalk r.2 10 (payload2header r.2.fl_front)).toOption,
        (Explicit.freeWalk r.2 10 r.2.segment_start).toOption))
      = some ([4104, 4152, 4176, 4200, 0, 0], some [4096, 4168], some [4096, 4168]) ∧
    (Explicit.session (2 ^ 30) 10 4096 120
        [.malloc 40, .malloc 16, .malloc 16, .malloc 16, .free 4176, .free 4104,
          .realloc 4152 48]).toOption.map
      (fun r => (r.1, (Explicit.listWalk r.2 10 (payload2header r.2.fl_front)).toOption,
        (Explicit.freeWalk r.2 10 r.2.segment_start).toOption))
      = some ([4104, 4152, 4176, 4200, 0, 0, 0], some [4096], some [4096, 4144]) := by
  decide

/-- C6 fails as stated: after `myinit` on 128 bytes, two allocations of 16 bytes
and the release of the first and then of the second, the blocks at 4096 and at
4120 are address-adjacent and both free. -/
theorem adjacent_free_after_free :
    (Explicit.session (2 ^ 30) 10 4096 128
        [.malloc 16, .malloc 16, .free 4104, .free 4128]).toOption.map
      (fun r => (r.1, (next_header r.2 4096).toOption, (Explicit.bothFree r.2 4096).toOption))
      = some ([4104, 4128, 0, 0], some 4120, some true) := by
  decide

/-- C7. Accounting invariant of the implicit variant.  In every state reached
from `nused = 0` by one successful `myinit` on a region whose size is a multiple
of 8 and any number of calls of `mymalloc`, `myfree` and `myrealloc` with `NULL`
or a currently allocated payload, the region is tiled by a list of blocks `bs`
and `nused` is 8 times the number of blocks plus the payload sizes of the
allocated blocks; and every such call returns. -/
theorem implicit_accounting (MAX : Nat) (s : State) (h : Implicit.Reachable MAX s) :
    (∃ bs, Tiled 8 s bs ∧
      s.nused = ALIGNMENT * bs.length + ((bs.filter (fun b => !b.free)).map Blk.size).sum) ∧
    (∀ op fuel, Implicit.Valid s op → s.segment_size ≤ fuel →
      ∃ r t, Implicit.step MAX fuel s op = .ok (r, t)) := by
  have hi := Implicit.reachable_inv MAX s h
  constructor
  · obtain ⟨bs, t, ha⟩ := hi
    exact ⟨bs, t, by rw [ha, acct_eq_sum]; rfl⟩
  · intro op fuel hv hf
    obtain ⟨r, t, e, -⟩ := Implicit.step_inv MAX fuel s op hi hv hf
    exact ⟨r, t, e⟩

/-- C7, on the implicit heap after `myinit` on 128 bytes and `mymalloc(32)`. -/
theorem implicit_accounting_witness :
    Implicit.Reachable (2 ^ 30) heapI1 ∧
    ((∃ bs, Tiled 8 heapI1 bs ∧
      heapI1.nused = ALIGNMENT * bs.length + ((bs.filter (fun b => !b.free)).map Blk.size).sum) ∧
    (∀ op fuel, Implicit.Valid heapI1 op → heapI1.segment_size ≤ fuel →
      ∃ r t, Implicit.step (2 ^ 30) fuel heapI1 op = .ok (r, t))) :=
  have hr : Implicit.Reachable (2 ^ 30) heapI1 :=
    Implicit.Reachable.step heapI0 heapI1 (.malloc 32) 200 4104
      (Implicit.Reachable.init blank heapI0 4096 128 (by decide) (by decide) (by decide)
        (by decide) (by rfl))
      (by show 32 < WORD; decide) (by decide) (by rfl)
  ⟨hr, implicit_accounting (2 ^ 30) heapI1 hr⟩

/-- C8 (fails on the code). After `myinit` on 64 bytes with `nused = 0`,
`mymalloc(16)`, `myrealloc(p, 24)` and `myrealloc(p, 8)` on the returned payload
`p = 4104` all succeed in place, and `nused` is 72: every in-place `myrealloc`
adds the new payload size to `nused` without taking the old one off. -/
theorem nused_exceeds_segment_size :
    (Explicit.session (2 ^ 30) 10 4096 64
        [.malloc 16, .realloc 4104 24, .realloc 4104 8]).toOption.map
      (fun r => (r.1, r.2.nused, r.2.segment_size)) = some ([4104, 4104, 4104], 72, 64) := by
  decide

/-- C9 (fails on the code). On the heap left by `myinit` on 128 bytes,
`mymalloc(0)` returns the payload 4104, marks the block at 4096 allocated with
16 bytes, installs a free header at 4120 and raises `nused` from 8 to 32: the
call `validate_request(requested_size, needed)` passes its arguments in the
wrong order, so the zero test sees `needed = 16`. -/
theorem mymalloc_zero_allocates :
    (Explicit.session (2 ^ 30) 10 4096 128 []).toOption.map (fun r => r.2.nused) = some 8 ∧
    (Explicit.session (2 ^ 30) 10 4096 128 [.malloc 0]).toOption.map
      (fun r => (r.1, read64 r.2.mem 4096, read64 r.2.mem 4120, r.2.fl_front, r.2.nused))
      = some ([4104], 17, 96, 4128, 32) := by
  decide

/-- C10. Null-pointer semantics, in both variants: `myfree(NULL)` returns the
state it was given, and `myrealloc(NULL, n)` is `mymalloc(n)`, result and state. -/
theorem null_pointer_semantics (MAX fuel n : Nat) (s : State) :
    Explicit.myfree fuel s 0 = .ok s ∧
    Explicit.myrealloc MAX fuel s 0 n = Explicit.mymalloc MAX fuel s n ∧
    Implicit.myfree s 0 = .ok s ∧
    Implicit.myrealloc MAX fuel s 0 n = Implicit.mymalloc MAX fuel s n := by
  refine ⟨?_, ?_, ?_, ?_⟩
  · unfold Explicit.myfree
    rw [if_pos rfl]
    exact id rfl
  · unfold Explicit.myrealloc
    simp only [if_true]
  · unfold Implicit.myfree
    rw [if_pos rfl]
    exact id rfl
  · unfold Implicit.myrealloc
    rw [if_pos rfl]

end Heap

namespace Heap

/-! ## Claims on release -/

/-- C6 (amended). Forward coalescing of the explicit variant.  On a well-formed
heap whose free list holds every free block, `myfree` of an allocated payload
returns; it leaves a well-formed heap whose free list again holds every free
block, the released block is free, and the block after it, if there is one, is
not free: the whole run of free blocks that followed it has been merged into
it.  Nothing is claimed of the block before it, which may be free. -/
theorem myfree_merges_right (fuel : Nat) (s : State) (bs : List Blk) (fl : List Nat) (b : Blk)
    (w : WF s bs fl) (hc : Complete bs fl) (hb : b ∈ bs) (hbf : b.free = false)
    (hf : s.segment_size ≤ fuel) :
    ∃ t bs2 fl2, Explicit.myfree fuel s (b.addr + 8) = .ok t ∧
      WF t bs2 fl2 ∧ Complete bs2 fl2 ∧
      is_free t b.addr = .ok true ∧ Explicit.bothFree t b.addr = .ok false := by
  obtain ⟨l, rest, e⟩ := List.append_of_mem hb
  obtain ⟨run, r, e2, hrunf, hstop⟩ := free_run_split rest
  have e3 : bs = l ++ b :: run ++ r := by rw [e, e2]; simp
  subst e3
  have hparts := w.tiled.parts
  obtain ⟨hpl, hprun, hpr, -⟩ := hparts
  have hbn : b.addr ∉ fl := by
    intro hx
    obtain ⟨d, hd, hda, hdf⟩ := w.sub _ hx
    have := w.tiled.addr_inj hd hb hda
    rw [this, hbf] at hdf
    exact absurd hdf (by simp)
  have hrun : ∀ c ∈ run, c.free = true ∧ c.addr ∈ fl := by
    intro c hcr
    exact ⟨hrunf c hcr, hc c (by simp [hcr]) (hrunf c hcr)⟩
  have hlen : run.length < fuel := by
    have h1 := w.tiled.length_lt
    have h2 : run.length ≤ (l ++ b :: run ++ r).length := by
      simp only [List.length_append, List.length_cons]
      omega
    omega
  obtain ⟨t, et, wt, -, -, -⟩ := Explicit.myfree_spec fuel w hbn hrun hstop hlen
  have hnb : ({ addr := b.addr, size := b.size + span run, free := true } : Blk) ∈
      l ++ { addr := b.addr, size := b.size + span run, free := true } :: r := by simp
  refine ⟨t, _, _, et, wt, ?_, ?_, ?_⟩
  · intro d hd hdf
    rcases List.mem_append.1 hd with h | h
    · refine List.mem_cons_of_mem _ ((w.nodup.mem_diff_iff).2 ⟨hc d (by simp [h]) hdf, ?_⟩)
      intro hx
      obtain ⟨c, hcr, hca⟩ := List.mem_map.1 hx
      have h1 := hpl d h
      have h2 := hprun c hcr
      omega
    · rcases List.mem_cons.1 h with h | h
      · rw [h]
        exact List.mem_cons_self _ _
      · refine List.mem_cons_of_mem _ ((w.nodup.mem_diff_iff).2 ⟨hc d (by simp [h]) hdf, ?_⟩)
        intro hx
        obtain ⟨c, hcr, hca⟩ := List.mem_map.1 hx
        have h1 := hpr d h
        have h2 := hprun c hcr
        omega
  · exact wt.tiled.is_free_eq hnb
  · unfold Explicit.bothFree
    rw [wt.tiled.is_free_eq hnb, wt.tiled.next_header_eq]
    simp only [ok_bind]
    cases r with
    | nil => simp only [nextAddr, if_true, pure_eq_ok]
    | cons c r =>
      have hcm : c ∈ l ++ { addr := b.addr, size := b.size + span run, free := true } :: c :: r := by
        simp
      have hm := wt.tiled.mem_bounds hcm
      have hcf := hstop c rfl
      simp only [nextAddr]
      rw [if_neg (by omega), wt.tiled.is_free_eq hcm, hcf]
      simp only [ok_bind, pure_eq_ok, Bool.and_false]

/-- C6 (amended), on the heap of scenario S1 after two allocations: the release
of the second block merges it with the free block behind it. -/
theorem myfree_merges_right_witness :
    ∃ t bs2 fl2, Explicit.myfree 128 heapE2 (4136 + 8) = .ok t ∧
      WF t bs2 fl2 ∧ Complete bs2 fl2 ∧
      is_free t 4136 = .ok true ∧ Explicit.bothFree t 4136 = .ok false :=
  myfree_merges_right 128 heapE2 [⟨4096, 32, false⟩, ⟨4136, 16, false⟩, ⟨4160, 56, true⟩] [4160]
    ⟨4136, 16, false⟩ (by decide) (by decide) (by decide) rfl (by decide)

end Heap

namespace Heap

/-! ## Claims on reallocation -/

/-- C1. Content preservation of reallocate, in both variants.  On a well-formed
heap (explicit: tiled, with a free list that holds exactly the free blocks;
implicit: tiled), for an allocated block `b` with payload size `b.size` and any
`n`, a call `myrealloc(b.addr + 8, n)` that returns an address `q` other than
`NULL` leaves at `q` the first `min(b.size, n)` bytes that were at the old
payload before the call, on the in-place path and on the relocating path of
the explicit variant alike.  (`MAX_REQUEST_SIZE` is a parameter; the explicit
variant needs it to be at most `2^64 - 8`.) -/
theorem myrealloc_content_preserved (MAX fuel n : Nat) (s t : State) (bs : List Blk) (b : Blk)
    (q : Nat) (hb : b ∈ bs) (hbf : b.free = false) (hn : n < WORD)
    (hf : s.segment_size ≤ fuel) (hq : q ≠ 0) :
    (∀ fl, WF s bs fl → Complete bs fl → MAX + 8 ≤ WORD →
      Explicit.myrealloc MAX fuel s (b.addr + 8) n = .ok (q, t) →
        ∀ i, i < min b.size n → t.mem (q + i) = s.mem (b.addr + 8 + i)) ∧
    (Tiled 8 s bs →
      Implicit.myrealloc MAX fuel s (b.addr + 8) n = .ok (q, t) →
        ∀ i, i < min b.size n → t.mem (q + i) = s.mem (b.addr + 8 + i)) := by
  constructor
  · intro fl w hc hM h i hi
    obtain ⟨l, rest, e⟩ := List.append_of_mem hb
    obtain ⟨run, r, e2, hrunf, hstop⟩ := free_run_split rest
    have e3 : bs = l ++ b :: run ++ r := by rw [e, e2]; simp
    subst e3
    exact Explicit.myrealloc_content MAX fuel n w hc hbf hrunf hstop hM hf q t h hq i
      (by omega) (by omega)
  · intro tl h i hi
    have hlen : bs.length < fuel := by
      have := tl.length_lt
      omega
    obtain ⟨q2, s2, e, hcase⟩ := Implicit.myrealloc_spec MAX fuel n tl hb hbf hn hlen
    rw [e] at h
    simp only [Except.ok.injEq, Prod.mk.injEq] at h
    obtain ⟨hq2, ht⟩ := h
    subst hq2
    subst ht
    rcases hcase with ⟨h0, -⟩ | ⟨bs2, -, -, -, hcont, -⟩
    · exact absurd h0 hq
    · exact hcont i (by omega) (by omega)

/-- C1, on three calls that return: an explicit `myrealloc` that grows its
block in place, an explicit one that moves it, and an implicit one. -/
theorem myrealloc_content_preserved_witness :
    (∀ i, i < min 32 40 → heapE3.mem (4104 + i) = heapE1.mem (4096 + 8 + i)) ∧
    (∀ i, i < min 32 48 → heapE4.mem (4168 + i) = heapE2.mem (4096 + 8 + i)) ∧
    (∀ i, i < min 32 40 → heapI2.mem (4144 + i) = heapI1.mem (4096 + 8 + i)) :=
  ⟨(myrealloc_content_preserved (2 ^ 30) 128 40 heapE1 heapE3
      [⟨4096, 32, false⟩, ⟨4136, 80, true⟩] ⟨4096, 32, false⟩ 4104
      (by decide) rfl (by decide) (by decide) (by decide)).1 [4136]
      (by decide) (by decide) (by decide) (by rfl),
   (myrealloc_content_preserved (2 ^ 30) 128 48 heapE2 heapE4
      [⟨4096, 32, false⟩, ⟨4136, 16, false⟩, ⟨4160, 56, true⟩] ⟨4096, 32, false⟩ 4168
      (by decide) rfl (by decide) (by decide) (by decide)).1 [4160]
      (by decide) (by decide) (by decide) (by rfl),
   (myrealloc_content_preserved (2 ^ 30) 200 40 heapI1 heapI2
      [⟨4096, 32, false⟩, ⟨4136, 80, true⟩] ⟨4096, 32, false⟩ 4144
      (by decide) rfl (by decide) (by decide) (by decide)).2
      (by decide) (by rfl)⟩

end Heap

namespace Heap

theorem int_incr_iter (k : Nat) (hk : k < 2147483648) : Nat.iterate int_incr k 0 = (k : Int) := by
  induction k with
  | zero => rfl
  | succ k ih =>
    rw [Function.iterate_succ_apply', ih (by omega)]
    unfold int_incr
    rw [if_neg (by omega)]
    push_cast
    rfl

/-- The header addresses of a chain of blocks are distinct. -/
theorem Chain_nodup (a e : Nat) (bs : List Blk) (h : Chain a bs e) : (bs.map Blk.addr).Nodup := by
  induction bs generalizing a with
  | nil => simp
  | cons b bs ih =>
    rw [List.map_cons, List.nodup_cons]
    refine ⟨?_, ih _ h.2⟩
    intro hx
    obtain ⟨c, hc, hca⟩ := List.mem_map.1 hx
    have := Chain_mem _ _ _ h.2 c hc
    have := h.1
    omega

/-- On a well-formed heap whose free list holds every free block, the list is
as long as the number of free blocks. -/
theorem WF.count_free {s : State} {bs : List Blk} {fl : List Nat} (w : WF s bs fl)
    (hc : Complete bs fl) : bs.countP (fun b => b.free) = fl.length := by
  rw [List.countP_eq_length_filter]
  have h1 : fl ⊆ (bs.filter (fun b => b.free)).map Blk.addr := by
    intro g hg
    obtain ⟨b, hb, e, hf⟩ := w.sub g hg
    exact List.mem_map.2 ⟨b, List.mem_filter.2 ⟨hb, by simpa using hf⟩, e⟩
  have h2 : (bs.filter (fun b => b.free)).map Blk.addr ⊆ fl := by
    intro g hg
    obtain ⟨b, hb, e⟩ := List.mem_map.1 hg
    obtain ⟨hb1, hb2⟩ := List.mem_filter.1 hb
    rw [← e]
    exact hc b hb1 (by simpa using hb2)
  have hnd : ((bs.filter (fun b => b.free)).map Blk.addr).Nodup :=
    List.Nodup.sublist ((List.filter_sublist bs).map Blk.addr) (Chain_nodup _ _ _ w.tiled.chain)
  have l1 := (List.subperm_of_subset w.nodup h1).length_le
  have l2 := (List.subperm_of_subset hnd h2).length_le
  rw [List.length_map] at l1 l2
  omega

namespace Explicit

/-- Initialisation of a region of at least 24 bytes returns `true`. -/
theorem myinit_ok (s : State) (start size : Nat) (h24 : 24 ≤ size) (hlt : start + size < WORD) :
    ∃ t, myinit s start size = .ok (true, t) := by
  unfold myinit MINIMUM_BLOCK_SIZE
  rw [if_neg (by omega)]
  simp only [ALIGNMENT, setRegion_segment_start, setRegion_segment_size]
  rw [Nat.mod_eq_of_lt hlt, sub_mod_word size 8 (by omega) (by omega),
    set_header_free_ok _ _ _ (by simp) (by simp; omega)]
  simp only [ok_bind, setHdr_segment_start, setRegion_segment_start]
  rw [header2payload_eq _ (by omega),
    set_nodes_ok _ _ _ _ (by simp) (by simp; omega) (by simpa using hlt)]
  simp only [ok_bind, pure_eq_ok]
  exact ⟨_, rfl⟩

/-- The first loop of `validate_heap` on a list of free blocks counts them. -/
theorem validate_list_loop_eq (s : State) (hW : s.segment_end < WORD) (fl : List Nat) :
    ∀ (fuel : Nat) (c : Int), fl.length < fuel → Fwd s.mem fl 0 →
      (∀ g ∈ fl, 0 < s.segment_start ∧ s.segment_start ≤ g ∧ g + 24 ≤ s.segment_end ∧
        is_free s g = .ok true) →
      validate_list_loop s fuel (fl.headD 0) c
        = .ok (some (Nat.iterate int_incr fl.length c)) := by
  induction fl with
  | nil =>
    intro fuel c hf _ _
    cases fuel with
    | zero => simp at hf
    | succ fuel =>
      unfold validate_list_loop
      simp only [List.headD_nil, if_true, pure_eq_ok, List.length_nil, Function.iterate_zero, id]
  | cons g t ih =>
    intro fuel c hf hfwd hin
    cases fuel with
    | zero => simp at hf
    | succ fuel =>
      obtain ⟨hp, hg1, hg2, hgf⟩ := hin g (by simp)
      rw [Fwd_cons] at hfwd
      unfold validate_list_loop
      simp only [List.headD_cons]
      rw [if_neg (by omega), hgf]
      simp only [ok_bind, Bool.not_true, Bool.false_eq_true, if_false]
      unfold next_free
      rw [header2payload_eq _ (by omega), Nat.mod_eq_of_lt (show g + 8 + 8 < WORD by omega),
        show g + 8 + 8 = g + 16 by omega, load_ok _ _ (by omega) (by omega), hfwd.1]
      simp only [ok_bind]
      rw [ih fuel (int_incr c) (by simpa using hf) hfwd.2 (fun x hx => hin x (by simp [hx]))]
      rw [List.length_cons, Function.iterate_succ_apply]

/-- The second loop of `validate_heap` on a tiling counts the free blocks and
adds up the footprints. -/
theorem validate_block_loop_eq {s : State} (bs2 : List Blk) :
    ∀ (l : List Blk) (fuel : Nat) (nf : Int) (lc : Nat), Tiled 16 s (l ++ bs2) →
      bs2.length < fuel → lc < WORD →
      validate_block_loop s fuel (nextAddr bs2) nf lc
        = .ok (some (Nat.iterate int_incr (bs2.countP (fun b => b.free)) nf,
            (lc + span bs2) % WORD)) := by
  induction bs2 with
  | nil =>
    intro l fuel nf lc _ hf hlc
    cases fuel with
    | zero => simp at hf
    | succ fuel =>
      unfold validate_block_loop
      simp only [nextAddr, if_true, pure_eq_ok, List.countP_nil, Function.iterate_zero, id, span,
        Nat.add_zero, Nat.mod_eq_of_lt hlc]
  | cons c r ih =>
    intro l fuel nf lc t hf hlc
    cases fuel with
    | zero => simp at hf
    | succ fuel =>
      have hc : c ∈ l ++ c :: r := by simp
      have hm := t.mem_bounds hc
      have ho := t.ok c hc
      unfold validate_block_loop
      simp only [nextAddr]
      rw [if_neg (by omega), t.get_payload_size_eq hc]
      simp only [ok_bind, ALIGNMENT]
      rw [if_neg (by have := ho.2.1; omega), if_neg (by omega), t.is_free_eq hc, t.next_header_eq]
      simp only [ok_bind]
      have t2 : Tiled 16 s ((l ++ [c]) ++ r) := by simpa using t
      rw [ih (l ++ [c]) fuel _ _ t2 (by simpa using hf) (Nat.mod_lt _ (by unfold WORD; norm_num))]
      have e1 : ((lc + (8 + c.size) % WORD) % WORD + span r) % WORD
          = (lc + span (c :: r)) % WORD := by
        simp only [span]
        unfold WORD
        omega
      rw [e1, List.countP_cons]
      cases hfree : c.free with
      | true =>
        simp only [if_true, Function.iterate_succ_apply]
      | false =>
        simp only [Bool.false_eq_true, if_false, Nat.add_zero]

/-- The checker accepts a well-formed heap whose free list is not empty and
holds every free block. -/
theorem validate_heap_ok {s : State} {bs : List Blk} {fl : List Nat} (fuel : Nat)
    (w : WF s bs fl) (hc : Complete bs fl) (hne : fl ≠ []) (hf : bs.length < fuel)
    (h31 : bs.length < 2147483648) : validate_heap fuel s = .ok true := by
  have hcount := w.count_free hc
  have hfl : fl.length ≤ bs.length := w.linked.length_le
  unfold validate_heap
  have hfront := w.listed.front
  have hsp := w.spaced
  cases fl with
  | nil => exact absurd rfl hne
  | cons g t =>
    have hg := hsp.inreg g (by simp)
    have hpos := w.tiled.start_pos
    have hW := w.tiled.end_lt
    simp only [frontOf] at hfront
    rw [hfront, payload2header_eq _ (by omega) (by omega)]
    simp only [Nat.add_sub_cancel]
    have hl := validate_list_loop_eq s hW (g :: t) fuel 0 (by omega) w.listed.fwd (by
      intro x hx
      obtain ⟨b, hb, e, hbf⟩ := w.sub x hx
      have := hsp.inreg x hx
      refine ⟨hpos, this.1, this.2, ?_⟩
      rw [← e, w.tiled.is_free_eq hb, hbf])
    simp only [List.headD_cons] at hl
    rw [hl]
    simp only [ok_bind]
    cases bs with
    | nil => exact absurd rfl w.tiled.nonempty
    | cons b r =>
      have h1 : b.addr = s.segment_start := w.tiled.chain.1
      have hb := validate_block_loop_eq (s := s) (b :: r) [] fuel 0 0 (by simpa using w.tiled) hf
        (by unfold WORD; norm_num)
      simp only [nextAddr] at hb
      rw [← h1, hb]
      simp only [ok_bind]
      have hspan := Chain_span _ _ _ w.tiled.chain
      have hsz := w.tiled.size_eq
      rw [hcount, int_incr_iter _ (by omega)]
      have e2 : (0 + span (b :: r)) % WORD = s.segment_size := by
        rw [Nat.zero_add, Nat.mod_eq_of_lt (by omega)]
        omega
      rw [e2]
      simp only [gt_iff_lt, lt_irrefl, if_false, pure_eq_ok]

end Explicit

namespace Implicit

/-- Initialisation of a region of at least 16 bytes returns `true`. -/
theorem myinit_returns (s : State) (start size : Nat) (h16 : 16 ≤ size) (hlt : start + size < WORD) :
    ∃ t, myinit s start size = .ok (true, t) := by
  unfold myinit MINIMUM_BLOCK_SIZE
  rw [if_neg (by omega)]
  simp only [ALIGNMENT, setRegion_segment_start, setRegion_segment_size]
  rw [Nat.mod_eq_of_lt hlt, sub_mod_word size 8 (by omega) (by omega),
    set_header_free_ok _ _ _ (by simp) (by simp; omega)]
  simp only [ok_bind, pure_eq_ok]
  exact ⟨_, rfl⟩

end Implicit
end Heap

namespace Heap

theorem singleton_split {α : Type} (a b : α) (l r : List α) (h : [a] = l ++ b :: r) :
    l = [] ∧ r = [] ∧ a = b := by
  cases l with
  | nil =>
    simp only [List.nil_append, List.cons.injEq] at h
    exact ⟨rfl, h.2.symm, h.1⟩
  | cons x l =>
    simp only [List.cons_append, List.cons.injEq] at h
    have := h.2
    simp at this

namespace Explicit

/-- The request check passes when the rounded size fits the capacity test. -/
theorem validate_of_need (MAX : Nat) (s : State) (n : Nat) (hn : n ≤ needOf n)
    (hM : needOf n ≤ MAX) (hcap : needOf n + s.nused ≤ s.segment_size)
    (hlt : s.segment_size < WORD) : validate_request MAX s n (needOf n) = true := by
  have h16 := (needOf_facts n).2.1
  unfold validate_request
  rw [if_neg (by omega), Nat.mod_eq_of_lt (by omega), if_neg (by omega), if_neg (by omega)]

/-- What `mymalloc` does when the first listed block that is large enough is `b`. -/
theorem mymalloc_exact {s : State} {bs : List Blk} {fl : List Nat} {b : Blk} (MAX fuel n : Nat)
    (w : WF s bs fl) (hb : b ∈ bs) (hv : validate_request MAX s n (needOf n) = true)
    (hf : fl.length < fuel) (hfind : fl.find? (fitAt s (needOf n)) = some b.addr) :
    ∃ l r t, bs = l ++ b :: r ∧ mymalloc MAX fuel s n = .ok (b.addr + 8, t) ∧
      WF t (l ++ carveBlks 24 b (needOf n) ++ r) (carveList b (needOf n) (fl.erase b.addr)) ∧
      SameRegion s t ∧ needOf n ≤ b.size ∧ b.free = true ∧
      t.nused = (if b.size - needOf n < 24 then (s.nused + b.size) % WORD
        else ((s.nused + 8) % WORD + needOf n) % WORD) ∧
      (∀ x, (∀ g ∈ fl, ¬ InNode g x) → (x < b.addr ∨ b.addr + 8 + b.size ≤ x) →
        t.mem x = s.mem x) := by
  obtain ⟨l, c, r, l1, r1, t, ebs, efl, hca, hcf, hle, -, e, w2, hreg, hnu, hfr⟩ :=
    mymalloc_take MAX fuel n w hv hf b.addr hfind
  have hc : c ∈ bs := by rw [ebs]; simp
  have hcb : c = b := w.tiled.addr_inj hc hb hca
  subst hcb
  have her : fl.erase c.addr = l1 ++ r1 := by
    rw [efl]
    exact erase_of_split l1 r1 c.addr (by rw [← efl]; exact w.nodup)
  rw [her]
  exact ⟨l, r, t, ebs, e, w2, hreg, hle, hcf, hnu, hfr⟩

/-- Scenario S1 at any base address: `myinit` on 128 bytes with `nused = 0`,
then `mymalloc(32)`. -/
theorem scenario_S1 (s0 : State) (B MAX fuel : Nat) (h0 : s0.nused = 0) (hpos : 0 < B)
    (hlt : B + 128 < WORD) (hM : 32 ≤ MAX) (hf : 2 ≤ fuel) :
    ∃ s1 s2, myinit s0 B 128 = .ok (true, s1) ∧ mymalloc MAX fuel s1 32 = .ok (B + 8, s2) ∧
      WF s1 [{ addr := B, size := 120, free := true }] [B] ∧ s1.nused = 8 ∧
      WF s2 [{ addr := B, size := 32, free := false }, { addr := B + 40, size := 80, free := true }]
        [B + 40] ∧
      s2.nused = 48 ∧ s2.segment_size = 128 ∧ s2.segment_start = B := by
  obtain ⟨s1, e1⟩ := myinit_ok s0 B 128 (by omega) hlt
  obtain ⟨w1, hnu1⟩ := myinit_wf s0 s1 B 128 (by omega) hpos hlt e1
  rw [h0] at hnu1
  have hnu1b : s1.nused = 8 := by rw [hnu1]; unfold WORD; norm_num
  have hsz := w1.tiled.size_eq
  have hch := w1.tiled.chain
  simp only [Chain] at hch
  have hss : s1.segment_start = B := hch.1.symm
  have hse : s1.segment_size = 128 := by omega
  have hneed : needOf 32 = 32 := by
    have := ((needOf_facts 32).2.2.2 (by unfold WORD; norm_num)).1
    rw [this]
    norm_num
  have hb : ({ addr := B, size := 120, free := true } : Blk) ∈
      [({ addr := B, size := 128 - 8, free := true } : Blk)] := by simp
  have hv : validate_request MAX s1 32 (needOf 32) = true :=
    validate_of_need MAX s1 32 (by rw [hneed]) (by rw [hneed]; exact hM)
      (by rw [hneed, hnu1b, hse]; omega) (by rw [hse]; unfold WORD; norm_num)
  have hfind : [B].find? (fitAt s1 (needOf 32))
      = some ({ addr := B, size := 120, free := true } : Blk).addr := by
    have := w1.fit_size hb (needOf 32)
    simp only [hneed] at this ⊢
    simp only [List.find?_cons, this]
    simp
  obtain ⟨l, r, s2, ebs, e2, w2, hreg2, -, -, hnu2, -⟩ :=
    mymalloc_exact MAX fuel 32 w1 hb hv (by simpa using hf) hfind
  obtain ⟨hl, hr, -⟩ := singleton_split _ _ _ _ ebs
  subst hl
  subst hr
  rw [hneed] at w2 hnu2
  have hbs2 : [] ++ carveBlks 24 ({ addr := B, size := 120, free := true } : Blk) 32 ++ []
      = [{ addr := B, size := 32, free := false }, { addr := B + 40, size := 80, free := true }] := by
    simp [carveBlks]
  have hfl2 : carveList ({ addr := B, size := 120, free := true } : Blk) 32 ([B].erase B)
      = [B + 40] := by
    simp [carveList]
  rw [hbs2, hfl2] at w2
  refine ⟨s1, s2, e1, e2, ?_, hnu1b, w2, ?_, by rw [hreg2.2.2, hse], by rw [hreg2.1, hss]⟩
  · simpa using w1
  · rw [hnu2, hnu1b]
    simp only [show ¬ (120 - 32 < 24) by omega, if_false]
    unfold WORD
    norm_num

end Explicit
end Heap

namespace Heap
namespace Explicit

theorem merged_addr (b : Blk) (run : List Blk) : (merged b run).addr = b.addr := by
  cases run <;> rfl

theorem merged_size (b : Blk) (run : List Blk) : (merged b run).size = b.size + span run := by
  cases run with
  | nil => simp [merged, span]
  | cons c run => simp [merged]

/-- The in-place branch of `myrealloc` on a block `mb` that is not on the free
list: it returns, `mb` is carved like a block taken by `mymalloc`, and the
first `needed` bytes of the payload stay as they were. -/
theorem realloc_inplace_wf {t1 : State} {l r : List Blk} {mb : Blk} {fl1 : List Nat}
    (w1 : Linked t1 (l ++ mb :: r) fl1) (hnot : mb.addr ∉ fl1)
    (k needed : Nat) (h8 : needed % 8 = 0) (h16 : 16 ≤ needed)
    (hle : needed ≤ mb.size) (hkb : k ≤ mb.size) :
    ∃ t, realloc_inplace t1 k (mb.addr + 8) needed mb.size mb.addr = .ok t ∧
      Linked t (l ++ carveBlks 24 mb needed ++ r) (carveList mb needed fl1) ∧
      SameRegion t1 t ∧
      t.nused = (if mb.size - needed < 24 then (t1.nused + mb.size) % WORD
        else ((t1.nused + 8) % WORD + needed) % WORD) ∧
      (∀ x, (∀ g ∈ fl1, ¬ InNode g x) → (x < mb.addr ∨ mb.addr + 8 + needed ≤ x) →
        (x < mb.addr + 8 + needed ∨ mb.addr + 8 + needed + 24 ≤ x) → t.mem x = t1.mem x) ∧
      (∀ x, mb.addr + 8 ≤ x → x < mb.addr + 8 + needed → t.mem x = t1.mem x) := by
  have hb : mb ∈ l ++ mb :: r := by simp
  have hm := w1.tiled.mem_bounds hb
  have ho := w1.tiled.ok mb hb
  have hsp := w1.spaced_of_linked
  have hsubm : ∀ g ∈ fl1, ∃ c, (c ∈ l ∨ c ∈ r) ∧ c.addr = g := by
    intro g hg
    obtain ⟨c, hc, e⟩ := w1.sub g hg
    rcases List.mem_append.1 hc with h | h
    · exact ⟨c, Or.inl h, e⟩
    · rcases List.mem_cons.1 h with h | h
      · subst h; rw [e] at hnot; exact absurd hg hnot
      · exact ⟨c, Or.inr h, e⟩
  have hsep1 : ∀ g ∈ fl1, g + 24 ≤ mb.addr ∨ mb.addr + 8 + mb.size ≤ g := by
    intro g hg
    obtain ⟨c, hc, e⟩ := w1.sub g hg
    have hco := (w1.tiled.ok c hc).2.2
    have hne : c ≠ mb := by
      intro hcb; rw [hcb] at e; rw [← e] at hg; exact hnot hg
    rcases Chain_disjoint _ _ _ w1.tiled.chain c mb hc hb with h3 | h3 | h3
    · exact absurd h3 hne
    · left; omega
    · right; omega
  unfold realloc_inplace
  rw [Implicit.memcpy_ok t1 _ _ k ⟨by omega, by omega⟩ ⟨by omega, by omega⟩, copied_self]
  simp only [ok_bind]
  rw [sub_mod_word _ _ hle (by omega)]
  unfold big_enough MINIMUM_BLOCK_SIZE
  by_cases hbig : mb.size - needed < 24
  · simp only [hbig, if_true, pure_eq_ok, ok_bind]
    rw [set_header_alloc_ok _ _ _ ho.2.1 (by omega) (by omega)]
    simp only [ok_bind, setHdr_nused]
    have ht2 := (w1.tiled.set_free false).setNused ((t1.nused + mb.size) % WORD)
    refine ⟨_, rfl, ⟨?_, ?_, ?_, ?_⟩, by simp [SameRegion], by simp, ?_, ?_⟩
    · simpa [carveBlks, hbig] using ht2
    · simp only [carveList, hbig, if_true]
      refine w1.listed.frame (by simp) ?_
      intro g hg x hx
      have := hsep1 g hg
      unfold InNode at hx
      rw [setNused_mem, setHdr_mem_outside _ _ _ _ _ (by omega)]
    · simpa [carveList, hbig] using w1.nodup
    · intro g hg
      simp only [carveList, hbig, if_true] at hg
      obtain ⟨c, hc, e⟩ := hsubm g hg
      refine ⟨c, ?_, e⟩
      rcases hc with h | h
      · simp [h]
      · simp [h]
    · intro x _ hx2 _
      rw [setNused_mem, setHdr_mem_outside _ _ _ _ _ (by omega)]
    · intro x hx1 hx2
      rw [setNused_mem, setHdr_mem_outside _ _ _ _ _ (by omega)]
  · simp only [hbig, if_false, Bool.false_eq_true, pure_eq_ok, ok_bind]
    unfold split_block
    simp only [ALIGNMENT]
    have eh2 : (mb.addr + 8 + needed) % WORD = mb.addr + 8 + needed :=
      Nat.mod_eq_of_lt (by omega)
    have erem : (mb.size - needed + (WORD - 8)) % WORD = mb.size - needed - 8 :=
      sub_mod_word _ 8 (by omega) (by omega)
    rw [eh2, erem]
    rw [set_header_free_ok _ _ _ (by simp only [setNused_segment_start]; omega)
      (by simp only [setNused_segment_end]; omega)]
    simp only [ok_bind]
    rw [header2payload_eq _ (by omega)]
    generalize ht2def : setHdr (t1.setNused ((t1.nused + 8) % WORD)) (mb.addr + 8 + needed)
      (mb.size - needed - 8) true = t2
    have hreg2 : SameRegion t1 t2 := by rw [← ht2def]; simp [SameRegion]
    have hfront2 : t2.fl_front = t1.fl_front := by rw [← ht2def]; simp
    have hnu2 : t2.nused = (t1.nused + 8) % WORD := by rw [← ht2def]; simp
    have hmem2 : ∀ x, (x < mb.addr + 8 + needed ∨ mb.addr + 8 + needed + 8 ≤ x) →
        t2.mem x = t1.mem x := by
      intro x hx
      rw [← ht2def, setHdr_mem_outside _ _ _ _ _ hx, setNused_mem]
    have hrd2 : read64 t2.mem (mb.addr + 8 + needed) = hdrWord (mb.size - needed - 8) true := by
      rw [← ht2def]
      exact setHdr_read_same _ _ _ _ (by omega)
    have hl2 : Listed t2 fl1 := by
      refine w1.listed.frame hfront2 ?_
      intro g hg x hx
      have := hsep1 g hg
      unfold InNode at hx
      exact hmem2 x (by omega)
    have hsp2 : Spaced t2 ((mb.addr + 8 + needed) :: fl1) := by
      refine ⟨?_, ?_⟩
      · intro g hg
        rw [hreg2.1, hreg2.2.1]
        rcases List.mem_cons.1 hg with h | h
        · rw [h]; omega
        · exact hsp.inreg g h
      · rw [List.pairwise_cons]
        refine ⟨?_, hsp.sep⟩
        intro g hg
        have := hsep1 g hg
        omega
    obtain ⟨t3, e3, hl3, hreg3, hnu3, hfr3⟩ := add_spec t2 fl1 (mb.addr + 8 + needed)
      (by rw [hreg2.1]; exact w1.tiled.start_pos) (by rw [hreg2.2.1]; exact w1.tiled.end_lt)
      hl2 hsp2
    rw [e3]
    simp only [ok_bind]
    rw [set_header_alloc_ok _ _ _ h8 (by rw [hreg3.1, hreg2.1]; omega)
      (by rw [hreg3.2.1, hreg2.2.1]; omega)]
    simp only [ok_bind, setHdr_nused, hnu3, hnu2]
    have hmem3 : ∀ x, (∀ g ∈ fl1, ¬ InNode g x) →
        (x < mb.addr + 8 + needed ∨ mb.addr + 8 + needed + 24 ≤ x) → t3.mem x = t1.mem x := by
      intro x hx1 hx2
      rw [hfr3 x (by
        intro g hg
        rcases List.mem_cons.1 hg with h | h
        · rw [h]; unfold InNode; omega
        · exact hx1 g h)]
      exact hmem2 x (by omega)
    have ht3 : Tiled 16 t3 (l ++ mb :: r) := by
      refine w1.tiled.frame_hdr (hreg2.trans hreg3) ?_
      intro d hd x hx1 hx2
      apply hmem3
      · intro g hg
        obtain ⟨c, hc, e⟩ := w1.sub g hg
        rw [← e]
        exact w1.tiled.hdr_not_node hd hc x hx1 hx2
      · rcases Chain_disjoint _ _ _ w1.tiled.chain d mb hd hb with h3 | h3 | h3
        · rw [h3] at hx1 hx2; omega
        · omega
        · omega
    have hrd3 : read64 t3.mem (mb.addr + 8 + needed) = hdrWord (mb.size - needed - 8) true := by
      rw [← hrd2]
      apply read64_congr
      intro i hi
      rw [hfr3 _ (by
        intro g hg
        rcases List.mem_cons.1 hg with h | h
        · rw [h]; unfold InNode; omega
        · have := hsep1 g h
          unfold InNode; omega)]
    obtain ⟨hcl, hcr⟩ := (Chain_split _ _ _ _ _).1 w1.tiled.chain
    have ht3b : Tiled 16 t3 (l ++ [mb] ++ r) := by simpa using ht3
    have htf := ht3b.replace_seg (t := (setHdr t3 mb.addr needed false).setNused
        (((t1.nused + 8) % WORD + needed) % WORD))
      (k := carveBlks 24 mb needed) (a := mb.addr) (e := mb.addr + 8 + mb.size)
      (by rw [hreg3.1, hreg2.1]; exact hcl) (by rw [hreg3.2.1, hreg2.2.1]; exact hcr)
      (by simp [SameRegion])
      (by
        intro x hx
        rw [setNused_mem, setHdr_mem_outside _ _ _ _ _ (by omega)])
      (by
        simp only [carveBlks, hbig, if_false, Chain, true_and]
        omega)
      (by simp [carveBlks, hbig])
      (by
        intro c hc
        simp only [carveBlks, hbig, if_false, List.mem_cons, List.mem_singleton,
          List.not_mem_nil, or_false] at hc
        rcases hc with rfl | rfl
        · refine ⟨?_, h8, h16⟩
          rw [setNused_mem]
          exact setHdr_read_same _ _ _ _ (by omega)
        · have h82 := ho.2.1
          refine ⟨?_, by simp; omega, by simp; omega⟩
          rw [setNused_mem, setHdr_read_ne _ _ _ _ _ (by simp)]
          exact hrd3)
    refine ⟨_, rfl, ⟨htf, ?_, ?_, ?_⟩, (hreg2.trans hreg3).trans (by simp [SameRegion]),
      by simp, ?_, ?_⟩
    · simp only [carveList, hbig, if_false]
      refine hl3.frame (by simp) ?_
      intro g hg x hx
      have hgx : g + 24 ≤ mb.addr ∨ mb.addr + 8 ≤ g := by
        rcases List.mem_cons.1 hg with h | h
        · rw [h]; omega
        · have := hsep1 g h; omega
      unfold InNode at hx
      rw [setNused_mem, setHdr_mem_outside _ _ _ _ _ (by omega)]
    · simp only [carveList, hbig, if_false]
      refine List.nodup_cons.2 ⟨?_, w1.nodup⟩
      intro hx
      have := hsep1 _ hx
      omega
    · intro g hg
      rcases carveList_sub _ _ _ _ hg with h | ⟨-, h⟩
      · obtain ⟨c, hc, e⟩ := hsubm g h
        refine ⟨c, ?_, e⟩
        rcases hc with h | h
        · simp [h]
        · simp [h]
      · refine ⟨{ addr := mb.addr + 8 + needed, size := mb.size - needed - 8, free := true }, ?_,
          h.symm⟩
        simp [carveBlks, hbig]
    · intro x hx1 hx2 hx3
      rw [setNused_mem, setHdr_mem_outside _ _ _ _ _ (by omega)]
      exact hmem3 x hx1 hx3
    · intro x hx1 hx2
      rw [setNused_mem, setHdr_mem_outside _ _ _ _ _ (by omega), hfr3 x (by
        intro g hg
        rcases List.mem_cons.1 hg with h | h
        · rw [h]; unfold InNode; omega
        · have := hsep1 g h
          unfold InNode; omega)]
      exact hmem2 x (by omega)

end Explicit
end Heap

namespace Heap

/-- The value of `nused` after `k` times `nused -= 8`, modulo `2^64`. -/
theorem decN_mod (v k : Nat) : (decN v k + 8 * k) % WORD = v % WORD := by
  induction k generalizing v with
  | zero => rw [decN_zero]; rfl
  | succ k ih =>
    rw [decN_succ]
    have := ih ((v + (WORD - 8)) % WORD)
    unfold WORD at *
    omega

namespace Explicit

/-- A payload returned by `mymalloc` belongs to a block that was on the free list. -/
theorem mymalloc_result_listed {s : State} {bs : List Blk} {fl : List Nat} (MAX fuel n : Nat)
    (w : WF s bs fl) (hf : fl.length < fuel) (q : Nat) (t : State)
    (e : mymalloc MAX fuel s n = .ok (q, t)) : q = 0 ∨ ∃ g ∈ fl, q = g + 8 := by
  by_cases hv : validate_request MAX s n (needOf n) = true
  · by_cases hfl : fl = []
    · subst hfl
      cases fuel with
      | zero => simp at hf
      | succ fuel =>
        rw [mymalloc_empty MAX fuel n w hv] at e
        exact absurd e (by simp)
    · cases hfind : fl.find? (fitAt s (needOf n)) with
      | none =>
        rw [mymalloc_none MAX fuel n w hv hfl hf hfind] at e
        simp only [Except.ok.injEq, Prod.mk.injEq] at e
        exact Or.inl e.1.symm
      | some g =>
        obtain ⟨l, b, r, l1, r1, t2, -, efl, -, -, -, -, e2, -⟩ :=
          mymalloc_take MAX fuel n w hv hf g hfind
        rw [e2] at e
        simp only [Except.ok.injEq, Prod.mk.injEq] at e
        exact Or.inr ⟨g, by rw [efl]; simp, e.1.symm⟩
  · have hv2 : validate_request MAX s n (needOf n) = false := by simpa using hv
    rw [mymalloc_reject MAX fuel s n hv2] at e
    simp only [Except.ok.injEq, Prod.mk.injEq] at e
    exact Or.inl e.1.symm

/-- The state after `coalesce` in `myrealloc`: the free list holds exactly the
free blocks other than the merged one. -/
theorem coalesce_for_realloc {s : State} {l run r : List Blk} {b : Blk} {fl : List Nat}
    (fuel : Nat) (w : WF s (l ++ b :: run ++ r) fl)
    (hcomp : Complete (l ++ b :: run ++ r) fl) (hbf : b.free = false)
    (hrunf : ∀ c ∈ run, c.free = true) (hstop : ∀ c, r.head? = some c → c.free = false)
    (hf : s.segment_size ≤ fuel) :
    ∃ t1, coalesce fuel s b.addr = .ok t1 ∧
      WF t1 (l ++ merged b run :: r) (fl.diff (run.map Blk.addr)) ∧ SameRegion s t1 ∧
      (merged b run).addr ∉ fl.diff (run.map Blk.addr) ∧
      (∀ d, d ∈ l ∨ d ∈ r → d.free = true → d.addr ∈ fl.diff (run.map Blk.addr)) ∧
      (∀ x, (∀ g ∈ fl, ¬ InNode g x) → (x < b.addr ∨ b.addr + 8 ≤ x) → t1.mem x = s.mem x) := by
  have hb : b ∈ l ++ b :: run ++ r := by simp
  obtain ⟨hpl, hprun, hpr, hpe⟩ := w.tiled.parts
  have hbn : b.addr ∉ fl := by
    intro hx
    obtain ⟨d, hd, hda, hdf⟩ := w.sub _ hx
    have := w.tiled.addr_inj hd hb hda
    rw [this, hbf] at hdf
    exact absurd hdf (by simp)
  have hrun : ∀ c ∈ run, c.free = true ∧ c.addr ∈ fl := by
    intro c hcr
    exact ⟨hrunf c hcr, hcomp c (by simp [hcr]) (hrunf c hcr)⟩
  have hlen : run.length < fuel := by
    have h1 := w.tiled.length_lt
    have h2 : run.length ≤ (l ++ b :: run ++ r).length := by
      simp only [List.length_append, List.length_cons]
      omega
    omega
  obtain ⟨t1, e1, w1, hreg1, -, hfr1⟩ := coalesce_spec fuel w.linked hrun hstop hlen
  refine ⟨t1, e1, ⟨w1.tiled, w1.listed, w1.nodup, ?_⟩, hreg1, ?_, ?_, hfr1⟩
  · intro g hg
    obtain ⟨hgfl, hgn⟩ := (w.nodup.mem_diff_iff).1 hg
    obtain ⟨d, hd, hda, hdf⟩ := w.sub g hgfl
    rw [List.append_assoc, List.cons_append] at hd
    rcases List.mem_append.1 hd with h | h
    · exact ⟨d, by simp [h], hda, hdf⟩
    · rcases List.mem_cons.1 h with h | h
      · exfalso
        apply hbn
        rw [← h, hda]
        exact hgfl
      · rcases List.mem_append.1 h with h | h
        · exfalso
          apply hgn
          rw [← hda]
          exact List.mem_map_of_mem _ h
        · exact ⟨d, by simp [h], hda, hdf⟩
  · rw [merged_addr]
    intro hx
    exact hbn ((w.nodup.mem_diff_iff).1 hx).1
  · intro d hd hdf
    have hdm : d ∈ l ++ b :: run ++ r := by
      rcases hd with h | h
      · simp [h]
      · simp [h]
    refine (w.nodup.mem_diff_iff).2 ⟨hcomp d hdm hdf, ?_⟩
    intro hx
    obtain ⟨c, hcr, hca⟩ := List.mem_map.1 hx
    have h2 := hprun c hcr
    rcases hd with h | h
    · have h1 := hpl d h
      omega
    · have h1 := hpr d h
      omega

/-- The in-place path of `myrealloc`: when the block and the free run after it
hold the rounded request, the call returns the old payload and carves the
merged block. -/
theorem myrealloc_inplace {s : State} {l run r : List Blk} {b : Blk} {fl : List Nat}
    (MAX fuel n : Nat) (w : WF s (l ++ b :: run ++ r) fl)
    (hcomp : Complete (l ++ b :: run ++ r) fl) (hbf : b.free = false)
    (hrunf : ∀ c ∈ run, c.free = true) (hstop : ∀ c, r.head? = some c → c.free = false)
    (hv : validate_request MAX s n (needOf n) = true) (hf : s.segment_size ≤ fuel)
    (hin : needOf n ≤ b.size + span run) :
    ∃ t, myrealloc MAX fuel s (b.addr + 8) n = .ok (b.addr + 8, t) ∧
      WF t (l ++ carveBlks 24 (merged b run) (needOf n) ++ r)
        (carveList (merged b run) (needOf n) (fl.diff (run.map Blk.addr))) ∧
      Complete (l ++ carveBlks 24 (merged b run) (needOf n) ++ r)
        (carveList (merged b run) (needOf n) (fl.diff (run.map Blk.addr))) ∧
      SameRegion s t := by
  have hb : b ∈ l ++ b :: run ++ r := by simp
  have hm := w.tiled.mem_bounds hb
  obtain ⟨t1, e1, w1, hreg1, hnot1, hcomp1, -⟩ :=
    coalesce_for_realloc fuel w hcomp hbf hrunf hstop hf
  obtain ⟨h8, h16, -, -⟩ := needOf_facts n
  have hmb : merged b run ∈ l ++ merged b run :: r := by simp
  have hmba := merged_addr b run
  have hmbs := merged_size b run
  have hg := w1.tiled.get_payload_size_eq hmb
  rw [hmba] at hg
  rw [myrealloc_unfold, if_neg (by omega), hv]
  simp only [Bool.not_true, Bool.false_eq_true, if_false]
  rw [payload2header_eq _ (by omega) (by omega)]
  simp only [Nat.add_sub_cancel]
  rw [w.tiled.get_payload_size_eq hb]
  simp only [ok_bind]
  rw [e1]
  simp only [ok_bind]
  rw [hg]
  simp only [ok_bind]
  generalize needOf n = needed at *
  have hin2 : needed ≤ (merged b run).size := by rw [hmbs]; exact hin
  rw [if_pos hin2]
  obtain ⟨t2, e2, w2, hreg2, -, -, -⟩ := realloc_inplace_wf w1.linked hnot1
    (if b.size < n then b.size else n) needed h8 h16 hin2 (by rw [hmbs]; split <;> omega)
  rw [hmba] at e2
  rw [e2]
  simp only [ok_bind, pure_eq_ok]
  refine ⟨t2, rfl, ⟨w2.tiled, w2.listed, w2.nodup, ?_⟩, ?_, hreg1.trans hreg2⟩
  · intro g hg
    rcases carveList_sub _ _ _ _ hg with h | ⟨hbig, h⟩
    · obtain ⟨d, hd, hda, hdf⟩ := w1.sub g h
      have hne : d ≠ merged b run := by
        intro hx; rw [hx] at hda; rw [← hda] at h; exact hnot1 h
      refine ⟨d, ?_, hda, hdf⟩
      rcases List.mem_append.1 hd with h | h
      · simp [h]
      · rcases List.mem_cons.1 h with h | h
        · exact absurd h hne
        · simp [h]
    · refine ⟨⟨(merged b run).addr + 8 + needed, (merged b run).size - needed - 8, true⟩, ?_,
        h.symm, rfl⟩
      simp [carveBlks, hbig]
  · intro d hd hdf
    have hold : (d ∈ l ∨ d ∈ r) → d.addr ∈ carveList (merged b run) needed
        (fl.diff (run.map Blk.addr)) := by
      intro hdd
      have h5 := hcomp1 d hdd hdf
      unfold carveList
      split
      · exact h5
      · exact List.mem_cons_of_mem _ h5
    rcases List.mem_append.1 hd with h | h
    · rcases List.mem_append.1 h with h | h
      · exact hold (Or.inl h)
      · unfold carveBlks at h
        unfold carveList
        split at h
        · simp only [List.mem_singleton] at h
          rw [h] at hdf
          exact absurd hdf (by simp)
        · rename_i hbig
          rw [if_neg hbig]
          simp only [List.mem_cons, List.mem_singleton, List.not_mem_nil, or_false] at h
          rcases h with h | h
          · rw [h] at hdf
            exact absurd hdf (by simp)
          · rw [h]
            exact List.mem_cons_self _ _
    · exact hold (Or.inr h)

/-- The relocating path of `myrealloc`: when the block and the free run after
it do not hold the rounded request, a call that returns does not return the old
payload. -/
theorem myrealloc_moves {s : State} {l run r : List Blk} {b : Blk} {fl : List Nat}
    (MAX fuel n : Nat) (w : WF s (l ++ b :: run ++ r) fl)
    (hcomp : Complete (l ++ b :: run ++ r) fl) (hbf : b.free = false)
    (hrunf : ∀ c ∈ run, c.free = true) (hstop : ∀ c, r.head? = some c → c.free = false)
    (hf : s.segment_size ≤ fuel) (hout : b.size + span run < needOf n)
    (q : Nat) (t : State) (h : myrealloc MAX fuel s (b.addr + 8) n = .ok (q, t)) :
    q ≠ b.addr + 8 := by
  have hb : b ∈ l ++ b :: run ++ r := by simp
  have hm := w.tiled.mem_bounds hb
  rw [myrealloc_unfold, if_neg (by omega)] at h
  by_cases hv : validate_request MAX s n (needOf n) = true
  swap
  · have hv2 : validate_request MAX s n (needOf n) = false := by simpa using hv
    rw [hv2] at h
    simp only [Bool.not_false, if_true, pure_eq_ok, Except.ok.injEq, Prod.mk.injEq] at h
    omega
  rw [hv] at h
  simp only [Bool.not_true, Bool.false_eq_true, if_false] at h
  obtain ⟨t1, e1, w1, hreg1, hnot1, -, -⟩ :=
    coalesce_for_realloc fuel w hcomp hbf hrunf hstop hf
  have hmb : merged b run ∈ l ++ merged b run :: r := by simp
  have hmba := merged_addr b run
  have hmbs := merged_size b run
  have hg := w1.tiled.get_payload_size_eq hmb
  rw [hmba] at hg hnot1
  rw [payload2header_eq _ (by omega) (by omega)] at h
  simp only [Nat.add_sub_cancel] at h
  rw [w.tiled.get_payload_size_eq hb] at h
  simp only [ok_bind] at h
  rw [e1] at h
  simp only [ok_bind] at h
  rw [hg] at h
  simp only [ok_bind] at h
  rw [if_neg (by rw [hmbs]; omega)] at h
  have hfl : (fl.diff (run.map Blk.addr)).length < fuel := by
    have h1 := w1.linked.length_le
    have h2 := w1.tiled.length_lt
    rw [hreg1.2.2] at h2
    omega
  cases e2 : mymalloc MAX fuel t1 n with
  | error err =>
    rw [e2] at h
    exact absurd h (by simp [error_bind])
  | ok res =>
    obtain ⟨q2, t2⟩ := res
    rw [e2] at h
    simp only [ok_bind] at h
    by_cases hq2 : q2 = 0
    · rw [if_pos hq2] at h
      simp only [pure_eq_ok, Except.ok.injEq, Prod.mk.injEq] at h
      omega
    · rw [if_neg hq2] at h
      have hq : q = q2 := by
        cases e3 : memcpy t2 q2 (b.addr + 8) n with
        | error err =>
          rw [e3] at h
          exact absurd h (by simp [error_bind])
        | ok t3 =>
          rw [e3] at h
          simp only [ok_bind] at h
          cases e4 : myfree fuel t3 (b.addr + 8) with
          | error err =>
            rw [e4] at h
            exact absurd h (by simp [error_bind])
          | ok t4 =>
            rw [e4] at h
            simp only [ok_bind, pure_eq_ok, Except.ok.injEq, Prod.mk.injEq] at h
            exact h.1.symm
      rcases mymalloc_result_listed MAX fuel n w1 hfl q2 t2 e2 with h0 | ⟨g, hg2, hq2g⟩
      · exact absurd h0 hq2
      · intro hx
        apply hnot1
        have : g = b.addr := by omega
        rw [← this]
        exact hg2

end Explicit
end Heap

namespace Heap

/-! ## Claims on initialisation -/

/-- C11. Init rejection, in both variants.  `myinit(start, size)` returns `false`
when `size < Bmin` (24 in the explicit, 16 in the implicit variant) and then
leaves every global and every byte as it was; for `size ≥ Bmin` on a region
that is an address range (`start + size < 2^64`) it returns `true`. -/
theorem myinit_rejection (s : State) (start size : Nat) :
    (size < 24 → Explicit.myinit s start size = .ok (false, s)) ∧
    (24 ≤ size → start + size < WORD → ∃ t, Explicit.myinit s start size = .ok (true, t)) ∧
    (size < 16 → Implicit.myinit s start size = .ok (false, s)) ∧
    (16 ≤ size → start + size < WORD → ∃ t, Implicit.myinit s start size = .ok (true, t)) := by
  refine ⟨?_, ?_, ?_, ?_⟩
  · intro h
    unfold Explicit.myinit Explicit.MINIMUM_BLOCK_SIZE
    rw [if_pos h]
    exact id rfl
  · intro h hlt
    exact Explicit.myinit_ok s start size h hlt
  · intro h
    unfold Implicit.myinit Implicit.MINIMUM_BLOCK_SIZE
    rw [if_pos h]
    exact id rfl
  · intro h hlt
    exact Implicit.myinit_returns s start size h hlt

/-- C11, at the sizes on either side of `Bmin` of each variant. -/
theorem myinit_rejection_witness :
    Explicit.myinit heapE1 4096 23 = .ok (false, heapE1) ∧
    (∃ t, Explicit.myinit heapE1 4096 24 = .ok (true, t)) ∧
    Implicit.myinit heapI1 4096 15 = .ok (false, heapI1) ∧
    (∃ t, Implicit.myinit heapI1 4096 16 = .ok (true, t)) :=
  ⟨(myinit_rejection heapE1 4096 23).1 (by decide),
   (myinit_rejection heapE1 4096 24).2.1 (by decide) (by decide),
   (myinit_rejection heapI1 4096 15).2.2.1 (by decide),
   (myinit_rejection heapI1 4096 16).2.2.2 (by decide) (by decide)⟩

/-- C12 fails as stated: `myinit` on 28 bytes returns `true`, the header it
writes holds the payload size 20, and `validate_heap` then returns `false`
because 20 is not a multiple of 8. -/
theorem myinit_unaligned_size_rejected_by_checker :
    (Explicit.myinit blank 4096 28).toOption.map
      (fun r => (r.1, read64 r.2.mem 4096, (Explicit.validate_heap 10 r.2).toOption))
      = some (true, 20, some false) := by
  decide

/-- C12 (amended). Init resets (explicit variant).  For a region that is an
address range (`start` not `NULL`, `start + size < 2^64`) whose size is a
multiple of 8 and at least 24, `myinit` returns `true`, and immediately
afterwards `validate_heap` returns `true`, the region consists of exactly one
block with its header at `start`, free, of payload size `size - 8`, and that
block is the sole node of the free list: `fl_front` is its payload and its
`prev` and `next` are `NULL`. -/
theorem myinit_single_free_block (s0 : State) (start size fuel : Nat) (h8 : size % 8 = 0)
    (h24 : 24 ≤ size) (hpos : 0 < start) (hlt : start + size < WORD) (hf : 2 ≤ fuel) :
    ∃ t, Explicit.myinit s0 start size = .ok (true, t) ∧
      Explicit.validate_heap fuel t = .ok true ∧
      WF t [{ addr := start, size := size - 8, free := true }] [start] ∧
      t.segment_start = start ∧ t.segment_end = start + size ∧
      get_payload_size t start = .ok (size - 8) ∧ is_free t start = .ok true ∧
      next_header t start = .ok 0 ∧
      t.fl_front = start + 8 ∧
      Explicit.prev_free t start = .ok 0 ∧ Explicit.next_free t start = .ok 0 := by
  obtain ⟨t, e⟩ := Explicit.myinit_ok s0 start size h24 hlt
  obtain ⟨w, -⟩ := Explicit.myinit_wf s0 t start size h8 hpos hlt e
  have hcomp : Complete [{ addr := start, size := size - 8, free := true }] [start] := by
    intro b hb _
    simp only [List.mem_singleton] at hb
    rw [hb]
    simp
  have hb : ({ addr := start, size := size - 8, free := true } : Blk) ∈
      [({ addr := start, size := size - 8, free := true } : Blk)] := by simp
  have hm := w.tiled.mem_bounds hb
  have hch := w.tiled.chain
  simp only [Chain] at hch
  have hfwd := w.listed.fwd
  have hbwd := w.listed.bwd
  rw [Fwd_cons] at hfwd
  rw [Bwd_cons] at hbwd
  simp only [List.headD_nil] at hfwd
  refine ⟨t, e, ?_, w, hch.1.symm, by omega, w.tiled.get_payload_size_eq hb, w.tiled.is_free_eq hb,
    ?_, w.listed.front, ?_, ?_⟩
  · exact Explicit.validate_heap_ok fuel w hcomp (by simp) (by simpa using hf) (by simp)
  · exact w.tiled.next_header_eq (l := []) (r := [])
  · unfold Explicit.prev_free
    rw [header2payload_eq _ (by omega), load_ok _ _ (by omega) (by omega), hbwd.1]
  · unfold Explicit.next_free
    rw [header2payload_eq _ (by omega), Nat.mod_eq_of_lt (show start + 8 + 8 < WORD by omega),
      show start + 8 + 8 = start + 16 by omega, load_ok _ _ (by omega) (by omega), hfwd.1]

/-- C12 (amended), on 128 bytes at address 4096. -/
theorem myinit_single_free_block_witness :
    ∃ t, Explicit.myinit blank 4096 128 = .ok (true, t) ∧
      Explicit.validate_heap 10 t = .ok true ∧
      WF t [{ addr := 4096, size := 128 - 8, free := true }] [4096] ∧
      t.segment_start = 4096 ∧ t.segment_end = 4096 + 128 ∧
      get_payload_size t 4096 = .ok (128 - 8) ∧ is_free t 4096 = .ok true ∧
      next_header t 4096 = .ok 0 ∧
      t.fl_front = 4096 + 8 ∧
      Explicit.prev_free t 4096 = .ok 0 ∧ Explicit.next_free t 4096 = .ok 0 :=
  myinit_single_free_block blank 4096 128 10 (by decide) (by decide) (by decide) (by decide)
    (by decide)

/-- C13 (fails on the code). `myinit` adds 8 to `nused` instead of setting it:
called again on the heap left by `myinit` and `mymalloc(32)`, where `nused` is
48, it returns `true` and leaves `nused = 56`, in both variants. -/
theorem myinit_accumulates_nused :
    heapE1.nused = 48 ∧
    (Explicit.myinit heapE1 4096 128).toOption.map (fun r => (r.1, r.2.nused)) = some (true, 56) ∧
    heapI1.nused = 48 ∧
    (Implicit.myinit heapI1 4096 128).toOption.map (fun r => (r.1, r.2.nused)) = some (true, 56) := by
  decide

end Heap

namespace Heap

/-! ## Claims on allocation in the explicit variant -/

/-- C15 fails as stated: in scenario S2 at base 4096 the call `mymalloc(72)`
does not fail.  It returns 4144 and the header at 4136 then holds 81, which is
(80, allocated). -/
theorem scenario_S2_returns_block :
    (Explicit.session (2 ^ 30) 10 4096 128 [.malloc 32, .malloc 72]).toOption.map
      (fun r => (r.1, read64 r.2.mem 4136)) = some ([4104, 4144], 81) := by
  decide

/-- C15 (amended). Scenario S2 at any base `B`: after `myinit` on 128 bytes
(with `nused = 0` before) and `mymalloc(32) = B + 8`, which leaves `nused = 48`,
the call `mymalloc(72)` returns `B + 48`: the capacity test sees
`72 + 48 = 120 ≤ 128`, the remainder `80 - 72 = 8` is below 24, so the whole
block is taken; the header at `B + 40` encodes (80, allocated) and `nused` is
128. -/
theorem scenario_S2_absorbs (s0 : State) (B MAX fuel : Nat) (h0 : s0.nused = 0) (hpos : 0 < B)
    (hlt : B + 128 < WORD) (hM : 72 ≤ MAX) (hf : 2 ≤ fuel) :
    ∃ s1 s2 t, Explicit.myinit s0 B 128 = .ok (true, s1) ∧
      Explicit.mymalloc MAX fuel s1 32 = .ok (B + 8, s2) ∧ s2.nused = 48 ∧
      Explicit.mymalloc MAX fuel s2 72 = .ok (B + 48, t) ∧
      get_payload_size t (B + 40) = .ok 80 ∧ is_free t (B + 40) = .ok false ∧
      t.nused = 128 := by
  obtain ⟨s1, s2, e1, e2, -, -, w2, hnu2, hse2, -⟩ :=
    Explicit.scenario_S1 s0 B MAX fuel h0 hpos hlt (by omega) hf
  have hneed : Explicit.needOf 72 = 72 := by
    have := ((Explicit.needOf_facts 72).2.2.2 (by unfold WORD; norm_num)).1
    rw [this]
    norm_num
  have hb : ({ addr := B + 40, size := 80, free := true } : Blk) ∈
      [({ addr := B, size := 32, free := false } : Blk),
        { addr := B + 40, size := 80, free := true }] := by simp
  have hv : validate_request MAX s2 72 (Explicit.needOf 72) = true :=
    Explicit.validate_of_need MAX s2 72 (by rw [hneed]) (by rw [hneed]; exact hM)
      (by rw [hneed, hnu2, hse2]; omega) (by rw [hse2]; unfold WORD; norm_num)
  have hfind : [B + 40].find? (Explicit.fitAt s2 (Explicit.needOf 72))
      = some ({ addr := B + 40, size := 80, free := true } : Blk).addr := by
    have := w2.fit_size hb (Explicit.needOf 72)
    simp only [hneed] at this ⊢
    simp only [List.find?_cons, this]
    simp
  obtain ⟨l, r, t, -, e3, w3, -, -, -, hnu3, -⟩ :=
    Explicit.mymalloc_exact MAX fuel 72 w2 hb hv (by simpa using hf) hfind
  rw [hneed] at w3 hnu3
  have hmem : ({ addr := B + 40, size := 80, free := false } : Blk) ∈
      l ++ carveBlks 24 ({ addr := B + 40, size := 80, free := true } : Blk) 72 ++ r := by
    simp [carveBlks]
  have e48 : B + 40 + 8 = B + 48 := by omega
  simp only [e48] at e3
  refine ⟨s1, s2, t, e1, e2, hnu2, e3, w3.tiled.get_payload_size_eq hmem,
    w3.tiled.is_free_eq hmem, ?_⟩
  rw [hnu3, hnu2]
  simp only [show 80 - 72 < 24 by omega, if_true]
  unfold WORD
  norm_num

/-- C15 (amended), at base 4096 on a blank state. -/
theorem scenario_S2_absorbs_witness :
    ∃ s1 s2 t, Explicit.myinit blank 4096 128 = .ok (true, s1) ∧
      Explicit.mymalloc (2 ^ 30) 10 s1 32 = .ok (4096 + 8, s2) ∧ s2.nused = 48 ∧
      Explicit.mymalloc (2 ^ 30) 10 s2 72 = .ok (4096 + 48, t) ∧
      get_payload_size t (4096 + 40) = .ok 80 ∧ is_free t (4096 + 40) = .ok false ∧
      t.nused = 128 :=
  scenario_S2_absorbs blank 4096 (2 ^ 30) 10 (by decide) (by decide) (by decide) (by decide)
    (by decide)

/-- C18. Split policy of the explicit `mymalloc`.  On a well-formed heap, for
`n ≥ 1` with `need = max(16, round_up(n, 8)) ≤ MAX_REQUEST_SIZE` and
`need + nused ≤ segment_size`, when the first block in free-list order whose
payload size is at least `need` is `b`, `mymalloc(n)` returns `b.addr + 8` and
marks `b` allocated.  When `b.size - need ≥ 24` the header of `b` encodes `need`,
a free header of size `b.size - need - 8` is installed at `b.addr + 8 + need`,
that block is the front of the free list and `nused` grows by `need + 8`;
otherwise the header of `b` keeps its size, no block is created and `nused`
grows by `b.size`.  In both cases `b` leaves the free list and the other
members keep their order. -/
theorem mymalloc_split_policy (MAX fuel n : Nat) (s : State) (bs : List Blk) (fl : List Nat)
    (b : Blk) (w : WF s bs fl) (hb : b ∈ bs) (hf : fl.length < fuel) (hn : 1 ≤ n)
    (hM : max 16 ((n + 7) / 8 * 8) ≤ MAX)
    (hcap : max 16 ((n + 7) / 8 * 8) + s.nused ≤ s.segment_size)
    (hfind : fl.find? (Explicit.fitAt s (max 16 ((n + 7) / 8 * 8))) = some b.addr) :
    ∃ l r t, bs = l ++ b :: r ∧ Explicit.mymalloc MAX fuel s n = .ok (b.addr + 8, t) ∧
      is_free t b.addr = .ok false ∧
      (24 ≤ b.size - max 16 ((n + 7) / 8 * 8) →
        get_payload_size t b.addr = .ok (max 16 ((n + 7) / 8 * 8)) ∧
        get_payload_size t (b.addr + 8 + max 16 ((n + 7) / 8 * 8))
          = .ok (b.size - max 16 ((n + 7) / 8 * 8) - 8) ∧
        is_free t (b.addr + 8 + max 16 ((n + 7) / 8 * 8)) = .ok true ∧
        WF t (l ++ [{ addr := b.addr, size := max 16 ((n + 7) / 8 * 8), free := false },
            { addr := b.addr + 8 + max 16 ((n + 7) / 8 * 8),
              size := b.size - max 16 ((n + 7) / 8 * 8) - 8, free := true }] ++ r)
          ((b.addr + 8 + max 16 ((n + 7) / 8 * 8)) :: fl.erase b.addr) ∧
        t.nused = (s.nused + (max 16 ((n + 7) / 8 * 8) + 8)) % WORD) ∧
      (b.size - max 16 ((n + 7) / 8 * 8) < 24 →
        get_payload_size t b.addr = .ok b.size ∧
        WF t (l ++ [{ b with free := false }] ++ r) (fl.erase b.addr) ∧
        t.nused = (s.nused + b.size) % WORD) := by
  have hbfl : b.addr ∈ fl := List.mem_of_find?_eq_some hfind
  have hfit := List.find?_some hfind
  rw [w.fit_size hb] at hfit
  simp only [decide_eq_true_eq] at hfit
  have hm := w.tiled.mem_bounds hb
  have hn7 : n + 7 < WORD := by omega
  obtain ⟨-, -, -, hnf⟩ := Explicit.needOf_facts n
  obtain ⟨hneed, hnle⟩ := hnf hn7
  rw [← hneed] at hM hcap hfind hfit ⊢
  have hsz := w.tiled.size_eq
  have hv : validate_request MAX s n (Explicit.needOf n) = true :=
    Explicit.validate_of_need MAX s n hnle hM hcap (by omega)
  obtain ⟨l, r, t, ebs, e, w2, -, -, -, hnu, -⟩ :=
    Explicit.mymalloc_exact MAX fuel n w hb hv hf hfind
  generalize Explicit.needOf n = need at *
  refine ⟨l, r, t, ebs, e, ?_, ?_, ?_⟩
  · have hmem : ∃ c, c ∈ l ++ carveBlks 24 b need ++ r ∧ c.addr = b.addr ∧ c.free = false := by
      unfold carveBlks
      split
      · exact ⟨{ b with free := false }, by simp, rfl, rfl⟩
      · exact ⟨{ addr := b.addr, size := need, free := false }, by simp, rfl, rfl⟩
    obtain ⟨c, hc, hca, hcf⟩ := hmem
    rw [← hca, w2.tiled.is_free_eq hc, hcf]
  · intro hbig
    have hnb : ¬ b.size - need < 24 := by omega
    simp only [carveBlks, Explicit.carveList, hnb, if_false] at w2 hnu
    refine ⟨?_, ?_, ?_, w2, ?_⟩
    · exact w2.tiled.get_payload_size_eq
        (b := { addr := b.addr, size := need, free := false }) (by simp)
    · exact w2.tiled.get_payload_size_eq
        (b := { addr := b.addr + 8 + need, size := b.size - need - 8, free := true }) (by simp)
    · exact w2.tiled.is_free_eq
        (b := { addr := b.addr + 8 + need, size := b.size - need - 8, free := true }) (by simp)
    · rw [hnu]
      unfold WORD
      omega
  · intro hsmall
    simp only [carveBlks, Explicit.carveList, hsmall, if_true] at w2 hnu
    refine ⟨?_, w2, hnu⟩
    exact w2.tiled.get_payload_size_eq (b := { b with free := false }) (by simp)

/-- C18, scenario S1: on the heap left by `myinit` on 128 bytes at 4096,
`mymalloc(32)` returns 4104 and splits the block of 120 bytes. -/
theorem mymalloc_split_policy_witness :
    ∃ l r t, [({ addr := 4096, size := 120, free := true } : Blk)]
        = l ++ { addr := 4096, size := 120, free := true } :: r ∧
      Explicit.mymalloc (2 ^ 30) 10 heapE0 32 = .ok (4096 + 8, t) ∧
      is_free t 4096 = .ok false ∧
      (24 ≤ 120 - max 16 ((32 + 7) / 8 * 8) →
        get_payload_size t 4096 = .ok (max 16 ((32 + 7) / 8 * 8)) ∧
        get_payload_size t (4096 + 8 + max 16 ((32 + 7) / 8 * 8))
          = .ok (120 - max 16 ((32 + 7) / 8 * 8) - 8) ∧
        is_free t (4096 + 8 + max 16 ((32 + 7) / 8 * 8)) = .ok true ∧
        WF t (l ++ [{ addr := 4096, size := max 16 ((32 + 7) / 8 * 8), free := false },
            { addr := 4096 + 8 + max 16 ((32 + 7) / 8 * 8),
              size := 120 - max 16 ((32 + 7) / 8 * 8) - 8, free := true }] ++ r)
          ((4096 + 8 + max 16 ((32 + 7) / 8 * 8)) :: [4096].erase 4096) ∧
        t.nused = (heapE0.nused + (max 16 ((32 + 7) / 8 * 8) + 8)) % WORD) ∧
      (120 - max 16 ((32 + 7) / 8 * 8) < 24 →
        get_payload_size t 4096 = .ok 120 ∧
        WF t (l ++ [{ addr := 4096, size := 120, free := false }] ++ r) ([4096].erase 4096) ∧
        t.nused = (heapE0.nused + 120) % WORD) :=
  mymalloc_split_policy (2 ^ 30) 10 32 heapE0 [⟨4096, 120, true⟩] [4096] ⟨4096, 120, true⟩
    (by decide) (by decide) (by decide) (by decide) (by decide) (by decide) (by decide)

end Heap

namespace Heap

/-! ## Claims on reallocation in place -/

/-- C14. In-place reallocation keeps the address (explicit variant).  On a
well-formed heap, for an allocated block `b` followed by the maximal run `run`
of free blocks and a request `n` that passes the request check of `myrealloc`,
let `after = b.size + span run` (the payload of `b` plus header and payload of
every block of the run) and `need = max(16, round_up(n, 8))`.  If
`need ≤ after`, `myrealloc(p, n)` returns `p`, and the header of `b` ends
allocated with payload size `need`, or `after` when `after - need < 24`.  If
`need > after`, whatever the call returns is not `p`.  (`MAX_REQUEST_SIZE` is
a parameter, at most `2^64 - 8`.) -/
theorem myrealloc_in_place_address (MAX fuel n : Nat) (s : State) (l run r : List Blk) (b : Blk)
    (fl : List Nat) (w : WF s (l ++ b :: run ++ r) fl)
    (hcomp : Complete (l ++ b :: run ++ r) fl) (hbf : b.free = false)
    (hrunf : ∀ c ∈ run, c.free = true) (hstop : ∀ c, r.head? = some c → c.free = false)
    (hv : validate_request MAX s n (Explicit.needOf n) = true) (hM : MAX + 8 ≤ WORD)
    (hf : s.segment_size ≤ fuel) :
    (max 16 ((n + 7) / 8 * 8) ≤ b.size + span run →
      ∃ t, Explicit.myrealloc MAX fuel s (b.addr + 8) n = .ok (b.addr + 8, t) ∧
        is_free t b.addr = .ok false ∧
        get_payload_size t b.addr
          = .ok (if b.size + span run - max 16 ((n + 7) / 8 * 8) < 24 then b.size + span run
              else max 16 ((n + 7) / 8 * 8))) ∧
    (b.size + span run < max 16 ((n + 7) / 8 * 8) →
      ∀ q t, Explicit.myrealloc MAX fuel s (b.addr + 8) n = .ok (q, t) → q ≠ b.addr + 8) := by
  have hvf := Explicit.validate_explicit MAX s n hv
  obtain ⟨-, -, -, hnf⟩ := Explicit.needOf_facts n
  obtain ⟨hneed, -⟩ := hnf (by omega)
  rw [← hneed]
  constructor
  · intro hin
    obtain ⟨t, e, wt, -, -⟩ :=
      Explicit.myrealloc_inplace MAX fuel n w hcomp hbf hrunf hstop hv hf hin
    have hmba := Explicit.merged_addr b run
    have hmbs := Explicit.merged_size b run
    generalize Explicit.needOf n = need at *
    have hmem : ∃ c, c ∈ l ++ carveBlks 24 (merged b run) need ++ r ∧ c.addr = b.addr ∧
        c.free = false ∧
        c.size = (if b.size + span run - need < 24 then b.size + span run else need) := by
      by_cases hsm : b.size + span run - need < 24
      · have hsm2 : (merged b run).size - need < 24 := by rw [hmbs]; exact hsm
        refine ⟨{ merged b run with free := false }, by simp [carveBlks, hsm2], hmba, rfl, ?_⟩
        rw [if_pos hsm]
        exact hmbs
      · have hsm2 : ¬ (merged b run).size - need < 24 := by rw [hmbs]; exact hsm
        refine ⟨{ addr := (merged b run).addr, size := need, free := false },
          by simp [carveBlks, hsm2], hmba, rfl, ?_⟩
        rw [if_neg hsm]
    obtain ⟨c, hc, hca, hcf, hcs⟩ := hmem
    refine ⟨t, e, ?_, ?_⟩
    · rw [← hca, wt.tiled.is_free_eq hc, hcf]
    · rw [← hca, wt.tiled.get_payload_size_eq hc, hcs]
  · intro hout q t h
    exact Explicit.myrealloc_moves MAX fuel n w hcomp hbf hrunf hstop hf hout q t h

/-- C14, on two heaps: `myrealloc(4104, 40)` after scenario S1 stays in place,
and `myrealloc(4104, 48)` with an allocated right neighbour moves to 4168. -/
theorem myrealloc_in_place_address_witness :
    (∃ t, Explicit.myrealloc (2 ^ 30) 128 heapE1 (4096 + 8) 40 = .ok (4096 + 8, t) ∧
        is_free t 4096 = .ok false ∧
        get_payload_size t 4096
          = .ok (if 32 + span [⟨4136, 80, true⟩] - max 16 ((40 + 7) / 8 * 8) < 24
              then 32 + span [⟨4136, 80, true⟩] else max 16 ((40 + 7) / 8 * 8))) ∧
    (∀ q t, Explicit.myrealloc (2 ^ 30) 128 heapE2 (4096 + 8) 48 = .ok (q, t) → q ≠ 4096 + 8) ∧
    Explicit.myrealloc (2 ^ 30) 128 heapE2 (4096 + 8) 48 = .ok (4168, heapE4) :=
  ⟨(myrealloc_in_place_address (2 ^ 30) 128 40 heapE1 [] [⟨4136, 80, true⟩] [] ⟨4096, 32, false⟩
      [4136] (by decide) (by decide) rfl (by decide) (fun c h => by cases h) (by decide)
      (by decide) (by decide)).1 (by decide),
   (myrealloc_in_place_address (2 ^ 30) 128 48 heapE2 [] []
      [⟨4136, 16, false⟩, ⟨4160, 56, true⟩] ⟨4096, 32, false⟩
      [4160] (by decide) (by decide) rfl (by decide) (fun c h => by cases h; rfl) (by decide)
      (by decide) (by decide)).2 (by decide),
   by rfl⟩

/-- C16 fails as stated: in scenario S4 at base 4096 `myrealloc(4104, 40)`
returns 4104 and the header at 4096 holds 41, which is (40, allocated), but the
header at 4144 holds 72, which is (72, free), not (32, free). -/
theorem scenario_S4_remainder :
    (Explicit.session (2 ^ 30) 10 4096 128 [.malloc 32, .realloc 4104 40]).toOption.map
      (fun r => (r.1, read64 r.2.mem 4096, read64 r.2.mem 4144)) = some ([4104, 4104], 41, 72) := by
  decide

/-- C16 (amended). Scenario S4 at any base `B`: after `myinit` on 128 bytes
(with `nused = 0` before) and `mymalloc(32) = B + 8`, the call
`myrealloc(B + 8, 40)` merges the free neighbour of 80 bytes into the block,
which then has `32 + 8 + 80 = 120` bytes, returns `B + 8`, and splits: the
header at `B` encodes (40, allocated) and the header at `B + 48` encodes
(72, free), `72 = 120 - 40 - 8`. -/
theorem scenario_S4_in_place (s0 : State) (B MAX fuel : Nat) (h0 : s0.nused = 0) (hpos : 0 < B)
    (hlt : B + 128 < WORD) (hM : 40 ≤ MAX) (hf : 128 ≤ fuel) :
    ∃ s1 s2 t, Explicit.myinit s0 B 128 = .ok (true, s1) ∧
      Explicit.mymalloc MAX fuel s1 32 = .ok (B + 8, s2) ∧
      Explicit.myrealloc MAX fuel s2 (B + 8) 40 = .ok (B + 8, t) ∧
      get_payload_size t B = .ok 40 ∧ is_free t B = .ok false ∧
      get_payload_size t (B + 48) = .ok 72 ∧ is_free t (B + 48) = .ok true := by
  obtain ⟨s1, s2, e1, e2, -, -, w2, hnu2, hse2, -⟩ :=
    Explicit.scenario_S1 s0 B MAX fuel h0 hpos hlt (by omega) (by omega)
  have hneed : Explicit.needOf 40 = 40 := by
    have := ((Explicit.needOf_facts 40).2.2.2 (by unfold WORD; norm_num)).1
    rw [this]
    norm_num
  have hv : validate_request MAX s2 40 (Explicit.needOf 40) = true :=
    Explicit.validate_of_need MAX s2 40 (by rw [hneed]) (by rw [hneed]; exact hM)
      (by rw [hneed, hnu2, hse2]; omega) (by rw [hse2]; unfold WORD; norm_num)
  have hcomp : Complete ([] ++ ({ addr := B, size := 32, free := false } : Blk)
      :: [{ addr := B + 40, size := 80, free := true }] ++ []) [B + 40] := by
    intro c hc hcf
    simp only [List.nil_append, List.cons_append, List.append_nil, List.mem_cons,
      List.mem_singleton, List.not_mem_nil, or_false] at hc
    rcases hc with h | h
    · rw [h] at hcf
      exact absurd hcf (by simp)
    · rw [h]
      simp
  obtain ⟨t, e3, w3, -, -⟩ := @Explicit.myrealloc_inplace s2 []
    [{ addr := B + 40, size := 80, free := true }] [] { addr := B, size := 32, free := false }
    [B + 40] MAX fuel 40 (by simpa using w2) hcomp rfl
    (by
      intro c hc
      simp only [List.mem_singleton] at hc
      rw [hc])
    (fun c h => by cases h) hv (by rw [hse2]; exact hf) (by rw [hneed]; simp [span])
  rw [hneed] at w3
  have hm1 : ({ addr := B, size := 40, free := false } : Blk) ∈
      [] ++ carveBlks 24 (merged { addr := B, size := 32, free := false }
        [{ addr := B + 40, size := 80, free := true }]) 40 ++ [] := by
    simp [carveBlks, merged, span]
  have hm2 : ({ addr := B + 48, size := 72, free := true } : Blk) ∈
      [] ++ carveBlks 24 (merged { addr := B, size := 32, free := false }
        [{ addr := B + 40, size := 80, free := true }]) 40 ++ [] := by
    simp [carveBlks, merged, span]
  exact ⟨s1, s2, t, e1, e2, e3, w3.tiled.get_payload_size_eq hm1, w3.tiled.is_free_eq hm1,
    w3.tiled.get_payload_size_eq hm2, w3.tiled.is_free_eq hm2⟩

/-- C16 (amended), at base 4096 on a blank state. -/
theorem scenario_S4_in_place_witness :
    ∃ s1 s2 t, Explicit.myinit blank 4096 128 = .ok (true, s1) ∧
      Explicit.mymalloc (2 ^ 30) 128 s1 32 = .ok (4096 + 8, s2) ∧
      Explicit.myrealloc (2 ^ 30) 128 s2 (4096 + 8) 40 = .ok (4096 + 8, t) ∧
      get_payload_size t 4096 = .ok 40 ∧ is_free t 4096 = .ok false ∧
      get_payload_size t (4096 + 48) = .ok 72 ∧ is_free t (4096 + 48) = .ok true :=
  scenario_S4_in_place blank 4096 (2 ^ 30) 128 (by decide) (by decide) (by decide) (by decide)
    (by decide)

end Heap

namespace Heap

/-! ## Claims on the checker, on release and on the search -/

/-- C17 (fails on the code). After `myinit` on 24 bytes and `mymalloc(16)` the
only block is allocated (its header holds 17) and the free list is empty
(`fl_front = NULL`): a consistent heap.  `validate_heap` starts its list walk
at `payload2header(NULL) = NULL - 8`, which is not `NULL`, and reads the header
there: the call faults instead of returning `true`. -/
theorem validate_heap_faults_on_empty_list :
    (Explicit.session (2 ^ 30) 10 4096 24 [.malloc 16]).toOption.map
      (fun r => (r.1, r.2.fl_front, read64 r.2.mem 4096, errOf (Explicit.validate_heap 10 r.2)))
      = some ([4104], 0, 17, some .segv) := by
  decide

/-- C19. Free with forward coalescing (explicit variant).  On a well-formed
heap, for an allocated block `b` followed by the maximal run `run` of free
blocks, `myfree(b.addr + 8)` returns; the header of `b` then encodes
`b.size + span run` (its payload plus header and payload of every block of the
run) and free, `b` is the front of the free list, the blocks of the run have
left the list, every other member is still there in the same order, the headers
of the blocks at lower addresses and the payloads of the allocated ones are
unchanged, and `nused` has gone down by `b.size + 8 * run.length` (in `size_t`
arithmetic). -/
theorem myfree_forward_coalescing (fuel : Nat) (s : State) (l run r : List Blk) (b : Blk)
    (fl : List Nat) (w : WF s (l ++ b :: run ++ r) fl)
    (hcomp : Complete (l ++ b :: run ++ r) fl) (hbf : b.free = false)
    (hrunf : ∀ c ∈ run, c.free = true) (hstop : ∀ c, r.head? = some c → c.free = false)
    (hf : s.segment_size ≤ fuel) :
    ∃ t, Explicit.myfree fuel s (b.addr + 8) = .ok t ∧
      get_payload_size t b.addr = .ok (b.size + span run) ∧ is_free t b.addr = .ok true ∧
      WF t (l ++ { addr := b.addr, size := b.size + span run, free := true } :: r)
        (b.addr :: fl.diff (run.map Blk.addr)) ∧
      t.fl_front = b.addr + 8 ∧
      (∀ c ∈ run, c.addr ∉ fl.diff (run.map Blk.addr)) ∧
      (∀ g ∈ fl, g ∉ run.map Blk.addr → g ∈ fl.diff (run.map Blk.addr)) ∧
      (fl.diff (run.map Blk.addr)).Sublist fl ∧
      (∀ d ∈ l, read64 t.mem d.addr = read64 s.mem d.addr ∧
        (d.free = false → ∀ i, i < d.size → t.mem (d.addr + 8 + i) = s.mem (d.addr + 8 + i))) ∧
      (t.nused + (b.size + 8 * run.length)) % WORD = s.nused % WORD := by
  have hb : b ∈ l ++ b :: run ++ r := by simp
  have hm := w.tiled.mem_bounds hb
  obtain ⟨hpl, hprun, hpr, -⟩ := w.tiled.parts
  have hbn : b.addr ∉ fl := by
    intro hx
    obtain ⟨d, hd, hda, hdf⟩ := w.sub _ hx
    have := w.tiled.addr_inj hd hb hda
    rw [this, hbf] at hdf
    exact absurd hdf (by simp)
  have hrun : ∀ c ∈ run, c.free = true ∧ c.addr ∈ fl := by
    intro c hcr
    exact ⟨hrunf c hcr, hcomp c (by simp [hcr]) (hrunf c hcr)⟩
  have hlen : run.length < fuel := by
    have h1 := w.tiled.length_lt
    have h2 : run.length ≤ (l ++ b :: run ++ r).length := by
      simp only [List.length_append, List.length_cons]
      omega
    omega
  obtain ⟨t, et, wt, -, hnu, hfr⟩ := Explicit.myfree_spec fuel w hbn hrun hstop hlen
  have hnb : ({ addr := b.addr, size := b.size + span run, free := true } : Blk) ∈
      l ++ { addr := b.addr, size := b.size + span run, free := true } :: r := by simp
  refine ⟨t, et, wt.tiled.get_payload_size_eq hnb, wt.tiled.is_free_eq hnb, wt, wt.listed.front,
    ?_, ?_, List.diff_sublist _ _, ?_, ?_⟩
  · intro c hc hx
    exact ((w.nodup.mem_diff_iff).1 hx).2 (List.mem_map_of_mem _ hc)
  · intro g hg hgn
    exact (w.nodup.mem_diff_iff).2 ⟨hg, hgn⟩
  · intro d hd
    have hdm : d ∈ l ++ b :: run ++ r := by simp [hd]
    have hdl := hpl d hd
    constructor
    · apply read64_congr
      intro i hi
      apply hfr
      · intro g hg
        obtain ⟨c, hc, hca, -⟩ := w.sub g hg
        rw [← hca]
        exact w.tiled.hdr_not_node hdm hc _ (by omega) (by omega)
      · omega
    · intro hdf i hi
      apply hfr
      · intro g hg
        obtain ⟨c, hc, hca, hcf⟩ := w.sub g hg
        have hco := (w.tiled.ok c hc).2.2
        have hne : c ≠ d := by
          intro hx
          rw [hx, hdf] at hcf
          exact absurd hcf (by simp)
        unfold InNode
        rcases Chain_disjoint _ _ _ w.tiled.chain c d hc hdm with h3 | h3 | h3
        · exact absurd h3 hne
        · omega
        · omega
      · omega
  · have h1 := decN_mod s.nused run.length
    have h2 := (w.tiled.ok b hb).2.1
    rw [hnu]
    generalize decN s.nused run.length = v at *
    unfold WORD at *
    omega

/-- C19, scenario S3: on the heap left by `myinit` on 128 bytes and
`mymalloc(32)`, `myfree(4104)` leaves one free block of 120 bytes at 4096. -/
theorem myfree_forward_coalescing_witness :
    ∃ t, Explicit.myfree 128 heapE1 (4096 + 8) = .ok t ∧
      get_payload_size t 4096 = .ok (32 + span [⟨4136, 80, true⟩]) ∧ is_free t 4096 = .ok true ∧
      WF t ([] ++ { addr := 4096, size := 32 + span [⟨4136, 80, true⟩], free := true } :: [])
        (4096 :: [4136].diff ([(⟨4136, 80, true⟩ : Blk)].map Blk.addr)) ∧
      t.fl_front = 4096 + 8 ∧
      (∀ c ∈ [(⟨4136, 80, true⟩ : Blk)],
        c.addr ∉ [4136].diff ([(⟨4136, 80, true⟩ : Blk)].map Blk.addr)) ∧
      (∀ g ∈ [4136], g ∉ [(⟨4136, 80, true⟩ : Blk)].map Blk.addr →
        g ∈ [4136].diff ([(⟨4136, 80, true⟩ : Blk)].map Blk.addr)) ∧
      ([4136].diff ([(⟨4136, 80, true⟩ : Blk)].map Blk.addr)).Sublist [4136] ∧
      (∀ d ∈ ([] : List Blk), read64 t.mem d.addr = read64 heapE1.mem d.addr ∧
        (d.free = false → ∀ i, i < d.size →
          t.mem (d.addr + 8 + i) = heapE1.mem (d.addr + 8 + i))) ∧
      (t.nused + (32 + 8 * [(⟨4136, 80, true⟩ : Blk)].length)) % WORD = heapE1.nused % WORD :=
  myfree_forward_coalescing 128 heapE1 [] [⟨4136, 80, true⟩] [] ⟨4096, 32, false⟩ [4136]
    (by decide) (by decide) rfl (by decide) (fun c h => by cases h) (by decide)

/-- C20 (fails on the code). After `myinit` on 24 bytes and `mymalloc(16)` the
free list is empty (`fl_front = NULL`).  `find_first(16)` starts at
`payload2header(NULL) = NULL - 8`, which is not `NULL`, and reads the header
there: the call faults instead of returning `NULL`. -/
theorem find_first_faults_on_empty_list :
    (Explicit.session (2 ^ 30) 10 4096 24 [.malloc 16]).toOption.map
      (fun r => (r.1, r.2.fl_front, payload2header r.2.fl_front,
        errOf (Explicit.find_first 10 r.2 16)))
      = some ([4104], 0, 2 ^ 64 - 8, some .segv) := by
  decide

end Heap

namespace Heap

/-- The accounted bytes of a run of blocks are at most the bytes it occupies. -/
theorem acct_le_span (bs : List Blk) : acct bs ≤ span bs := by
  induction bs with
  | nil => simp [acct, span]
  | cons b bs ih =>
    simp only [acct, span]
    split <;> omega

/-- The payload of a free block is not accounted: it fits beside `acct`. -/
theorem acct_add_free_le (bs : List Blk) (c : Blk) (hc : c ∈ bs) (hf : c.free = true) :
    acct bs + c.size ≤ span bs := by
  induction bs with
  | nil => simp at hc
  | cons b bs ih =>
    simp only [acct, span]
    rcases List.mem_cons.1 hc with h | h
    · subst h
      have := acct_le_span bs
      simp only [hf, if_true]
      omega
    · have := ih h
      split <;> omega

/-- The header word written by `set_header` for an even size and a status bit. -/
theorem lor_status_decode (size status : Nat) (hsz : size < WORD) (hlow : size % 2 = 0)
    (hst : status < 2) :
    (size ||| status) % WORD &&& ZERO_LAST = size ∧
      ((size ||| status) % WORD &&& 1 == 0) = decide (status = 0) := by
  have hlt : size + status < WORD := by unfold WORD at *; omega
  rw [lor_status size status hlow hst, Nat.mod_eq_of_lt hlt, land_ZERO_LAST _ hlt,
    Nat.and_one_is_mod]
  constructor
  · omega
  · have h2 : (size + status) % 2 = status := by omega
    rw [h2]
    by_cases h0 : status = 0
    · simp [h0]
    · have : status = 1 := by omega
      simp [this]

end Heap

namespace Heap

/-! ## Claims on the list primitives, the header codec and implicit allocation -/

/-- C21. Detach is list removal (explicit variant).  When the free list in
memory is the doubly linked list of the headers `l ++ p :: r` (`fl_front` is the
payload of the first, `prev` of the first and `next` of the last are `NULL`,
`prev` and `next` agree), the nodes lying in the region without overlap,
`detach_free_block` on the payload of `p` returns and leaves the doubly linked
list of `l ++ r`, which is the old list with `p` erased and the others in their
order; `fl_front` is `NULL` when `p` was the only member; and `prev` and `next`
of `p` are `NULL`.  `l` and `r` are arbitrary, so `p` may be the only member,
the front, an interior member or the tail. -/
theorem detach_is_list_removal (s : State) (l r : List Nat) (p : Nat)
    (hpos : 0 < s.segment_start) (hW : s.segment_end < WORD)
    (hl : Listed s (l ++ p :: r)) (hsp : Spaced s (l ++ p :: r)) :
    ∃ t, Explicit.detach_free_block s (p + 8) = .ok t ∧ Listed t (l ++ r) ∧
      (l ++ p :: r).erase p = l ++ r ∧
      (l = [] → r = [] → t.fl_front = 0) ∧
      Explicit.prev_free t p = .ok 0 ∧ Explicit.next_free t p = .ok 0 := by
  obtain ⟨t, e, hlt, hreg, -, -, hp, hn⟩ := Explicit.detach_spec s l r p hpos hW hl hsp
  have hin := hsp.inreg p (by simp)
  refine ⟨t, e, hlt, erase_of_split l r p hsp.nodup, ?_, ?_, ?_⟩
  · intro h1 h2
    have := hlt.front
    rw [h1, h2] at this
    exact this
  · unfold Explicit.prev_free
    rw [header2payload_eq _ (by omega),
      load_ok _ _ (by rw [hreg.1]; omega) (by rw [hreg.2.1]; omega), hp]
  · unfold Explicit.next_free
    rw [header2payload_eq _ (by omega), Nat.mod_eq_of_lt (show p + 8 + 8 < WORD by omega),
      show p + 8 + 8 = p + 16 by omega,
      load_ok _ _ (by rw [hreg.1]; omega) (by rw [hreg.2.1]; omega), hn]

/-- C21, on the four positions: the only member (heap after `myinit`), and the
front, the interior member and the tail of the list 4144, 4096, 4192. -/
theorem detach_is_list_removal_witness :
    (∃ t, Explicit.detach_free_block heapE0 (4096 + 8) = .ok t ∧ Listed t ([] ++ []) ∧
      ([] ++ 4096 :: []).erase 4096 = [] ++ [] ∧
      (([] : List Nat) = [] → ([] : List Nat) = [] → t.fl_front = 0) ∧
      Explicit.prev_free t 4096 = .ok 0 ∧ Explicit.next_free t 4096 = .ok 0) ∧
    (∃ t, Explicit.detach_free_block heapE5 (4144 + 8) = .ok t ∧
      Listed t ([] ++ [4096, 4192]) ∧
      ([] ++ 4144 :: [4096, 4192]).erase 4144 = [] ++ [4096, 4192] ∧
      (([] : List Nat) = [] → [4096, 4192] = [] → t.fl_front = 0) ∧
      Explicit.prev_free t 4144 = .ok 0 ∧ Explicit.next_free t 4144 = .ok 0) ∧
    (∃ t, Explicit.detach_free_block heapE5 (4096 + 8) = .ok t ∧
      Listed t ([4144] ++ [4192]) ∧
      ([4144] ++ 4096 :: [4192]).erase 4096 = [4144] ++ [4192] ∧
      ([4144] = [] → [4192] = [] → t.fl_front = 0) ∧
      Explicit.prev_free t 4096 = .ok 0 ∧ Explicit.next_free t 4096 = .ok 0) ∧
    (∃ t, Explicit.detach_free_block heapE5 (4192 + 8) = .ok t ∧
      Listed t ([4144, 4096] ++ []) ∧
      ([4144, 4096] ++ 4192 :: []).erase 4192 = [4144, 4096] ++ [] ∧
      ([4144, 4096] = [] → ([] : List Nat) = [] → t.fl_front = 0) ∧
      Explicit.prev_free t 4192 = .ok 0 ∧ Explicit.next_free t 4192 = .ok 0) :=
  ⟨detach_is_list_removal heapE0 [] [] 4096 (by decide) (by decide) (by decide)
      ⟨by decide, by decide⟩,
   detach_is_list_removal heapE5 [] [4096, 4192] 4144 (by decide) (by decide) (by decide)
      ⟨by decide, by decide⟩,
   detach_is_list_removal heapE5 [4144] [4192] 4096 (by decide) (by decide) (by decide)
      ⟨by decide, by decide⟩,
   detach_is_list_removal heapE5 [4144, 4096] [] 4192 (by decide) (by decide) (by decide)
      ⟨by decide, by decide⟩⟩

/-- C22. Header codec round trip, in both variants (the three functions have
the same text in both files).  For a header location `h` inside the region, a
64-bit payload size with low bit 0 and a status 0 or 1, `set_header` returns,
and afterwards `get_payload_size(h)` is the size and `is_free(h)` is true
exactly when the status is 0. -/
theorem header_codec_round_trip (s : State) (h size status : Nat) (hreg : inRegion s h 8)
    (hsz : size < WORD) (hlow : size % 2 = 0) (hst : status = 0 ∨ status = 1) :
    ∃ t, set_header s h size status = .ok t ∧ get_payload_size t h = .ok size ∧
      is_free t h = .ok (decide (status = 0)) := by
  obtain ⟨h1, h2⟩ := hreg
  obtain ⟨e1, e2⟩ := lor_status_decode size status hsz hlow (by omega)
  unfold set_header
  rw [store_ok s h _ h1 h2]
  refine ⟨_, rfl, ?_, ?_⟩
  · unfold get_payload_size
    rw [load_ok _ _ (by simpa using h1) (by simpa using h2)]
    simp only [ok_bind, pure_eq_ok, setMem_mem]
    rw [read64_write64_same, e1]
  · unfold is_free
    rw [load_ok _ _ (by simpa using h1) (by simpa using h2)]
    simp only [ok_bind, pure_eq_ok, setMem_mem]
    rw [read64_write64_same, e2]

/-- C22, on the first header of the heap left by `myinit` on 128 bytes, for an
allocated header of 120 bytes and a free one of 2 bytes. -/
theorem header_codec_round_trip_witness :
    (∃ t, set_header heapE0 4096 120 1 = .ok t ∧ get_payload_size t 4096 = .ok 120 ∧
      is_free t 4096 = .ok (decide (1 = 0))) ∧
    (∃ t, set_header heapI0 4096 2 0 = .ok t ∧ get_payload_size t 4096 = .ok 2 ∧
      is_free t 4096 = .ok (decide (0 = 0))) :=
  ⟨header_codec_round_trip heapE0 4096 120 1 (by decide) (by decide) (by decide) (by decide),
   header_codec_round_trip heapI0 4096 2 0 (by decide) (by decide) (by decide) (by decide)⟩

/-- C23. Allocation in the implicit variant is complete and first fit, and its
capacity check is redundant.  On a tiled heap whose `nused` is 8 per block plus
the payloads of the allocated blocks, for `1 ≤ n ≤ MAX_REQUEST_SIZE`,
`mymalloc(n)` returns; the address is not `NULL` exactly when some free block
has payload size at least `round_up(n, 8)`; it is then the payload of the
lowest-address such block; and whenever such a block exists the test
`n + nused > segment_size` is false and `validate_request` accepts. -/
theorem implicit_mymalloc_complete (MAX fuel n : Nat) (s : State) (bs : List Blk)
    (t : Tiled 8 s bs)
    (hacc : s.nused = ALIGNMENT * bs.length + ((bs.filter (fun b => !b.free)).map Blk.size).sum)
    (h1 : 1 ≤ n) (hM : n ≤ MAX) (hn : n < WORD) (hf : bs.length < fuel) :
    ∃ q s2, Implicit.mymalloc MAX fuel s n = .ok (q, s2) ∧
      (q ≠ 0 ↔ ∃ c ∈ bs, c.free = true ∧ (n + 7) / 8 * 8 ≤ c.size) ∧
      (q ≠ 0 → ∃ c ∈ bs, c.free = true ∧ (n + 7) / 8 * 8 ≤ c.size ∧ q = c.addr + 8 ∧
        ∀ d ∈ bs, d.free = true → (n + 7) / 8 * 8 ≤ d.size → c.addr ≤ d.addr) ∧
      ((∃ c ∈ bs, c.free = true ∧ (n + 7) / 8 * 8 ≤ c.size) →
        ¬ ((n + s.nused) % WORD > s.segment_size) ∧
          validate_request MAX s n (roundup n ALIGNMENT) = true) := by
  have hacc2 : s.nused = acct bs := by
    rw [hacc, acct_eq_sum]
    rfl
  have hspan := Chain_span _ _ _ t.chain
  have hsz := t.size_eq
  have hW := t.end_lt
  -- a fitting free block makes the request check pass
  have key : (∃ c ∈ bs, c.free = true ∧ (n + 7) / 8 * 8 ≤ c.size) →
      n + 7 < WORD ∧ ¬ ((n + s.nused) % WORD > s.segment_size) ∧
        validate_request MAX s n (roundup n ALIGNMENT) = true := by
    rintro ⟨c, hc, hcf, hcs⟩
    have hm := t.mem_bounds hc
    have hle := acct_add_free_le bs c hc hcf
    have h7 : n + 7 < WORD := by omega
    have hcap : ¬ ((n + s.nused) % WORD > s.segment_size) := by
      rw [Nat.mod_eq_of_lt (by omega)]
      omega
    refine ⟨h7, hcap, ?_⟩
    unfold validate_request
    rw [if_neg (by rw [roundup_eq n h7]; omega), if_neg hcap, if_neg (by omega)]
  rw [Implicit.mymalloc_eq MAX fuel n t hn hf]
  by_cases hex : ∃ c ∈ bs, c.free = true ∧ (n + 7) / 8 * 8 ≤ c.size
  · obtain ⟨h7, hcap, hv⟩ := key hex
    rw [if_pos hv, roundup_eq n h7]
    cases hfind : bs.find? (Implicit.fit ((n + 7) / 8 * 8)) with
    | none =>
      exfalso
      obtain ⟨c, hc, hcf, hcs⟩ := hex
      have := List.find?_eq_none.1 hfind c hc
      simp [Implicit.fit, hcf, hcs] at this
    | some c =>
      obtain ⟨hfit, l, r, ebs, hpre⟩ := List.find?_eq_some.1 hfind
      simp only [Implicit.fit, Bool.and_eq_true, decide_eq_true_eq] at hfit
      have hc : c ∈ bs := by rw [ebs]; simp
      have hfirst : ∀ d ∈ bs, d.free = true → (n + 7) / 8 * 8 ≤ d.size → c.addr ≤ d.addr := by
        intro d hd hdf hds
        rw [ebs] at hd
        rcases List.mem_append.1 hd with h | h
        · have := hpre d h
          simp [Implicit.fit, hdf, hds] at this
        · rcases List.mem_cons.1 h with h | h
          · rw [h]
          · have hch := t.chain
            rw [ebs, Chain_split] at hch
            have := Chain_mem _ _ _ hch.2 d h
            omega
      refine ⟨c.addr + 8, _, rfl, ?_, ?_,
        fun _ => ⟨hcap, by rw [roundup_eq n h7] at hv; exact hv⟩⟩
      · exact ⟨fun _ => hex, fun _ => by omega⟩
      · intro _
        exact ⟨c, hc, hfit.2, hfit.1, rfl, hfirst⟩
  · have hnone : ∀ c, bs.find? (Implicit.fit (roundup n ALIGNMENT)) = some c →
        validate_request MAX s n (roundup n ALIGNMENT) = true → False := by
      intro c hfind hv
      obtain ⟨e, -, -, -, -⟩ := validate_facts MAX s n hn hv
      have hc : c ∈ bs := List.mem_of_find?_eq_some hfind
      have hfit : Implicit.fit (roundup n ALIGNMENT) c = true := List.find?_some hfind
      rw [e] at hfit
      simp only [Implicit.fit, Bool.and_eq_true, decide_eq_true_eq] at hfit
      exact hex ⟨c, hc, hfit.2, hfit.1⟩
    have hfin : ∀ q, q = 0 →
        (q ≠ 0 ↔ ∃ c ∈ bs, c.free = true ∧ (n + 7) / 8 * 8 ≤ c.size) ∧
        (q ≠ 0 → ∃ c ∈ bs, c.free = true ∧ (n + 7) / 8 * 8 ≤ c.size ∧ q = c.addr + 8 ∧
          ∀ d ∈ bs, d.free = true → (n + 7) / 8 * 8 ≤ d.size → c.addr ≤ d.addr) ∧
        ((∃ c ∈ bs, c.free = true ∧ (n + 7) / 8 * 8 ≤ c.size) →
          ¬ ((n + s.nused) % WORD > s.segment_size) ∧
            validate_request MAX s n (roundup n ALIGNMENT) = true) := by
      intro q hq
      exact ⟨⟨fun h => absurd hq h, fun h => absurd h hex⟩, fun h => absurd hq h,
        fun h => absurd h hex⟩
    by_cases hv : validate_request MAX s n (roundup n ALIGNMENT) = true
    · rw [if_pos hv]
      cases hfind : bs.find? (Implicit.fit (roundup n ALIGNMENT)) with
      | none => exact ⟨0, s, rfl, hfin 0 rfl⟩
      | some c => exact absurd hv (fun h => hnone c hfind h)
    · rw [if_neg hv]
      exact ⟨0, s, rfl, hfin 0 rfl⟩

/-- C23, on the implicit heap after `myinit` on 128 bytes and `mymalloc(32)`:
a request of 72 bytes is served from the free block of 80 bytes. -/
theorem implicit_mymalloc_complete_witness :
    ∃ q s2, Implicit.mymalloc (2 ^ 30) 200 heapI1 72 = .ok (q, s2) ∧
      (q ≠ 0 ↔ ∃ c ∈ [(⟨4096, 32, false⟩ : Blk), ⟨4136, 80, true⟩],
        c.free = true ∧ (72 + 7) / 8 * 8 ≤ c.size) ∧
      (q ≠ 0 → ∃ c ∈ [(⟨4096, 32, false⟩ : Blk), ⟨4136, 80, true⟩],
        c.free = true ∧ (72 + 7) / 8 * 8 ≤ c.size ∧ q = c.addr + 8 ∧
        ∀ d ∈ [(⟨4096, 32, false⟩ : Blk), ⟨4136, 80, true⟩],
          d.free = true → (72 + 7) / 8 * 8 ≤ d.size → c.addr ≤ d.addr) ∧
      ((∃ c ∈ [(⟨4096, 32, false⟩ : Blk), ⟨4136, 80, true⟩],
          c.free = true ∧ (72 + 7) / 8 * 8 ≤ c.size) →
        ¬ ((72 + heapI1.nused) % WORD > heapI1.segment_size) ∧
          validate_request (2 ^ 30) heapI1 72 (roundup 72 ALIGNMENT) = true) :=
  implicit_mymalloc_complete (2 ^ 30) 200 72 heapI1 [⟨4096, 32, false⟩, ⟨4136, 80, true⟩]
    (by decide) (by decide) (by decide) (by decide) (by decide) (by decide)

end Heap
